import Mathlib

/-!
Verification of the arithmetic core of the py-fhe library (BFV and CKKS
homomorphic encryption schemes).  The Lean definitions below are shallow
embeddings of the Python source files:

  util/polynomial.py, util/ntt.py, util/crt.py, util/bit_operations.py,
  util/number_theory.py, util/random_sample.py,
  bfv/bfv_key_generator.py, bfv/bfv_encryptor.py, bfv/bfv_decryptor.py,
  ckks/ckks_evaluator.py.

Modelling conventions:
  * Python arbitrary-precision integers become Int; Python lists become
    List Int.  Python percent is Int.emod (both give the representative in
    [0, q) for q > 0).
  * Python floats are modelled two ways, stated at each definition: where a
    claim is about exact values of float computations we model IEEE binary64
    round-to-nearest-even arithmetic on rationals (the function fl below);
    where the code uses floats only as idealized reals (the FFT path, the
    division by the scaling factor in decryption) we use exact Rat, Real or
    Complex arithmetic.
  * Python round is round-half-to-even (banker's rounding); pyRound below
    implements it exactly.
  * Randomness becomes explicit arguments: sampled vectors are parameters of
    the encryption and key generation functions, and the Hamming-weight
    sampler takes an explicit stream of draws plus a fuel bound.
-/

namespace PyFhe

/-! ### Python round (banker's rounding)

Python's built-in round() rounds to the nearest integer and rounds ties to
the nearest even integer.  pyRound models it exactly on rationals. -/

/-- Python round on a rational: nearest integer, ties to even. -/
def pyRound (x : ℚ) : ℤ :=
  let n : ℤ := ⌊x⌋
  let f : ℚ := x - (n : ℚ)
  if (1 : ℚ)/2 < f then n + 1
  else if f < (1 : ℚ)/2 then n
  else if n % 2 = 0 then n else n + 1

/-! ### util/polynomial.py : the Polynomial class

A Polynomial stores the ring degree d and the list of coefficients, exactly
like the Python class.  The Python constructor asserts
len(coeffs) == degree; we model the raw record plus a checked constructor
mkPolynomial that returns an error when the length differs.

Python percent on ints is Int.emod (written %) and Python floor division //
is Int.fdiv; both agree with the Python semantics for the positive moduli
used by the library and for negative dividends.  Optional moduli are
Option Int; Python tests them with `if coeff_modulus:` which is false both
for None and for 0, hence the applyRed helper. -/

structure Polynomial where
  ring_degree : ℕ
  coeffs : List ℤ
deriving Repr, DecidableEq

/-- Checked constructor modelling the assert in Polynomial.__init__. -/
def mkPolynomial (degree : ℕ) (coeffs : List ℤ) : Except String Polynomial :=
  if coeffs.length = degree then Except.ok ⟨degree, coeffs⟩
  else Except.error "Size of polynomial array is not equal to degree of ring"

/-- Python truthiness of the optional coefficient modulus: None and 0 both
skip the reduction. -/
def applyRed (q : Option ℤ) (v : ℤ) : ℤ :=
  match q with
  | some m => if m = 0 then v else v % m
  | none => v

/-- Polynomial.mod: reduce every coefficient with Python percent. -/
def Polynomial.mod (p : Polynomial) (coeff_modulus : ℤ) : Polynomial :=
  ⟨p.ring_degree, p.coeffs.map (· % coeff_modulus)⟩

/-- Polynomial.mod_small: reduce to the range (-q/2, q/2]. -/
def Polynomial.mod_small (p : Polynomial) (coeff_modulus : ℤ) : Polynomial :=
  let new_coeffs := p.coeffs.map (· % coeff_modulus)
  ⟨p.ring_degree, new_coeffs.map (fun c => if coeff_modulus.fdiv 2 < c then c - coeff_modulus else c)⟩

/-- Polynomial.add. -/
def Polynomial.add (p poly : Polynomial) (coeff_modulus : Option ℤ := none) : Polynomial :=
  let poly_sum : Polynomial :=
    ⟨p.ring_degree, (List.range p.ring_degree).map
      (fun i => p.coeffs.getD i 0 + poly.coeffs.getD i 0)⟩
  match coeff_modulus with
  | some m => if m = 0 then poly_sum else poly_sum.mod m
  | none => poly_sum

/-- Polynomial.subtract. -/
def Polynomial.subtract (p poly : Polynomial) (coeff_modulus : Option ℤ := none) : Polynomial :=
  let poly_diff : Polynomial :=
    ⟨p.ring_degree, (List.range p.ring_degree).map
      (fun i => p.coeffs.getD i 0 - poly.coeffs.getD i 0)⟩
  match coeff_modulus with
  | some m => if m = 0 then poly_diff else poly_diff.mod m
  | none => poly_diff

/-- The inner convolution sum of Polynomial.multiply_naive for the degree-d
term: sum over i in range(N) of coeffs1[i] * coeffs2[d-i] when
0 <= d - i < N. -/
def convCoeff (c1 c2 : List ℤ) (N d : ℕ) : ℤ :=
  ∑ i ∈ Finset.range N, if i ≤ d ∧ d - i < N then c1.getD i 0 * c2.getD (d - i) 0 else 0

/-- One iteration of the d-loop of Polynomial.multiply_naive: accumulate the
signed convolution coefficient into position d mod N, then reduce when a
(truthy) modulus was given. -/
def naiveStep (q : Option ℤ) (c1 c2 : List ℤ) (N : ℕ) (acc : List ℤ) (d : ℕ) : List ℤ :=
  let index := d % N
  let sign : ℤ := if d < N then 1 else -1
  let coeff := convCoeff c1 c2 N d
  acc.set index (applyRed q (acc.getD index 0 + sign * coeff))

/-- Polynomial.multiply_naive: negacyclic schoolbook multiplication. -/
def Polynomial.multiply_naive (p poly : Polynomial) (coeff_modulus : Option ℤ := none) :
    Polynomial :=
  ⟨p.ring_degree,
    (List.range (2 * p.ring_degree - 1)).foldl
      (naiveStep coeff_modulus p.coeffs poly.coeffs p.ring_degree)
      (List.replicate p.ring_degree 0)⟩

/-- The negacyclic convolution coefficient: the coefficient of x^j in the
product of two degree-(N-1) polynomials reduced modulo x^N + 1. -/
def ncCoeff (c1 c2 : List ℤ) (N j : ℕ) : ℤ :=
  convCoeff c1 c2 N j - convCoeff c1 c2 N (j + N)

/-- The list of negacyclic convolution coefficients of two length-N lists:
the coefficients of the product in Z[x]/(x^N + 1). -/
def ncList (N : ℕ) (x y : List ℤ) : List ℤ :=
  (List.range N).map (fun j => ncCoeff x y N j)

/-- Polynomial.scalar_multiply. -/
def Polynomial.scalar_multiply (p : Polynomial) (scalar : ℤ) (coeff_modulus : Option ℤ := none) :
    Polynomial :=
  match coeff_modulus with
  | some m =>
    if m = 0 then ⟨p.ring_degree, p.coeffs.map (fun c => scalar * c)⟩
    else ⟨p.ring_degree, p.coeffs.map (fun c => (scalar * c) % m)⟩
  | none => ⟨p.ring_degree, p.coeffs.map (fun c => scalar * c)⟩

/-- Polynomial.scalar_integer_divide (Python floor division). -/
def Polynomial.scalar_integer_divide (p : Polynomial) (scalar : ℤ)
    (coeff_modulus : Option ℤ := none) : Polynomial :=
  match coeff_modulus with
  | some m =>
    if m = 0 then ⟨p.ring_degree, p.coeffs.map (fun c => c.fdiv scalar)⟩
    else ⟨p.ring_degree, p.coeffs.map (fun c => (c.fdiv scalar) % m)⟩
  | none => ⟨p.ring_degree, p.coeffs.map (fun c => c.fdiv scalar)⟩

/-- Polynomial.rotate: the map m(X) -> m(X^k) with k = 5^r.  The Python loop
writes each source coefficient i to position (i*k) mod 2N, negated when that
index is at least N.  Successive writes are modelled by folding List.set over
the source indices, exactly as the loop mutates new_coeffs. -/
def Polynomial.rotate (p : Polynomial) (r : ℕ) : Polynomial :=
  let k : ℕ := 5 ^ r
  let N := p.ring_degree
  ⟨N, (List.range N).foldl (fun acc i =>
      let index := (i * k) % (2 * N)
      if index < N then acc.set index (p.coeffs.getD i 0)
      else acc.set (index - N) (-(p.coeffs.getD i 0))) (List.replicate N 0)⟩

/-- Polynomial.conjugate: the map m(X) -> m(X^(-1)). -/
def Polynomial.conjugate (p : Polynomial) : Polynomial :=
  let N := p.ring_degree
  ⟨N, (List.range N).map (fun i =>
      if i = 0 then p.coeffs.getD 0 0 else -(p.coeffs.getD (N - i) 0))⟩

/-- Polynomial.evaluate (Horner). -/
def Polynomial.evaluate (p : Polynomial) (inp : ℤ) : ℤ :=
  (List.range (p.ring_degree - 1)).foldl
    (fun result i => result * inp + p.coeffs.getD (p.ring_degree - 2 - i) 0)
    (p.coeffs.getD (p.ring_degree - 1) 0)

/-! Rational-coefficient polynomials: the Python Polynomial class holds
float coefficients transiently (between the division by the scaling factor
and round/floor).  We model that state with exact rationals. -/

structure PolynomialQ where
  ring_degree : ℕ
  coeffs : List ℚ
deriving Repr, DecidableEq

/-- Python int() truncation toward zero on a rational. -/
def pyTrunc (c : ℚ) : ℤ := if 0 ≤ c then ⌊c⌋ else ⌈c⌉

/-- Polynomial.scalar_multiply at a float scalar (no modulus at these call
sites), landing in float coefficients. -/
def Polynomial.scalar_multiply_float (p : Polynomial) (scalar : ℚ) : PolynomialQ :=
  ⟨p.ring_degree, p.coeffs.map (fun (c : ℤ) => scalar * (c : ℚ))⟩

/-- Polynomial.round on real (non-complex) coefficients: Python round,
which is round-half-to-even. -/
def PolynomialQ.round (p : PolynomialQ) : Polynomial :=
  ⟨p.ring_degree, p.coeffs.map pyRound⟩

/-- Polynomial.floor: Python int() truncation on each coefficient. -/
def PolynomialQ.floor (p : PolynomialQ) : Polynomial :=
  ⟨p.ring_degree, p.coeffs.map pyTrunc⟩

/-! ### IEEE binary64 model

Python floats are IEEE binary64 values.  fl rounds an exact rational to the
nearest binary64 value (53 significand bits, ties to even), ignoring
overflow and subnormals, which never occur at the call sites that matter
(the base_decompose digit loop).  Note that IEEE ties-to-even on the scaled
significand is exactly pyRound. -/

/-- Round a positive rational to 53 significand bits, ties to even. -/
def flPos (x : ℚ) : ℚ :=
  ((pyRound (x * (2 : ℚ) ^ ((52 : ℤ) - Int.log 2 x)) : ℚ)) * (2 : ℚ) ^ (Int.log 2 x - 52)

/-- Round a rational to the nearest IEEE binary64 value. -/
def fl (x : ℚ) : ℚ :=
  if x = 0 then 0 else if 0 < x then flPos x else -(flPos (-x))

/-- Polynomial.base_decompose - the float state update: the Python code runs
poly.scalar_multiply(1 / base).floor(); 1 / base is binary64 division, the
integer coefficient is converted to binary64, the product is binary64
multiplication (each step rounding with fl), and int() truncates. -/
def baseDecomposeStep (base : ℤ) (poly : Polynomial) : Polynomial :=
  ⟨poly.ring_degree,
    poly.coeffs.map (fun (c : ℤ) => pyTrunc (fl (fl (c : ℚ) * fl (1 / (base : ℚ)))))⟩

/-- Polynomial.base_decompose: repeatedly emit poly.mod(base) and divide the
working polynomial by the base on the (binary64) float path. -/
def Polynomial.base_decompose (p : Polynomial) (base : ℤ) (num_levels : ℕ) : List Polynomial :=
  ((List.range num_levels).foldl (fun (st : List Polynomial × Polynomial) _ =>
      (st.1 ++ [st.2.mod base], baseDecomposeStep base st.2)) ([], p)).1

/-! ### util/bit_operations.py -/

/-- Fuel-driven base-2 logarithm (the fuel argument only makes the
recursion structural; pyLog2 below always supplies enough). -/
def pyLog2Aux : ℕ → ℕ → ℕ
  | 0, _ => 0
  | fuel + 1, n => if 2 ≤ n then pyLog2Aux fuel (n / 2) + 1 else 0

/-- int(log(n, 2)) of the Python source for the power-of-two arguments in
use: the floor base-2 logarithm. -/
def pyLog2 (n : ℕ) : ℕ := pyLog2Aux n n

/-- reverse_bits: reverse the low width bits of value.  The Python source
formats the value as a width-padded binary string and parses the reversed
string; for value < 2^width (every call site) that equals this recursive
bit reversal. -/
def reverse_bits (value : ℕ) (width : ℕ) : ℕ :=
  match width with
  | 0 => 0
  | w + 1 => (value % 2) * 2 ^ w + reverse_bits (value / 2) w

/-- bit_reverse_vec: permute a list by bit-reversing indices.  The Python
source computes the width as int(log(len, 2)), exact for the power-of-two
lengths used everywhere; pyLog2 matches it. -/
def bit_reverse_vec {R : Type} [CommRing R] (values : List R) : List R :=
  (List.range values.length).map
    (fun i => values.getD (reverse_bits i (pyLog2 values.length)) 0)

/-! ### util/ntt.py

The iterated butterfly loops of NTTContext.ntt and FFTContext.fft are
identical except for the reduction applied after each arithmetic step
(percent coeff_modulus for the NTT, nothing for the FFT) and the formula
for the root-of-unity index.  nttLoop is that shared triple loop, with the
reduction red and the index formula twiddleIdx as parameters; each
in-place array write becomes List.set.  The Python source computes
log_num_coeffs as int(log(num_coeffs, 2)), exact for power-of-two lengths;
pyLog2 matches it, and the block loop range(0, num_coeffs, m) has
ceil(num_coeffs / m) iterations. -/

def nttLoop {R : Type} [CommRing R] (red : R → R) (rou : List R)
    (twiddleIdx : ℕ → ℕ → ℕ) (num_coeffs : ℕ) (input : List R) : List R :=
  (List.range (pyLog2 num_coeffs)).foldl (fun result s =>
    let logm := s + 1
    let m := 1 <<< logm
    ((List.range ((num_coeffs + m - 1) / m)).map (· * m)).foldl (fun result j =>
      (List.range (1 <<< (logm - 1))).foldl (fun result i =>
        let index_even := j + i
        let index_odd := j + i + (1 <<< (logm - 1))
        let omega_factor := red (rou.getD (twiddleIdx logm i) 0 * result.getD index_odd 0)
        let butterfly_plus := red (result.getD index_even 0 + omega_factor)
        let butterfly_minus := red (result.getD index_even 0 - omega_factor)
        (result.set index_even butterfly_plus).set index_odd butterfly_minus) result) result)
    input

/-- The butterfly body of nttLoop (the i-loop step), factored out of the
nested lambdas so the loop proofs can speak about it. -/
def nttButterfly {R : Type} [CommRing R] (red : R → R) (rou : List R)
    (twiddleIdx : ℕ → ℕ → ℕ) (logm j : ℕ) (result : List R) (i : ℕ) : List R :=
  let index_even := j + i
  let index_odd := j + i + (1 <<< (logm - 1))
  let omega_factor := red (rou.getD (twiddleIdx logm i) 0 * result.getD index_odd 0)
  let butterfly_plus := red (result.getD index_even 0 + omega_factor)
  let butterfly_minus := red (result.getD index_even 0 - omega_factor)
  (result.set index_even butterfly_plus).set index_odd butterfly_minus

/-- The block body of nttLoop (the j-loop step): the butterflies of one
block. -/
def nttBlock {R : Type} [CommRing R] (red : R → R) (rou : List R)
    (twiddleIdx : ℕ → ℕ → ℕ) (logm : ℕ) (result : List R) (j : ℕ) : List R :=
  (List.range (1 <<< (logm - 1))).foldl (nttButterfly red rou twiddleIdx logm j) result

/-- The stage body of nttLoop (the outer-loop step): all blocks of one
stage. -/
def nttStage {R : Type} [CommRing R] (red : R → R) (rou : List R)
    (twiddleIdx : ℕ → ℕ → ℕ) (num_coeffs : ℕ) (result : List R) (s : ℕ) : List R :=
  let logm := s + 1
  let m := 1 <<< logm
  ((List.range ((num_coeffs + m - 1) / m)).map (· * m)).foldl
    (nttBlock red rou twiddleIdx logm) result

/-- The radix-2 decimation-in-time invariant: the array contents after s
butterfly stages on the bit-reversed input c, written as partial DFT sums
(block b of size 2^s at position i holds the size-2^s transform of the
stride-2^(n-s) subsequence of c selected by rev(b)). -/
def dftStage {R : Type} [CommRing R] (ζ : R) (n s : ℕ) (c : List R) : List R :=
  (List.range (2^n)).map (fun idx =>
    ∑ k ∈ Finset.range (2^s),
      c.getD (k * 2^(n-s) + reverse_bits (idx / 2^s) (n-s)) 0 *
        ζ^(idx % 2^s * (k * 2^(n-s))))

/-- util/number_theory.py mod_exp: Python pow(val, exp, modulus) for a
nonnegative exponent. -/
def mod_exp (val : ℤ) (exp : ℕ) (modulus : ℤ) : ℤ :=
  (val ^ exp) % modulus

/-- util/number_theory.py mod_inv: inverse modulo a prime via Fermat. -/
def mod_inv (val : ℤ) (modulus : ℤ) : ℤ :=
  mod_exp val (modulus - 2).toNat modulus

/-- NTTContext: ring degree, coefficient modulus and the (2*degree)-th root
of unity used by the transforms.  In the source the default root is
computed by root_of_unity via sympy primitive roots (not part of src); we
carry the root as data, and the theorems hypothesize exactly what that
computation guarantees for a prime modulus q = 1 mod 2d: a primitive
(2d)-th root, equivalently root^degree = -1 mod q for power-of-two d. -/
structure NTTContext where
  degree : ℕ
  coeff_modulus : ℤ
  root_of_unity : ℤ

/-- The iterative power table of precompute_ntt: entry 0 is literally 1 and
entry i+1 is (entry i * w) mod q. -/
def powModIter (w q : ℤ) : ℕ → ℤ
  | 0 => 1
  | i + 1 => (powModIter w q i * w) % q

/-- precompute_ntt: roots_of_unity[i] = w^i mod q (entry 0 stored as 1). -/
def NTTContext.roots_of_unity (ctx : NTTContext) : List ℤ :=
  (List.range ctx.degree).map (powModIter ctx.root_of_unity ctx.coeff_modulus)

/-- precompute_ntt: the inverse root computed with mod_inv. -/
def NTTContext.root_of_unity_inv (ctx : NTTContext) : ℤ :=
  mod_inv ctx.root_of_unity ctx.coeff_modulus

/-- precompute_ntt: roots_of_unity_inv[i] = w^(-i) mod q. -/
def NTTContext.roots_of_unity_inv (ctx : NTTContext) : List ℤ :=
  (List.range ctx.degree).map (powModIter ctx.root_of_unity_inv ctx.coeff_modulus)

/-- NTTContext.ntt: bit-reverse the coefficients, then run the butterfly
loops with reduction mod coeff_modulus and root index
i << (1 + log2(n) - logm). -/
def NTTContext.ntt (ctx : NTTContext) (coeffs : List ℤ) (rou : List ℤ) : List ℤ :=
  nttLoop (fun x => x % ctx.coeff_modulus) rou
    (fun logm i => i <<< (1 + pyLog2 coeffs.length - logm)) coeffs.length
    (bit_reverse_vec coeffs)

/-- NTTContext.ftt_fwd: scale the inputs by the forward roots, then ntt. -/
def NTTContext.ftt_fwd (ctx : NTTContext) (coeffs : List ℤ) : List ℤ :=
  let ftt_input := (List.range coeffs.length).map
    (fun i => (coeffs.getD i 0 * ctx.roots_of_unity.getD i 0) % ctx.coeff_modulus)
  ctx.ntt ftt_input ctx.roots_of_unity

/-- NTTContext.ftt_inv: ntt with the inverse roots, then scale down by the
inverse roots and the inverse of the degree. -/
def NTTContext.ftt_inv (ctx : NTTContext) (coeffs : List ℤ) : List ℤ :=
  let to_scale_down := ctx.ntt coeffs ctx.roots_of_unity_inv
  let poly_degree_inv := mod_inv (ctx.degree : ℤ) ctx.coeff_modulus
  (List.range coeffs.length).map
    (fun i => (to_scale_down.getD i 0 * ctx.roots_of_unity_inv.getD i 0 * poly_degree_inv)
      % ctx.coeff_modulus)

/-- FFTContext: parameters of the complex FFT.  The precomputed root tables
hold complex(cos t, sin t) = exp(i t); we model the floats as exact
reals, so the tables are exact complex exponentials. -/
structure FFTContext where
  fft_length : ℕ

noncomputable def FFTContext.roots_of_unity (ctx : FFTContext) : List ℂ :=
  (List.range ctx.fft_length).map
    (fun (i : ℕ) => Complex.exp (2 * Real.pi * Complex.I * i / ctx.fft_length))

noncomputable def FFTContext.roots_of_unity_inv (ctx : FFTContext) : List ℂ :=
  (List.range ctx.fft_length).map
    (fun (i : ℕ) => Complex.exp (-(2 * Real.pi * Complex.I * i) / ctx.fft_length))

/-- FFTContext.fft: same butterfly loops with no reduction and root index
(i * fft_length) >> logm. -/
noncomputable def FFTContext.fft (ctx : FFTContext) (coeffs : List ℂ) (rou : List ℂ) :
    List ℂ :=
  nttLoop id rou (fun logm i => (i * ctx.fft_length) >>> logm) coeffs.length
    (bit_reverse_vec coeffs)

/-- FFTContext.fft_fwd. -/
noncomputable def FFTContext.fft_fwd (ctx : FFTContext) (coeffs : List ℂ) : List ℂ :=
  ctx.fft coeffs ctx.roots_of_unity

/-- FFTContext.fft_inv: fft with inverse roots, then divide by the length. -/
noncomputable def FFTContext.fft_inv (ctx : FFTContext) (coeffs : List ℂ) : List ℂ :=
  (ctx.fft coeffs ctx.roots_of_unity_inv).map (fun c => c / (coeffs.length : ℂ))

/-! ### util/crt.py

CRTContext.generate_primes draws candidate primes and tests them with the
randomized Miller-Rabin is_prime; the NTT root for each prime comes from
root_of_unity via sympy.  We carry the generated primes and their roots as
data; the theorems hypothesize what generation guarantees: the primes are
prime, distinct, and 1 mod 2*poly_degree with a root w satisfying
w^poly_degree = -1. -/
structure CRTContext where
  poly_degree : ℕ
  primes : List ℤ
  roots : List ℤ

/-- modulus: the product of the primes (the source accumulates it in a
loop). -/
def CRTContext.modulus (crt : CRTContext) : ℤ :=
  crt.primes.foldl (· * ·) 1

/-- generate_ntt_contexts: one NTTContext per prime. -/
def CRTContext.ntts (crt : CRTContext) : List NTTContext :=
  (List.range crt.primes.length).map
    (fun i => ⟨crt.poly_degree, crt.primes.getD i 0, crt.roots.getD i 0⟩)

/-- precompute_crt: crt_vals[i] = modulus // primes[i]. -/
def CRTContext.crt_vals (crt : CRTContext) : List ℤ :=
  crt.primes.map (fun p => crt.modulus.fdiv p)

/-- precompute_crt: crt_inv_vals[i] = mod_inv(crt_vals[i], primes[i]). -/
def CRTContext.crt_inv_vals (crt : CRTContext) : List ℤ :=
  (List.range crt.primes.length).map
    (fun i => mod_inv (crt.crt_vals.getD i 0) (crt.primes.getD i 0))

/-- CRTContext.crt: the residues of a value modulo each prime. -/
def CRTContext.crt (crt : CRTContext) (value : ℤ) : List ℤ :=
  crt.primes.map (fun p => value % p)

/-- CRTContext.reconstruct: Garner-style recombination, accumulating
(values[i] * crt_inv_vals[i] mod primes[i]) * crt_vals[i] modulo the big
modulus. -/
def CRTContext.reconstruct (crt : CRTContext) (values : List ℤ) : ℤ :=
  (List.range crt.primes.length).foldl (fun regular_rep_val i =>
    let intermed_val := (values.getD i 0 * crt.crt_inv_vals.getD i 0) % crt.primes.getD i 0
    let intermed_val2 := (intermed_val * crt.crt_vals.getD i 0) % crt.modulus
    (regular_rep_val + intermed_val2) % crt.modulus) 0

/-! ### Polynomial.multiply and friends

Polynomial.multiply dispatches on the optional crt and ntt arguments.  The
recursive call inside multiply_crt always passes an ntt context and no crt
context, so it resolves to the ntt branch; we name that branch multiply_ntt
to break the (one-level) recursion. -/

/-- The ntt branch of Polynomial.multiply: forward transforms, pointwise
product (with no reduction), inverse transform. -/
def Polynomial.multiply_ntt (p poly : Polynomial) (ntt : NTTContext) : Polynomial :=
  let a := ntt.ftt_fwd p.coeffs
  let b := ntt.ftt_fwd poly.coeffs
  let ab := (List.range p.ring_degree).map (fun i => a.getD i 0 * b.getD i 0)
  ⟨p.ring_degree, ntt.ftt_inv ab⟩

/-- Polynomial.multiply_crt: multiply with the NTT of each prime, then
CRT-reconstruct each coefficient and lift with mod_small at the big
modulus. -/
def Polynomial.multiply_crt (p poly : Polynomial) (crt : CRTContext) : Polynomial :=
  let poly_prods := (List.range crt.primes.length).map
    (fun i => p.multiply_ntt poly (crt.ntts.getD i ⟨0, 0, 0⟩))
  let final_coeffs := (List.range p.ring_degree).map
    (fun i => crt.reconstruct (poly_prods.map (fun pp => pp.coeffs.getD i 0)))
  (Polynomial.mk p.ring_degree final_coeffs).mod_small crt.modulus

/-- Polynomial.multiply: dispatch between the CRT, NTT and naive
algorithms. -/
def Polynomial.multiply (p poly : Polynomial) (coeff_modulus : ℤ)
    (ntt : Option NTTContext := none) (crt : Option CRTContext := none) : Polynomial :=
  match crt with
  | some c => p.multiply_crt poly c
  | none =>
    match ntt with
    | some nctx => p.multiply_ntt poly nctx
    | none => p.multiply_naive poly (some coeff_modulus)

/-! Complex-coefficient polynomials, used only on the FFT path. -/

structure PolynomialC where
  ring_degree : ℕ
  coeffs : List ℂ

/-- Python round on a float: round-half-to-even on the real line.  Used on
the FFT path; noncomputable because the reals are. -/
noncomputable def pyRoundR (x : ℝ) : ℤ :=
  if (1 : ℝ)/2 < x - (⌊x⌋ : ℝ) then ⌊x⌋ + 1
  else if x - (⌊x⌋ : ℝ) < (1 : ℝ)/2 then ⌊x⌋
  else if ⌊x⌋ % 2 = 0 then ⌊x⌋ else ⌊x⌋ + 1

/-- Polynomial.round on complex coefficients: Python takes round(c.real). -/
noncomputable def PolynomialC.round (p : PolynomialC) : Polynomial :=
  ⟨p.ring_degree, p.coeffs.map (fun c => pyRoundR c.re)⟩

/-- Polynomial.multiply_fft (round=True, the default): zero-pad to twice
the degree, transform with an FFT context of length 8*degree, multiply
pointwise, inverse transform, fold with the negacyclic sign (the Python
sign (int(d < N) - 0.5) * 2 is the float 1.0 or -1.0), then round.  The
accumulation loop into poly_prod is a fold of List.set writes. -/
noncomputable def Polynomial.multiply_fft (p poly : Polynomial) : Polynomial :=
  let fft : FFTContext := ⟨p.ring_degree * 8⟩
  let a := fft.fft_fwd (p.coeffs.map (fun (c : ℤ) => (c : ℂ)) ++ List.replicate p.ring_degree 0)
  let b := fft.fft_fwd (poly.coeffs.map (fun (c : ℤ) => (c : ℂ)) ++ List.replicate p.ring_degree 0)
  let ab := (List.range (p.ring_degree * 2)).map (fun i => a.getD i 0 * b.getD i 0)
  let prod := fft.fft_inv ab
  let poly_prod := (List.range (2 * p.ring_degree - 1)).foldl (fun acc d =>
      let index := d % p.ring_degree
      let sign : ℂ := if d < p.ring_degree then 1 else -1
      acc.set index (acc.getD index 0 + sign * prod.getD d 0))
    (List.replicate p.ring_degree 0)
  (PolynomialC.mk p.ring_degree poly_prod).round

/-- The body of the negacyclic folding loop of multiply_fft (the d-loop
step), factored out of the lambda so the loop proofs can speak about it. -/
noncomputable def fftStepAcc (N : ℕ) (prod : List ℂ) (acc : List ℂ) (d : ℕ) : List ℂ :=
  let index := d % N
  let sign : ℂ := if d < N then 1 else -1
  acc.set index (acc.getD index 0 + sign * prod.getD d 0)

/-! ### BFV scheme -/

/-- util/public_key.py. -/
structure PublicKey where
  p0 : Polynomial
  p1 : Polynomial

/-- util/secret_key.py. -/
structure SecretKey where
  s : Polynomial

/-- util/ciphertext.py as used by BFV: a pair of polynomials. -/
structure Ciphertext where
  c0 : Polynomial
  c1 : Polynomial

/-- util/plaintext.py as used by BFV: a polynomial (no scaling factor). -/
structure Plaintext where
  poly : Polynomial

/-- bfv/bfv_parameters.py: scaling_factor is the float ciph_modulus /
plain_modulus, modelled as the exact rational. -/
structure BFVParameters where
  poly_degree : ℕ
  plain_modulus : ℤ
  ciph_modulus : ℤ

def BFVParameters.scaling_factor (params : BFVParameters) : ℚ :=
  (params.ciph_modulus : ℚ) / (params.plain_modulus : ℚ)

/-- bfv/bfv_key_generator.py generate_public_key: the secret key s, the
uniform draw pk_coeff and the triangle draw pk_error are the sampling
outcomes, passed here explicitly.  p0 = -(a*s + e) mod q, p1 = a, with the
product computed by Polynomial.multiply (naive branch). -/
def generate_public_key (params : BFVParameters) (s pk_coeff pk_error : Polynomial) :
    PublicKey :=
  let p0 := (pk_error.add (pk_coeff.multiply s params.ciph_modulus)
      (some params.ciph_modulus)).scalar_multiply (-1) (some params.ciph_modulus)
  ⟨p0, pk_coeff⟩

/-- bfv/bfv_encryptor.py BFVEncryptor.__init__: scaling_factor is
int(params.scaling_factor), the truncation of the float q / t. -/
structure BFVEncryptor where
  poly_degree : ℕ
  coeff_modulus : ℤ
  public_key : PublicKey
  scaling_factor : ℤ

def mkBFVEncryptor (params : BFVParameters) (public_key : PublicKey) : BFVEncryptor :=
  ⟨params.poly_degree, params.ciph_modulus, public_key, pyTrunc params.scaling_factor⟩

/-- BFVEncryptor.encrypt.  The source samples random_vec (the triangle
vector u) and then samples error1 and error2 but immediately overwrites
both with zero polynomials, so only u is a parameter here and the errors
are the zero polynomials, exactly as in the source. -/
def BFVEncryptor.encrypt (enc : BFVEncryptor) (message : Plaintext)
    (random_vec : Polynomial) : Ciphertext :=
  let p0 := enc.public_key.p0
  let p1 := enc.public_key.p1
  let scaled_message := message.poly.scalar_multiply enc.scaling_factor (some enc.coeff_modulus)
  let error1 : Polynomial := ⟨enc.poly_degree, List.replicate enc.poly_degree 0⟩
  let error2 : Polynomial := ⟨enc.poly_degree, List.replicate enc.poly_degree 0⟩
  let c0 := (error1.add (p0.multiply random_vec enc.coeff_modulus) (some enc.coeff_modulus)).add
      scaled_message (some enc.coeff_modulus)
  let c1 := error2.add (p1.multiply random_vec enc.coeff_modulus) (some enc.coeff_modulus)
  ⟨c0, c1⟩

/-- bfv/bfv_decryptor.py BFVDecryptor: here scaling_factor is
params.scaling_factor itself (the float q / t, not its truncation). -/
structure BFVDecryptor where
  poly_degree : ℕ
  ciph_modulus : ℤ
  plain_modulus : ℤ
  scaling_factor : ℚ
  secret_key : SecretKey

def mkBFVDecryptor (params : BFVParameters) (secret_key : SecretKey) : BFVDecryptor :=
  ⟨params.poly_degree, params.ciph_modulus, params.plain_modulus, params.scaling_factor,
    secret_key⟩

/-- BFVDecryptor.decrypt (with the optional c2 argument): compute
c0 + c1*s (+ c2*s^2) mod q, multiply by 1 / scaling_factor in float
arithmetic (exact rational here), round, and reduce mod t. -/
def BFVDecryptor.decrypt (dec : BFVDecryptor) (ciphertext : Ciphertext)
    (c2 : Option Polynomial := none) : Plaintext :=
  let c0 := ciphertext.c0
  let c1 := ciphertext.c1
  let intermed_message := c0.add (c1.multiply dec.secret_key.s dec.ciph_modulus)
      (some dec.ciph_modulus)
  let intermed_message2 :=
    match c2 with
    | some c2p =>
      let secret_key_squared := dec.secret_key.s.multiply dec.secret_key.s dec.ciph_modulus
      intermed_message.add (c2p.multiply secret_key_squared dec.ciph_modulus)
        (some dec.ciph_modulus)
    | none => intermed_message
  let scaled := intermed_message2.scalar_multiply_float (1 / dec.scaling_factor)
  ⟨scaled.round.mod dec.plain_modulus⟩

/-! ### ckks/ckks_evaluator.py (the operations named by the claims)

CKKS ciphertexts and plaintexts carry a scaling factor (a float power of
two, modelled as an exact rational) and ciphertexts carry their own
modulus.  The Python asserts on mismatched scaling factors or moduli are
modelled by Except.error; multiply_plain performs no such check in the
source and therefore returns a plain ciphertext. -/

structure CKKSCiphertext where
  c0 : Polynomial
  c1 : Polynomial
  scaling_factor : ℚ
  modulus : ℤ
deriving Repr, DecidableEq

structure CKKSPlaintext where
  poly : Polynomial
  scaling_factor : ℚ
deriving Repr, DecidableEq

/-- Python float floor division: a // b on floats, modelled exactly. -/
def pyFloorDivQ (a : ℚ) (b : ℤ) : ℚ := ((⌊a / (b : ℚ)⌋ : ℤ) : ℚ)

/-- CKKSEvaluator.add: asserts equal scaling factors, then equal moduli. -/
def CKKSEvaluator.add (ciph1 ciph2 : CKKSCiphertext) : Except String CKKSCiphertext :=
  if ciph1.scaling_factor ≠ ciph2.scaling_factor then
    Except.error "Scaling factors are not equal."
  else if ciph1.modulus ≠ ciph2.modulus then
    Except.error "Moduli are not equal."
  else
    let modulus := ciph1.modulus
    let c0 := (ciph1.c0.add ciph2.c0 (some modulus)).mod_small modulus
    let c1 := (ciph1.c1.add ciph2.c1 (some modulus)).mod_small modulus
    Except.ok ⟨c0, c1, ciph1.scaling_factor, modulus⟩

/-- CKKSEvaluator.add_plain: asserts equal scaling factors. -/
def CKKSEvaluator.add_plain (ciph : CKKSCiphertext) (plain : CKKSPlaintext) :
    Except String CKKSCiphertext :=
  if ciph.scaling_factor ≠ plain.scaling_factor then
    Except.error "Scaling factors are not equal."
  else
    let c0 := (ciph.c0.add plain.poly (some ciph.modulus)).mod_small ciph.modulus
    Except.ok ⟨c0, ciph.c1, ciph.scaling_factor, ciph.modulus⟩

/-- CKKSEvaluator.subtract: asserts equal scaling factors, then equal
moduli. -/
def CKKSEvaluator.subtract (ciph1 ciph2 : CKKSCiphertext) : Except String CKKSCiphertext :=
  if ciph1.scaling_factor ≠ ciph2.scaling_factor then
    Except.error "Scaling factors are not equal."
  else if ciph1.modulus ≠ ciph2.modulus then
    Except.error "Moduli are not equal."
  else
    let modulus := ciph1.modulus
    let c0 := (ciph1.c0.subtract ciph2.c0 (some modulus)).mod_small modulus
    let c1 := (ciph1.c1.subtract ciph2.c1 (some modulus)).mod_small modulus
    Except.ok ⟨c0, c1, ciph1.scaling_factor, modulus⟩

/-- CKKSEvaluator.multiply_plain: no scaling-factor check in the source;
the result carries the product of the scaling factors. -/
def CKKSEvaluator.multiply_plain (ciph : CKKSCiphertext) (plain : CKKSPlaintext) :
    CKKSCiphertext :=
  let c0 := (ciph.c0.multiply plain.poly ciph.modulus).mod_small ciph.modulus
  let c1 := (ciph.c1.multiply plain.poly ciph.modulus).mod_small ciph.modulus
  ⟨c0, c1, ciph.scaling_factor * plain.scaling_factor, ciph.modulus⟩

/-- CKKSEvaluator.rescale: floor-divide the coefficients, the scaling
factor and the modulus by the division factor. -/
def CKKSEvaluator.rescale (ciph : CKKSCiphertext) (division_factor : ℤ) : CKKSCiphertext :=
  ⟨ciph.c0.scalar_integer_divide division_factor,
   ciph.c1.scalar_integer_divide division_factor,
   pyFloorDivQ ciph.scaling_factor division_factor,
   ciph.modulus.fdiv division_factor⟩

/-- CKKSEvaluator.lower_modulus: reduce the polynomials with mod_small at
the lowered modulus; the scaling factor is untouched. -/
def CKKSEvaluator.lower_modulus (ciph : CKKSCiphertext) (division_factor : ℤ) :
    CKKSCiphertext :=
  let new_modulus := ciph.modulus.fdiv division_factor
  ⟨ciph.c0.mod_small new_modulus, ciph.c1.mod_small new_modulus,
   ciph.scaling_factor, new_modulus⟩

/-! ### util/random_sample.py sample_hamming_weight_vector

The Python loop draws random.randrange(0, length) and random.randint(0, 1)
until the vector has the requested weight.  We model the entropy source as
a stream of (index, bit) pairs, one per loop iteration (the bit is unused
when the slot is already occupied), and run the loop with explicit fuel:
none means the loop has not terminated within the given number of
iterations. -/

structure HWState where
  sample : List ℤ
  total_weight : ℕ
deriving Repr, DecidableEq

/-- One iteration of the sampling loop body. -/
def hwStep (draw : ℕ × ℕ) (st : HWState) : HWState :=
  if st.sample.getD draw.1 0 = 0 then
    ⟨st.sample.set draw.1 (if draw.2 = 0 then -1 else 1), st.total_weight + 1⟩
  else st

/-- The while loop of sample_hamming_weight_vector with fuel. -/
def sampleHWAux (stream : ℕ → ℕ × ℕ) (hamming_weight : ℕ) :
    ℕ → ℕ → HWState → Option (List ℤ)
  | 0, _, st => if hamming_weight ≤ st.total_weight then some st.sample else none
  | fuel + 1, k, st =>
    if hamming_weight ≤ st.total_weight then some st.sample
    else sampleHWAux stream hamming_weight fuel (k + 1) (hwStep (stream k) st)

/-- sample_hamming_weight_vector: start from the all-zero vector. -/
def sample_hamming_weight_vector (stream : ℕ → ℕ × ℕ) (length hamming_weight fuel : ℕ) :
    Option (List ℤ) :=
  sampleHWAux stream hamming_weight fuel 0 ⟨List.replicate length 0, 0⟩

/-- Number of nonzero entries of a vector (specification-side notion used
to state the Hamming-weight properties). -/
def countNonzero (l : List ℤ) : ℕ := l.countP (fun x => x ≠ 0)

/-- Well-formedness of an embedded Polynomial: the invariant asserted by
the Python constructor. -/
def Polynomial.wf (p : Polynomial) : Prop := p.coeffs.length = p.ring_degree

/-- Well-formedness of a float-coefficient Polynomial. -/
def PolynomialQ.wf (p : PolynomialQ) : Prop := p.coeffs.length = p.ring_degree

end PyFhe


/-! ### Algebra of the negacyclic convolution

We relate ncList to multiplication in Z[x]/(x^N + 1) via Mathlib
polynomials, to obtain the commutativity and associativity facts needed for
the BFV and NTT correctness proofs.  This section lives outside the PyFhe
namespace because the embedded Polynomial record shadows Mathlib Polynomial
inside it. -/

open Polynomial in
/-- The Mathlib polynomial with the coefficients of an embedded list. -/
noncomputable def listToPoly (c : List ℤ) : Polynomial ℤ :=
  ∑ i ∈ Finset.range c.length, C (c.getD i 0) * X ^ i

/-- The quotient map Z[x] to Z[x]/(x^N + 1). -/
noncomputable def ncMk (N : ℕ) :
    Polynomial ℤ →+* AdjoinRoot ((Polynomial.X : Polynomial ℤ) ^ N + 1) :=
  AdjoinRoot.mk ((Polynomial.X : Polynomial ℤ) ^ N + 1)


/-! ### Theorems -/

namespace PyFhe


/-! ### Small list helpers -/

/-- getD after set at a different index is unchanged. -/
theorem getD_set_ne {α : Type} (l : List α) (i j : ℕ) (a d : α) (h : i ≠ j) :
    (l.set i a).getD j d = l.getD j d := by
  simp only [List.getD_eq_getElem?_getD]
  rw [List.getElem?_set_ne h]

/-- getD after set at the same in-range index returns the new value. -/
theorem getD_set_self {α : Type} (l : List α) (i : ℕ) (a d : α) (h : i < l.length) :
    (l.set i a).getD i d = a := by
  simp only [List.getD_eq_getElem?_getD]
  rw [List.getElem?_set_self]
  · rfl
  · exact h

theorem getD_map_range {α : Type} (n j : ℕ) (f : ℕ → α) (d : α) (h : j < n) :
    (((List.range n).map f).getD j d) = f j := by
  simp only [List.getD_eq_getElem?_getD]
  rw [List.getElem?_map]
  simp [List.getElem?_range h]

theorem getD_map_range_ge {α : Type} (n j : ℕ) (f : ℕ → α) (d : α) (h : n ≤ j) :
    (((List.range n).map f).getD j d) = d := by
  simp only [List.getD_eq_getElem?_getD]
  rw [List.getElem?_map]
  rw [List.getElem?_eq_none (by simpa using h)]
  rfl

/-- pyRound fixes integers. -/
theorem pyRound_intCast (n : ℤ) : pyRound (n : ℚ) = n := by
  unfold pyRound
  norm_num

/-- pyRound of an integer plus a perturbation smaller than one half in
absolute value returns the integer. -/
theorem pyRound_int_add_small (n : ℤ) (e : ℚ) (h : |e| < 1/2) :
    pyRound ((n : ℚ) + e) = n := by
  rw [abs_lt] at h
  unfold pyRound
  rcases le_or_lt 0 e with he | he
  · have hfl : ⌊(n : ℚ) + e⌋ = n := by
      rw [Int.floor_eq_iff]
      constructor
      · simpa using he
      · linarith [h.2]
    rw [hfl]
    have h1 : ¬ ((1:ℚ)/2 < (n : ℚ) + e - (n : ℚ)) := by intro hc; rw [add_sub_cancel_left] at hc; linarith [h.2]
    have h2 : ((n : ℚ) + e - (n : ℚ)) < 1/2 := by rw [add_sub_cancel_left]; linarith [h.2]
    rw [if_neg h1, if_pos h2]
  · have hfl : ⌊(n : ℚ) + e⌋ = n - 1 := by
      rw [Int.floor_eq_iff]
      refine ⟨by push_cast; linarith [h.1], by push_cast; linarith [he]⟩
    rw [hfl]
    have h1 : (1:ℚ)/2 < (n : ℚ) + e - ((n - 1 : ℤ) : ℚ) := by push_cast; linarith [h.1]
    rw [if_pos h1]
    omega

theorem applyRed_applyRed_add (q : Option ℤ) (a b : ℤ) :
    applyRed q (applyRed q a + b) = applyRed q (a + b) := by
  match q with
  | none => rfl
  | some m =>
    by_cases hm : m = 0
    · simp [applyRed, hm]
    · simp only [applyRed, if_neg hm]
      rw [Int.add_emod (a % m) b, Int.emod_emod_of_dvd a dvd_rfl, ← Int.add_emod]

theorem naive_phase1 (q : Option ℤ) (c1 c2 : List ℤ) (N : ℕ) (k : ℕ) (hk : k ≤ N) :
    ((List.range k).foldl (naiveStep q c1 c2 N) (List.replicate N 0)).length = N ∧
    ∀ j, j < N →
      ((List.range k).foldl (naiveStep q c1 c2 N) (List.replicate N 0)).getD j 0 =
        if j < k then applyRed q (convCoeff c1 c2 N j) else 0 := by
  induction k with
  | zero =>
    refine ⟨by simp, ?_⟩
    intro j hj
    simp [List.getD_eq_getElem?_getD, List.getElem?_replicate, hj]
  | succ k ih =>
    obtain ⟨hlen, hval⟩ := ih (Nat.le_of_succ_le hk)
    rw [List.range_succ, List.foldl_append]
    set R := (List.range k).foldl (naiveStep q c1 c2 N) (List.replicate N 0) with hR
    have hkN : k < N := hk
    have hstep : List.foldl (naiveStep q c1 c2 N) R [k] =
        R.set k (applyRed q (convCoeff c1 c2 N k)) := by
      simp only [List.foldl_cons, List.foldl_nil, naiveStep]
      rw [Nat.mod_eq_of_lt hkN, if_pos hkN, hval k hkN, if_neg (lt_irrefl k), zero_add,
        one_mul]
    rw [hstep]
    refine ⟨by simp [hlen], ?_⟩
    intro j hj
    by_cases hjk : j = k
    · subst hjk
      rw [getD_set_self _ _ _ _ (by omega), if_pos (Nat.lt_succ_self j)]
    · rw [getD_set_ne _ _ _ _ _ (fun h => hjk h.symm), hval j hj]
      by_cases hlt : j < k
      · rw [if_pos hlt, if_pos (Nat.lt_succ_of_lt hlt)]
      · rw [if_neg hlt, if_neg (by omega)]

theorem naive_phase2 (q : Option ℤ) (c1 c2 : List ℤ) (N : ℕ) (k : ℕ) (hk : k ≤ N - 1)
    (hN : 0 < N) :
    (((List.range k).map (N + ·)).foldl (naiveStep q c1 c2 N)
        ((List.range N).foldl (naiveStep q c1 c2 N) (List.replicate N 0))).length = N ∧
    ∀ j, j < N →
      (((List.range k).map (N + ·)).foldl (naiveStep q c1 c2 N)
        ((List.range N).foldl (naiveStep q c1 c2 N) (List.replicate N 0))).getD j 0 =
        if j < k then applyRed q (ncCoeff c1 c2 N j) else applyRed q (convCoeff c1 c2 N j) := by
  induction k with
  | zero =>
    obtain ⟨hlen, hval⟩ := naive_phase1 q c1 c2 N N le_rfl
    refine ⟨hlen, ?_⟩
    intro j hj
    simp only [List.range_zero, List.map_nil, List.foldl_nil]
    rw [hval j hj, if_pos hj, if_neg (Nat.not_lt_zero j)]
  | succ k ih =>
    obtain ⟨hlen, hval⟩ := ih (by omega)
    rw [List.range_succ, List.map_append, List.foldl_append]
    simp only [List.map_cons, List.map_nil]
    set R := ((List.range k).map (N + ·)).foldl (naiveStep q c1 c2 N)
        ((List.range N).foldl (naiveStep q c1 c2 N) (List.replicate N 0)) with hR
    have hkN : k < N := by omega
    have hstep : List.foldl (naiveStep q c1 c2 N) R [N + k] =
        R.set k (applyRed q (ncCoeff c1 c2 N k)) := by
      simp only [List.foldl_cons, List.foldl_nil, naiveStep]
      have hidx : (N + k) % N = k := by
        rw [Nat.add_mod_left, Nat.mod_eq_of_lt hkN]
      rw [hidx, if_neg (by omega), hval k hkN, if_neg (lt_irrefl k)]
      have : applyRed q (convCoeff c1 c2 N k) + -1 * convCoeff c1 c2 N (N + k) =
          applyRed q (convCoeff c1 c2 N k) + -convCoeff c1 c2 N (N + k) := by ring
      rw [this, applyRed_applyRed_add]
      unfold ncCoeff
      rw [Nat.add_comm N k, ← sub_eq_add_neg]
    rw [hstep]
    refine ⟨by simp [hlen], ?_⟩
    intro j hj
    by_cases hjk : j = k
    · subst hjk
      rw [getD_set_self _ _ _ _ (by omega), if_pos (Nat.lt_succ_self j)]
    · rw [getD_set_ne _ _ _ _ _ (fun h => hjk h.symm), hval j hj]
      by_cases hlt : j < k
      · rw [if_pos hlt, if_pos (Nat.lt_succ_of_lt hlt)]
      · rw [if_neg hlt, if_neg (by omega)]

theorem multiply_naive_coeffs_length (p poly : Polynomial) (q : Option ℤ) :
    (p.multiply_naive poly q).coeffs.length = p.ring_degree := by
  unfold Polynomial.multiply_naive
  rcases Nat.eq_zero_or_pos p.ring_degree with h0 | hN
  · simp [h0]
  · have hsplit : 2 * p.ring_degree - 1 = p.ring_degree + (p.ring_degree - 1) := by omega
    rw [hsplit, List.range_add, List.foldl_append]
    exact (naive_phase2 q p.coeffs poly.coeffs p.ring_degree (p.ring_degree - 1) le_rfl hN).1

theorem multiply_naive_getD (p poly : Polynomial) (q : Option ℤ) (j : ℕ)
    (hj : j < p.ring_degree) :
    (p.multiply_naive poly q).coeffs.getD j 0 =
      applyRed q (ncCoeff p.coeffs poly.coeffs p.ring_degree j) := by
  have hN : 0 < p.ring_degree := by omega
  unfold Polynomial.multiply_naive
  have hsplit : 2 * p.ring_degree - 1 = p.ring_degree + (p.ring_degree - 1) := by omega
  simp only
  rw [hsplit, List.range_add, List.foldl_append]
  obtain ⟨hlen, hval⟩ :=
    naive_phase2 q p.coeffs poly.coeffs p.ring_degree (p.ring_degree - 1) le_rfl hN
  rw [hval j hj]
  by_cases hlt : j < p.ring_degree - 1
  · rw [if_pos hlt]
  · rw [if_neg hlt]
    have hje : j = p.ring_degree - 1 := by omega
    subst hje
    unfold ncCoeff
    have h2 : p.ring_degree - 1 + p.ring_degree = 2 * p.ring_degree - 1 + 0 := by omega
    have hzero : convCoeff p.coeffs poly.coeffs p.ring_degree
        (p.ring_degree - 1 + p.ring_degree) = 0 := by
      unfold convCoeff
      apply Finset.sum_eq_zero
      intro i hi
      rw [Finset.mem_range] at hi
      rw [if_neg]
      omega
    rw [hzero, sub_zero]

theorem ncList_length (N : ℕ) (x y : List ℤ) : (ncList N x y).length = N := by
  simp [ncList]

theorem ncList_getD (N : ℕ) (x y : List ℤ) (j : ℕ) (hj : j < N) :
    (ncList N x y).getD j 0 = ncCoeff x y N j :=
  getD_map_range N j _ 0 hj

theorem convCoeff_eq_zero_of_ge (c1 c2 : List ℤ) (N d : ℕ) (h : 2 * N - 1 ≤ d) (hN : 0 < N) :
    convCoeff c1 c2 N d = 0 := by
  unfold convCoeff
  apply Finset.sum_eq_zero
  intro i hi
  rw [Finset.mem_range] at hi
  rw [if_neg]
  omega

end PyFhe

open Polynomial in
theorem coeff_listToPoly (c : List ℤ) (k : ℕ) : (listToPoly c).coeff k = c.getD k 0 := by
  unfold listToPoly
  rw [finset_sum_coeff]
  simp only [coeff_C_mul, coeff_X_pow, mul_ite, mul_one, mul_zero]
  rw [Finset.sum_ite_eq (Finset.range c.length) k (fun i => c.getD i 0)]
  by_cases hk : k < c.length
  · rw [if_pos (Finset.mem_range.mpr hk)]
  · rw [if_neg (fun h => hk (Finset.mem_range.mp h)), List.getD_eq_default]
    omega

open Polynomial in
theorem listToPoly_degree_lt (c : List ℤ) (N : ℕ) (hc : c.length = N) (_hN : 0 < N) :
    (listToPoly c).degree < (N : ℕ) := by
  rw [degree_lt_iff_coeff_zero]
  intro m hm
  rw [coeff_listToPoly, List.getD_eq_default]
  rw [hc]
  exact_mod_cast hm

open Polynomial in
theorem listToPoly_mul_coeff (a b : List ℤ) (N : ℕ) (ha : a.length = N) (hb : b.length = N)
    (d : ℕ) : (listToPoly a * listToPoly b).coeff d = PyFhe.convCoeff a b N d := by
  rw [coeff_mul]
  rw [Finset.Nat.sum_antidiagonal_eq_sum_range_succ_mk]
  simp only [coeff_listToPoly]
  have e1 : ∑ i ∈ Finset.range (d + 1), a.getD i 0 * b.getD (d - i) 0 =
      ∑ i ∈ Finset.range (d + 1),
        (if i ≤ d ∧ d - i < N then a.getD i 0 * b.getD (d - i) 0 else 0) := by
    apply Finset.sum_congr rfl
    intro i hi
    rw [Finset.mem_range] at hi
    by_cases hc : i ≤ d ∧ d - i < N
    · rw [if_pos hc]
    · rw [if_neg hc]
      have hge : N ≤ d - i := by omega
      rw [List.getD_eq_default b _ (by omega), mul_zero]
  have e2 : ∑ i ∈ Finset.range (d + 1),
        (if i ≤ d ∧ d - i < N then a.getD i 0 * b.getD (d - i) 0 else 0) =
      ∑ i ∈ Finset.range (N + (d + 1)),
        (if i ≤ d ∧ d - i < N then a.getD i 0 * b.getD (d - i) 0 else 0) := by
    apply Finset.sum_subset
    · intro x hx
      rw [Finset.mem_range] at hx ⊢
      omega
    · intro i _ hi2
      rw [Finset.mem_range] at hi2
      rw [if_neg (fun hc => by omega)]
  have e3 : PyFhe.convCoeff a b N d =
      ∑ i ∈ Finset.range (N + (d + 1)),
        (if i ≤ d ∧ d - i < N then a.getD i 0 * b.getD (d - i) 0 else 0) := by
    unfold PyFhe.convCoeff
    apply Finset.sum_subset
    · intro x hx
      rw [Finset.mem_range] at hx ⊢
      omega
    · intro i _ hi2
      rw [Finset.mem_range] at hi2
      by_cases hc : i ≤ d ∧ d - i < N
      · rw [if_pos hc, List.getD_eq_default a _ (by omega), zero_mul]
      · rw [if_neg hc]
  rw [e1, e2, e3]

open Polynomial in
theorem listToPoly_mul_eq (a b : List ℤ) (N : ℕ) (ha : a.length = N) (hb : b.length = N)
    (hN : 0 < N) :
    listToPoly a * listToPoly b =
      ∑ d ∈ Finset.range (2 * N - 1), C (PyFhe.convCoeff a b N d) * X ^ d := by
  apply Polynomial.ext
  intro k
  rw [listToPoly_mul_coeff a b N ha hb k, finset_sum_coeff]
  simp only [coeff_C_mul, coeff_X_pow, mul_ite, mul_one, mul_zero]
  rw [Finset.sum_ite_eq (Finset.range (2 * N - 1)) k (fun d => PyFhe.convCoeff a b N d)]
  by_cases hk : k < 2 * N - 1
  · rw [if_pos (Finset.mem_range.mpr hk)]
  · rw [if_neg (fun h => hk (Finset.mem_range.mp h))]
    exact PyFhe.convCoeff_eq_zero_of_ge a b N k (by omega) hN

theorem ncMk_root_pow (N : ℕ) :
    (ncMk N) ((Polynomial.X : Polynomial ℤ) ^ N) = -1 := by
  unfold ncMk
  have h : (AdjoinRoot.mk ((Polynomial.X : Polynomial ℤ) ^ N + 1))
      ((Polynomial.X : Polynomial ℤ) ^ N + 1) = 0 := AdjoinRoot.mk_self
  rw [map_add] at h
  have h1 : (AdjoinRoot.mk ((Polynomial.X : Polynomial ℤ) ^ N + 1)) 1 = 1 := map_one _
  linear_combination h - h1

open Polynomial in
/-- The image of the negacyclic product list in Z[x]/(x^N + 1) is the ring
product of the images. -/
theorem ncMk_ncList (a b : List ℤ) (N : ℕ) (ha : a.length = N) (hb : b.length = N)
    (hN : 0 < N) :
    (ncMk N) (listToPoly (PyFhe.ncList N a b)) =
      (ncMk N) (listToPoly a) * (ncMk N) (listToPoly b) := by
  rw [← map_mul, listToPoly_mul_eq a b N ha hb hN]
  have hsplit : 2 * N - 1 = N + (N - 1) := by omega
  rw [hsplit, Finset.sum_range_add, map_add, map_sum, map_sum]
  have hlow : ∀ j ∈ Finset.range N,
      (ncMk N) (C (PyFhe.convCoeff a b N j) * X ^ j) =
        (ncMk N) (C (PyFhe.convCoeff a b N j)) * (ncMk N) (X ^ j) := by
    intro j _
    rw [map_mul]
  have hhigh : ∀ j ∈ Finset.range (N - 1),
      (ncMk N) (C (PyFhe.convCoeff a b N (N + j)) * X ^ (N + j)) =
        -((ncMk N) (C (PyFhe.convCoeff a b N (j + N)))) * (ncMk N) (X ^ j) := by
    intro j _
    rw [map_mul, pow_add, map_mul, ncMk_root_pow]
    rw [Nat.add_comm N j]
    ring
  rw [Finset.sum_congr rfl hlow, Finset.sum_congr rfl hhigh]
  have hext : ∑ j ∈ Finset.range (N - 1),
      -((ncMk N) (C (PyFhe.convCoeff a b N (j + N)))) * (ncMk N) (X ^ j) =
      ∑ j ∈ Finset.range N,
      -((ncMk N) (C (PyFhe.convCoeff a b N (j + N)))) * (ncMk N) (X ^ j) := by
    apply Finset.sum_subset
    · intro x hx
      rw [Finset.mem_range] at hx ⊢
      omega
    · intro j hj hj2
      rw [Finset.mem_range] at hj hj2
      have hj3 : j = N - 1 := by omega
      subst hj3
      rw [PyFhe.convCoeff_eq_zero_of_ge a b N _ (by omega) hN]
      simp
  rw [hext, ← Finset.sum_add_distrib]
  unfold listToPoly
  rw [PyFhe.ncList_length, map_sum]
  apply Finset.sum_congr rfl
  intro j hj
  rw [Finset.mem_range] at hj
  rw [PyFhe.ncList_getD N a b j hj]
  unfold PyFhe.ncCoeff
  rw [map_mul, map_sub, map_sub]
  ring

open Polynomial in
/-- Injectivity of the quotient map on length-N coefficient lists. -/
theorem ncMk_inj (c c' : List ℤ) (N : ℕ) (hc : c.length = N) (hc' : c'.length = N)
    (hN : 0 < N) (h : (ncMk N) (listToPoly c) = (ncMk N) (listToPoly c')) : c = c' := by
  unfold ncMk at h
  rw [AdjoinRoot.mk_eq_mk] at h
  have hdeg : ((Polynomial.X : Polynomial ℤ) ^ N + 1).degree = (N : ℕ) := by
    have := Polynomial.degree_X_pow_add_C (R := ℤ) hN (1 : ℤ)
    simpa using this
  have hlt : (listToPoly c - listToPoly c').degree < ((Polynomial.X : Polynomial ℤ) ^ N + 1).degree := by
    rw [hdeg]
    apply lt_of_le_of_lt (Polynomial.degree_sub_le _ _)
    exact max_lt (listToPoly_degree_lt c N hc hN) (listToPoly_degree_lt c' N hc' hN)
  have hz : listToPoly c - listToPoly c' = 0 :=
    Polynomial.eq_zero_of_dvd_of_degree_lt h hlt
  have heq : listToPoly c = listToPoly c' := by linear_combination hz
  apply List.ext_getElem (by omega)
  intro i h1 h2
  have := coeff_listToPoly c i
  rw [heq, coeff_listToPoly c' i] at this
  rw [List.getD_eq_getElem?_getD, List.getD_eq_getElem?_getD] at this
  rw [List.getElem?_eq_getElem h1, List.getElem?_eq_getElem h2] at this
  simpa using this.symm

/-- The triple negacyclic product is symmetric in its last two factors:
the identity (a * s) * u = (a * u) * s in Z[x]/(x^N + 1), read off on
coefficient lists. -/
theorem ncList_mul_right_comm (a s u : List ℤ) (N : ℕ) (ha : a.length = N)
    (hs : s.length = N) (hu : u.length = N) (hN : 0 < N) :
    PyFhe.ncList N (PyFhe.ncList N a s) u = PyFhe.ncList N (PyFhe.ncList N a u) s := by
  apply ncMk_inj _ _ N (PyFhe.ncList_length N _ u) (PyFhe.ncList_length N _ s) hN
  rw [ncMk_ncList _ u N (PyFhe.ncList_length N a s) hu hN,
    ncMk_ncList _ s N (PyFhe.ncList_length N a u) hs hN,
    ncMk_ncList a s N ha hs hN, ncMk_ncList a u N ha hu hN]
  ring


namespace PyFhe

/-! ### Claim C6: Polynomial.round and the halfway convention -/

theorem pyRound_neg_three_halves : pyRound (-(3 : ℚ)/2) = -2 := by
  have hfl : ⌊(-(3 : ℚ)/2)⌋ = -2 := by
    rw [Int.floor_eq_iff]
    constructor <;> norm_num
  simp only [pyRound]
  rw [hfl]
  norm_num

theorem pyRound_one_half : pyRound ((1 : ℚ)/2) = 0 := by
  have hfl : ⌊((1 : ℚ)/2)⌋ = 0 := by
    rw [Int.floor_eq_iff]
    constructor <;> norm_num
  simp only [pyRound]
  rw [hfl]
  norm_num

/-- C6: code bug.  The round docstring promises that a coefficient exactly
halfway between two integers rounds toward zero when negative (its own
example: -1.5 rounds to -1), and the claim repeats this; but Python round
is round-half-to-even, so the code rounds the polynomial [-1.5] to [-2].
The positive half-way example 0.5 -> 0 does hold.  This theorem evaluates
the embedded round at the failing input. -/
theorem round_neg_half_gives_minus_two :
    (PolynomialQ.round ⟨1, [-(3 : ℚ)/2]⟩).coeffs = [-2] ∧
    pyRound (-(3 : ℚ)/2) ≠ -1 ∧ pyRound ((1 : ℚ)/2) = 0 := by
  refine ⟨?_, by rw [pyRound_neg_three_halves]; decide, pyRound_one_half⟩
  unfold PolynomialQ.round
  simp [pyRound_neg_three_halves]

/-! ### Claim C8: rescale and lower_modulus -/

/-- C8: lower_modulus keeps the scaling factor and reduces the polynomials
with mod_small at modulus // d, while rescale floor-divides the
coefficients and floor-divides both the modulus and the scaling factor. -/
theorem lower_modulus_and_rescale_fields (ciph : CKKSCiphertext) (d : ℤ) :
    (CKKSEvaluator.lower_modulus ciph d).scaling_factor = ciph.scaling_factor ∧
    (CKKSEvaluator.lower_modulus ciph d).modulus = ciph.modulus.fdiv d ∧
    (CKKSEvaluator.lower_modulus ciph d).c0 = ciph.c0.mod_small (ciph.modulus.fdiv d) ∧
    (CKKSEvaluator.lower_modulus ciph d).c1 = ciph.c1.mod_small (ciph.modulus.fdiv d) ∧
    (CKKSEvaluator.rescale ciph d).c0 = ciph.c0.scalar_integer_divide d ∧
    (CKKSEvaluator.rescale ciph d).c1 = ciph.c1.scalar_integer_divide d ∧
    (CKKSEvaluator.rescale ciph d).modulus = ciph.modulus.fdiv d ∧
    (CKKSEvaluator.rescale ciph d).scaling_factor = pyFloorDivQ ciph.scaling_factor d :=
  ⟨rfl, rfl, rfl, rfl, rfl, rfl, rfl, rfl⟩

/-! ### Claim C7: scaling-factor checks in the CKKS evaluator -/

/-- C7 counterexample: multiply_plain with mismatched scaling factors (2
versus 3) does not fail; it returns a ciphertext whose scaling factor is
the product 6. -/
theorem multiply_plain_mismatch_returns :
    CKKSEvaluator.multiply_plain ⟨⟨1, [0]⟩, ⟨1, [0]⟩, 2, 5⟩ ⟨⟨1, [1]⟩, 3⟩ =
      ⟨⟨1, [0]⟩, ⟨1, [0]⟩, 6, 5⟩ ∧ (2 : ℚ) ≠ 3 := by
  constructor
  · unfold CKKSEvaluator.multiply_plain
    simp only [CKKSCiphertext.mk.injEq]
    refine ⟨by decide, by decide, by norm_num, trivial⟩
  · norm_num

/-- C7 amended: add, subtract and add_plain fail on mismatched scaling
factors, but multiply_plain performs no scaling-factor check: it always
returns the product ciphertext, whose scaling factor is the product of the
two scaling factors. -/
theorem scaling_factor_mismatch_behaviour (ciph1 ciph2 : CKKSCiphertext)
    (plain : CKKSPlaintext)
    (h12 : ciph1.scaling_factor ≠ ciph2.scaling_factor)
    (hp : ciph1.scaling_factor ≠ plain.scaling_factor) :
    (∃ e, CKKSEvaluator.add ciph1 ciph2 = Except.error e) ∧
    (∃ e, CKKSEvaluator.subtract ciph1 ciph2 = Except.error e) ∧
    (∃ e, CKKSEvaluator.add_plain ciph1 plain = Except.error e) ∧
    CKKSEvaluator.multiply_plain ciph1 plain =
      ⟨(ciph1.c0.multiply plain.poly ciph1.modulus).mod_small ciph1.modulus,
       (ciph1.c1.multiply plain.poly ciph1.modulus).mod_small ciph1.modulus,
       ciph1.scaling_factor * plain.scaling_factor, ciph1.modulus⟩ := by
  refine ⟨⟨"Scaling factors are not equal.", ?_⟩,
    ⟨"Scaling factors are not equal.", ?_⟩,
    ⟨"Scaling factors are not equal.", ?_⟩, rfl⟩
  · unfold CKKSEvaluator.add
    rw [if_pos h12]
  · unfold CKKSEvaluator.subtract
    rw [if_pos h12]
  · unfold CKKSEvaluator.add_plain
    rw [if_pos hp]

/-- C7 witness: the amended claim at concrete mismatched inputs. -/
theorem scaling_factor_mismatch_behaviour_witness :
    (∃ e, CKKSEvaluator.add ⟨⟨1, [0]⟩, ⟨1, [0]⟩, 2, 5⟩ ⟨⟨1, [0]⟩, ⟨1, [0]⟩, 3, 5⟩ =
      Except.error e) ∧
    (∃ e, CKKSEvaluator.subtract ⟨⟨1, [0]⟩, ⟨1, [0]⟩, 2, 5⟩ ⟨⟨1, [0]⟩, ⟨1, [0]⟩, 3, 5⟩ =
      Except.error e) ∧
    (∃ e, CKKSEvaluator.add_plain ⟨⟨1, [0]⟩, ⟨1, [0]⟩, 2, 5⟩ ⟨⟨1, [1]⟩, 3⟩ =
      Except.error e) ∧
    CKKSEvaluator.multiply_plain ⟨⟨1, [0]⟩, ⟨1, [0]⟩, 2, 5⟩ ⟨⟨1, [1]⟩, 3⟩ =
      ⟨((⟨1, [0]⟩ : Polynomial).multiply ⟨1, [1]⟩ 5).mod_small 5,
       ((⟨1, [0]⟩ : Polynomial).multiply ⟨1, [1]⟩ 5).mod_small 5,
       (2 : ℚ) * 3, 5⟩ :=
  scaling_factor_mismatch_behaviour ⟨⟨1, [0]⟩, ⟨1, [0]⟩, 2, 5⟩ ⟨⟨1, [0]⟩, ⟨1, [0]⟩, 3, 5⟩
    ⟨⟨1, [1]⟩, 3⟩ (by norm_num) (by norm_num)

/-! ### Claim C9: the Hamming-weight sampler -/

theorem countNonzero_le_length (l : List ℤ) : countNonzero l ≤ l.length :=
  List.countP_le_length _

theorem countNonzero_set_of_zero (l : List ℤ) (i : ℕ) (v : ℤ) (hi : i < l.length)
    (h0 : l.getD i 0 = 0) (hv : v ≠ 0) :
    countNonzero (l.set i v) = countNonzero l + 1 := by
  unfold countNonzero
  rw [List.countP_set _ _ _ _ hi]
  have hgetElem : l[i] = 0 := by
    rw [List.getD_eq_getElem?_getD, List.getElem?_eq_getElem hi] at h0
    simpa using h0
  rw [hgetElem]
  simp [hv]

theorem hwStep_sample_length (draw : ℕ × ℕ) (st : HWState) :
    (hwStep draw st).sample.length = st.sample.length := by
  unfold hwStep
  by_cases h : st.sample.getD draw.1 0 = 0
  · rw [if_pos h]
    exact List.length_set st.sample draw.1 _
  · rw [if_neg h]

theorem hwStep_count (draw : ℕ × ℕ) (st : HWState) (L : ℕ)
    (hlen : st.sample.length = L) (hidx : draw.1 < L)
    (hcount : countNonzero st.sample = st.total_weight) :
    countNonzero (hwStep draw st).sample = (hwStep draw st).total_weight := by
  unfold hwStep
  by_cases h : st.sample.getD draw.1 0 = 0
  · rw [if_pos h]
    have hv : (if draw.2 = 0 then (-1 : ℤ) else 1) ≠ 0 := by
      by_cases hd : draw.2 = 0 <;> simp [hd]
    rw [countNonzero_set_of_zero st.sample draw.1 _ (by omega) h hv, hcount]
  · rw [if_neg h]
    exact hcount

theorem hwStep_entries (draw : ℕ × ℕ) (st : HWState)
    (hmem : ∀ x ∈ st.sample, x = -1 ∨ x = 0 ∨ x = 1) :
    ∀ x ∈ (hwStep draw st).sample, x = -1 ∨ x = 0 ∨ x = 1 := by
  unfold hwStep
  by_cases h : st.sample.getD draw.1 0 = 0
  · rw [if_pos h]
    intro x hx
    rcases List.mem_or_eq_of_mem_set hx with hmemx | hset
    · exact hmem x hmemx
    · by_cases hd : draw.2 = 0
      · rw [hset, if_pos hd]
        left
        rfl
      · rw [hset, if_neg hd]
        right
        right
        rfl
  · rw [if_neg h]
    exact hmem

theorem hwStep_weight_le (draw : ℕ × ℕ) (st : HWState) (h : ℕ)
    (hlt : st.total_weight < h) : (hwStep draw st).total_weight ≤ h := by
  unfold hwStep
  by_cases hc : st.sample.getD draw.1 0 = 0
  · rw [if_pos hc]
    exact hlt
  · rw [if_neg hc]
    exact Nat.le_of_lt hlt

theorem sampleHWAux_diverges (stream : ℕ → ℕ × ℕ) (L h : ℕ)
    (hstream : ∀ k, (stream k).1 < L) (hLh : L < h) :
    ∀ fuel k st, st.sample.length = L → countNonzero st.sample = st.total_weight →
      sampleHWAux stream h fuel k st = none := by
  intro fuel
  induction fuel with
  | zero =>
    intro k st hlen hcount
    unfold sampleHWAux
    rw [if_neg]
    intro hle
    have := countNonzero_le_length st.sample
    omega
  | succ f ih =>
    intro k st hlen hcount
    unfold sampleHWAux
    rw [if_neg]
    · exact ih (k + 1) (hwStep (stream k) st)
        (by rw [hwStep_sample_length]; exact hlen)
        (hwStep_count (stream k) st L hlen (hstream k) hcount)
    · intro hle
      have := countNonzero_le_length st.sample
      omega

theorem sampleHWAux_returns_spec (stream : ℕ → ℕ × ℕ) (L h : ℕ)
    (hstream : ∀ k, (stream k).1 < L) :
    ∀ fuel k st v, st.sample.length = L → countNonzero st.sample = st.total_weight →
      st.total_weight ≤ h → (∀ x ∈ st.sample, x = -1 ∨ x = 0 ∨ x = 1) →
      sampleHWAux stream h fuel k st = some v →
      v.length = L ∧ countNonzero v = h ∧ ∀ x ∈ v, x = -1 ∨ x = 0 ∨ x = 1 := by
  intro fuel
  induction fuel with
  | zero =>
    intro k st v hlen hcount hle hmem hret
    unfold sampleHWAux at hret
    by_cases hguard : h ≤ st.total_weight
    · rw [if_pos hguard] at hret
      obtain rfl : st.sample = v := Option.some_injective _ hret
      exact ⟨hlen, by omega, hmem⟩
    · rw [if_neg hguard] at hret
      exact absurd hret (by simp)
  | succ f ih =>
    intro k st v hlen hcount hle hmem hret
    unfold sampleHWAux at hret
    by_cases hguard : h ≤ st.total_weight
    · rw [if_pos hguard] at hret
      obtain rfl : st.sample = v := Option.some_injective _ hret
      exact ⟨hlen, by omega, hmem⟩
    · rw [if_neg hguard] at hret
      exact ih (k + 1) (hwStep (stream k) st) v
        (by rw [hwStep_sample_length]; exact hlen)
        (hwStep_count (stream k) st L hlen (hstream k) hcount)
        (hwStep_weight_le (stream k) st h (by omega))
        (hwStep_entries (stream k) st hmem) hret

/-- C9 amended: with in-range index draws, the Hamming-weight sampler
diverges (never returns, for any amount of fuel) when the requested weight
exceeds the vector length, instead of failing with an InvalidParameter
error; and whenever it does return a vector, that vector has the requested
length, exactly hamming_weight nonzero entries, and every entry in
{-1, 0, 1}. -/
theorem sample_hamming_weight_vector_spec (stream : ℕ → ℕ × ℕ) (L h : ℕ)
    (hstream : ∀ k, (stream k).1 < L) :
    (L < h → ∀ fuel, sample_hamming_weight_vector stream L h fuel = none) ∧
    (∀ fuel v, sample_hamming_weight_vector stream L h fuel = some v →
      v.length = L ∧ countNonzero v = h ∧ ∀ x ∈ v, x = -1 ∨ x = 0 ∨ x = 1) := by
  have hlen : (List.replicate L (0 : ℤ)).length = L := List.length_replicate L 0
  have hcount : countNonzero (List.replicate L (0 : ℤ)) = 0 := by
    unfold countNonzero
    rw [List.countP_eq_zero]
    intro a ha
    have := List.eq_of_mem_replicate ha
    simp [this]
  have hmem : ∀ x ∈ List.replicate L (0 : ℤ), x = -1 ∨ x = 0 ∨ x = 1 := by
    intro x hx
    have := List.eq_of_mem_replicate hx
    right
    left
    exact this
  constructor
  · intro hLh fuel
    exact sampleHWAux_diverges stream L h hstream hLh fuel 0 _ hlen hcount
  · intro fuel v hret
    exact sampleHWAux_returns_spec stream L h hstream fuel 0 _ v hlen hcount
      (Nat.zero_le h) hmem hret

/-- C9 witness: the amended claim applied at length 1, weight 2, with the
constant draw stream; fuel 5 yields no result. -/
theorem sample_hamming_weight_vector_spec_witness :
    sample_hamming_weight_vector (fun _ => (0, 1)) 1 2 5 = none :=
  (sample_hamming_weight_vector_spec (fun _ => (0, 1)) 1 2
    (fun _ => Nat.zero_lt_one)).1 (by decide) 5

/-- C9 counterexample: at length 1 and requested weight 2 the sampler does
not return an error value of any kind; the loop body fixes the state
reached after the first iteration while the loop guard still holds, and
one hundred iterations of fuel still produce no result. -/
theorem sample_hamming_weight_vector_no_error :
    sample_hamming_weight_vector (fun _ => (0, 1)) 1 2 100 = none ∧
    hwStep (0, 1) ⟨[1], 1⟩ = ⟨[1], 1⟩ ∧ 1 < 2 := by decide

end PyFhe

namespace PyFhe

/-! ### Claim C10: every Polynomial operation preserves the length
invariant -/

theorem foldl_length_invariant {α β : Type} (f : List α → β → List α) (l : List β)
    (init : List α) (hf : ∀ acc b, (f acc b).length = acc.length) :
    (l.foldl f init).length = init.length := by
  induction l generalizing init with
  | nil => rfl
  | cons b bs ih =>
    rw [List.foldl_cons, ih]
    exact hf init b

theorem mod_length (p : Polynomial) (mi : ℤ) :
    (p.mod mi).ring_degree = p.ring_degree ∧ (p.mod mi).coeffs.length = p.coeffs.length :=
  ⟨rfl, by simp [Polynomial.mod]⟩

theorem mod_small_length (p : Polynomial) (mi : ℤ) :
    (p.mod_small mi).ring_degree = p.ring_degree ∧
    (p.mod_small mi).coeffs.length = p.coeffs.length :=
  ⟨rfl, by simp [Polynomial.mod_small]⟩

theorem add_length (p q : Polynomial) (m : Option ℤ) :
    (p.add q m).ring_degree = p.ring_degree ∧ (p.add q m).coeffs.length = p.ring_degree := by
  match m with
  | none => exact ⟨rfl, by simp [Polynomial.add]⟩
  | some mm =>
    by_cases hm : mm = 0
    · subst hm
      exact ⟨rfl, by simp [Polynomial.add]⟩
    · refine ⟨?_, ?_⟩ <;> simp [Polynomial.add, Polynomial.mod, hm]

theorem subtract_length (p q : Polynomial) (m : Option ℤ) :
    (p.subtract q m).ring_degree = p.ring_degree ∧
    (p.subtract q m).coeffs.length = p.ring_degree := by
  match m with
  | none => exact ⟨rfl, by simp [Polynomial.subtract]⟩
  | some mm =>
    by_cases hm : mm = 0
    · subst hm
      exact ⟨rfl, by simp [Polynomial.subtract]⟩
    · refine ⟨?_, ?_⟩ <;> simp [Polynomial.subtract, Polynomial.mod, hm]

theorem scalar_multiply_length (p : Polynomial) (s : ℤ) (m : Option ℤ) :
    (p.scalar_multiply s m).ring_degree = p.ring_degree ∧
    (p.scalar_multiply s m).coeffs.length = p.coeffs.length := by
  match m with
  | none => exact ⟨rfl, by simp [Polynomial.scalar_multiply]⟩
  | some mm =>
    by_cases hm : mm = 0
    · subst hm
      exact ⟨rfl, by simp [Polynomial.scalar_multiply]⟩
    · refine ⟨?_, ?_⟩ <;> simp [Polynomial.scalar_multiply, hm]

theorem scalar_integer_divide_length (p : Polynomial) (s : ℤ) (m : Option ℤ) :
    (p.scalar_integer_divide s m).ring_degree = p.ring_degree ∧
    (p.scalar_integer_divide s m).coeffs.length = p.coeffs.length := by
  match m with
  | none => exact ⟨rfl, by simp [Polynomial.scalar_integer_divide]⟩
  | some mm =>
    by_cases hm : mm = 0
    · subst hm
      exact ⟨rfl, by simp [Polynomial.scalar_integer_divide]⟩
    · refine ⟨?_, ?_⟩ <;> simp [Polynomial.scalar_integer_divide, hm]

theorem rotate_length (p : Polynomial) (r : ℕ) :
    (p.rotate r).ring_degree = p.ring_degree ∧
    (p.rotate r).coeffs.length = p.ring_degree := by
  refine ⟨rfl, ?_⟩
  unfold Polynomial.rotate
  simp only
  rw [foldl_length_invariant]
  · exact List.length_replicate _ _
  · intro acc i
    by_cases hc : (i * 5 ^ r) % (2 * p.ring_degree) < p.ring_degree
    · rw [if_pos hc, List.length_set]
    · rw [if_neg hc, List.length_set]

theorem conjugate_length (p : Polynomial) :
    (p.conjugate).ring_degree = p.ring_degree ∧
    (p.conjugate).coeffs.length = p.ring_degree :=
  ⟨rfl, by simp [Polynomial.conjugate]⟩

theorem ftt_fwd_length (ctx : NTTContext) (coeffs : List ℤ) :
    (ctx.ftt_fwd coeffs).length = coeffs.length := by
  unfold NTTContext.ftt_fwd NTTContext.ntt nttLoop
  rw [foldl_length_invariant]
  · unfold bit_reverse_vec
    simp
  · intro acc s
    rw [foldl_length_invariant]
    intro acc2 j
    rw [foldl_length_invariant]
    intro acc3 i
    simp [List.length_set]

theorem ntt_length (ctx : NTTContext) (coeffs rou : List ℤ) :
    (ctx.ntt coeffs rou).length = coeffs.length := by
  unfold NTTContext.ntt nttLoop
  rw [foldl_length_invariant]
  · unfold bit_reverse_vec
    simp
  · intro acc s
    rw [foldl_length_invariant]
    intro acc2 j
    rw [foldl_length_invariant]
    intro acc3 i
    simp [List.length_set]

theorem ftt_inv_length (ctx : NTTContext) (coeffs : List ℤ) :
    (ctx.ftt_inv coeffs).length = coeffs.length := by
  unfold NTTContext.ftt_inv
  simp

theorem multiply_ntt_length (p q : Polynomial) (ctx : NTTContext) :
    (p.multiply_ntt q ctx).ring_degree = p.ring_degree ∧
    (p.multiply_ntt q ctx).coeffs.length = p.ring_degree := by
  refine ⟨rfl, ?_⟩
  unfold Polynomial.multiply_ntt
  simp only
  rw [ftt_inv_length]
  simp

theorem multiply_crt_length (p q : Polynomial) (crt : CRTContext) :
    (p.multiply_crt q crt).ring_degree = p.ring_degree ∧
    (p.multiply_crt q crt).coeffs.length = p.ring_degree := by
  refine ⟨rfl, ?_⟩
  unfold Polynomial.multiply_crt
  simp [Polynomial.mod_small]

theorem fft_length (ctx : FFTContext) (coeffs rou : List ℂ) :
    (ctx.fft coeffs rou).length = coeffs.length := by
  unfold FFTContext.fft nttLoop
  rw [foldl_length_invariant]
  · unfold bit_reverse_vec
    simp
  · intro acc s
    rw [foldl_length_invariant]
    intro acc2 j
    rw [foldl_length_invariant]
    intro acc3 i
    simp [List.length_set]

theorem multiply_fft_length (p q : Polynomial) :
    (p.multiply_fft q).ring_degree = p.ring_degree ∧
    (p.multiply_fft q).coeffs.length = p.ring_degree := by
  refine ⟨rfl, ?_⟩
  unfold Polynomial.multiply_fft PolynomialC.round
  simp only
  rw [List.length_map]
  rw [foldl_length_invariant]
  · exact List.length_replicate _ _
  · intro acc d
    exact List.length_set _ _ _

theorem base_decompose_aux_lengths (base : ℤ) (N : ℕ) (l : List ℕ)
    (st : List Polynomial × Polynomial)
    (hdigits : ∀ d ∈ st.1, d.ring_degree = N ∧ d.coeffs.length = N)
    (hpoly : st.2.ring_degree = N ∧ st.2.coeffs.length = N) :
    (l.foldl (fun (st : List Polynomial × Polynomial) _ =>
        (st.1 ++ [st.2.mod base], baseDecomposeStep base st.2)) st).1.length
      = st.1.length + l.length ∧
    (∀ d ∈ (l.foldl (fun (st : List Polynomial × Polynomial) _ =>
        (st.1 ++ [st.2.mod base], baseDecomposeStep base st.2)) st).1,
      d.ring_degree = N ∧ d.coeffs.length = N) := by
  induction l generalizing st with
  | nil =>
    refine ⟨by simp, hdigits⟩
  | cons b bs ih =>
    rw [List.foldl_cons]
    have hstep : (baseDecomposeStep base st.2).ring_degree = N ∧
        (baseDecomposeStep base st.2).coeffs.length = N := by
      refine ⟨hpoly.1, ?_⟩
      have hco : (baseDecomposeStep base st.2).coeffs =
          st.2.coeffs.map (fun (c : ℤ) => pyTrunc (fl (fl (c : ℚ) * fl (1 / (base : ℚ))))) := rfl
      rw [hco]
      exact (List.length_map _ _).trans hpoly.2
    have hmod : (st.2.mod base).ring_degree = N ∧ (st.2.mod base).coeffs.length = N := by
      obtain ⟨h1, h2⟩ := mod_length st.2 base
      exact ⟨h1.trans hpoly.1, h2.trans hpoly.2⟩
    obtain ⟨ha, hb⟩ := ih (st.1 ++ [st.2.mod base], baseDecomposeStep base st.2)
      (by
        intro d hd
        rcases List.mem_append.mp hd with hmem | hmem
        · exact hdigits d hmem
        · rw [List.mem_singleton] at hmem
          rw [hmem]
          exact hmod) hstep
    refine ⟨?_, hb⟩
    rw [ha]
    simp only [List.length_append, List.length_cons, List.length_nil]
    omega

theorem base_decompose_lengths (p : Polynomial) (base : ℤ) (L : ℕ) (N : ℕ)
    (hp : p.ring_degree = N) (hpl : p.coeffs.length = N) :
    (p.base_decompose base L).length = L ∧
    ∀ d ∈ p.base_decompose base L, d.ring_degree = N ∧ d.coeffs.length = N := by
  unfold Polynomial.base_decompose
  obtain ⟨ha, hb⟩ := base_decompose_aux_lengths base N (List.range L) ([], p)
    (by intro d hd; exact absurd hd (List.not_mem_nil d)) ⟨hp, hpl⟩
  refine ⟨?_, hb⟩
  rw [ha]
  simp

/-- C10: every Polynomial-returning operation (add, subtract, the three
multiply dispatch modes, multiply_naive, multiply_crt, multiply_fft,
scalar_multiply, scalar_integer_divide, rotate, conjugate, round, floor,
mod, mod_small, and every digit of base_decompose) maps inputs of ring
degree N with N coefficients to a polynomial of ring degree N with exactly
N coefficients, and the checked constructor accepts a coefficient list
exactly when its length equals the declared degree. -/
theorem polynomial_ops_preserve_length (N : ℕ) (p q : Polynomial) (pq : PolynomialQ)
    (m : Option ℤ) (mi : ℤ) (s : ℤ) (r : ℕ) (nctx : NTTContext) (crt : CRTContext)
    (base : ℤ) (L : ℕ) (cs : List ℤ)
    (hp : p.ring_degree = N) (hpl : p.coeffs.length = N)
    (_hq : q.ring_degree = N) (_hql : q.coeffs.length = N)
    (hpq : pq.ring_degree = N) (hpql : pq.coeffs.length = N) :
    ((p.add q m).ring_degree = N ∧ (p.add q m).coeffs.length = N) ∧
    ((p.subtract q m).ring_degree = N ∧ (p.subtract q m).coeffs.length = N) ∧
    ((p.multiply q mi none none).ring_degree = N ∧
      (p.multiply q mi none none).coeffs.length = N) ∧
    ((p.multiply q mi (some nctx) none).ring_degree = N ∧
      (p.multiply q mi (some nctx) none).coeffs.length = N) ∧
    ((p.multiply q mi none (some crt)).ring_degree = N ∧
      (p.multiply q mi none (some crt)).coeffs.length = N) ∧
    ((p.multiply_naive q m).ring_degree = N ∧ (p.multiply_naive q m).coeffs.length = N) ∧
    ((p.multiply_crt q crt).ring_degree = N ∧ (p.multiply_crt q crt).coeffs.length = N) ∧
    ((p.multiply_fft q).ring_degree = N ∧ (p.multiply_fft q).coeffs.length = N) ∧
    ((p.scalar_multiply s m).ring_degree = N ∧ (p.scalar_multiply s m).coeffs.length = N) ∧
    ((p.scalar_integer_divide s m).ring_degree = N ∧
      (p.scalar_integer_divide s m).coeffs.length = N) ∧
    ((p.rotate r).ring_degree = N ∧ (p.rotate r).coeffs.length = N) ∧
    (p.conjugate.ring_degree = N ∧ p.conjugate.coeffs.length = N) ∧
    (pq.round.ring_degree = N ∧ pq.round.coeffs.length = N) ∧
    (pq.floor.ring_degree = N ∧ pq.floor.coeffs.length = N) ∧
    ((p.mod mi).ring_degree = N ∧ (p.mod mi).coeffs.length = N) ∧
    ((p.mod_small mi).ring_degree = N ∧ (p.mod_small mi).coeffs.length = N) ∧
    ((p.base_decompose base L).length = L ∧
      ∀ d ∈ p.base_decompose base L, d.ring_degree = N ∧ d.coeffs.length = N) ∧
    (cs.length = N → mkPolynomial N cs = Except.ok ⟨N, cs⟩) ∧
    (cs.length ≠ N → ∃ e, mkPolynomial N cs = Except.error e) := by
  have hadd := add_length p q m
  have hsub := subtract_length p q m
  have hntt := multiply_ntt_length p q nctx
  have hcrt := multiply_crt_length p q crt
  have hfft := multiply_fft_length p q
  refine ⟨⟨hadd.1.trans hp, hadd.2.trans hp⟩, ⟨hsub.1.trans hp, hsub.2.trans hp⟩,
    ?_, ?_, ?_, ?_, ⟨hcrt.1.trans hp, hcrt.2.trans hp⟩,
    ⟨hfft.1.trans hp, hfft.2.trans hp⟩, ?_, ?_, ?_, ?_, ?_, ?_, ?_, ?_, ?_, ?_, ?_⟩
  · exact ⟨hp, (multiply_naive_coeffs_length p q (some mi)).trans hp⟩
  · exact ⟨hntt.1.trans hp, hntt.2.trans hp⟩
  · exact ⟨hcrt.1.trans hp, hcrt.2.trans hp⟩
  · exact ⟨hp, (multiply_naive_coeffs_length p q m).trans hp⟩
  · obtain ⟨h1, h2⟩ := scalar_multiply_length p s m
    exact ⟨h1.trans hp, h2.trans hpl⟩
  · obtain ⟨h1, h2⟩ := scalar_integer_divide_length p s m
    exact ⟨h1.trans hp, h2.trans hpl⟩
  · obtain ⟨h1, h2⟩ := rotate_length p r
    exact ⟨h1.trans hp, h2.trans hp⟩
  · obtain ⟨h1, h2⟩ := conjugate_length p
    exact ⟨h1.trans hp, h2.trans hp⟩
  · exact ⟨hpq, by simpa [PolynomialQ.round] using hpql⟩
  · exact ⟨hpq, by simpa [PolynomialQ.floor] using hpql⟩
  · obtain ⟨h1, h2⟩ := mod_length p mi
    exact ⟨h1.trans hp, h2.trans hpl⟩
  · obtain ⟨h1, h2⟩ := mod_small_length p mi
    exact ⟨h1.trans hp, h2.trans hpl⟩
  · exact base_decompose_lengths p base L N hp hpl
  · intro hlen
    unfold mkPolynomial
    rw [if_pos hlen]
  · intro hlen
    exact ⟨"Size of polynomial array is not equal to degree of ring",
      by unfold mkPolynomial; rw [if_neg hlen]⟩

/-- C10 witness: the invariant theorem applied at concrete degree-1
inputs. -/
theorem polynomial_ops_preserve_length_witness :
    ((⟨1, [4]⟩ : Polynomial).ring_degree = 1 ∧ (⟨1, [4]⟩ : Polynomial).coeffs.length = 1) ∧
    (((⟨1, [4]⟩ : Polynomial).add ⟨1, [7]⟩ (some 3)).ring_degree = 1 ∧
      ((⟨1, [4]⟩ : Polynomial).add ⟨1, [7]⟩ (some 3)).coeffs.length = 1) := by
  have h := polynomial_ops_preserve_length 1 ⟨1, [4]⟩ ⟨1, [7]⟩ ⟨1, [(1 : ℚ)/2]⟩
    (some 3) 3 2 1 ⟨1, 3, 1⟩ ⟨1, [3], [1]⟩ 2 2 [5]
    (by decide) (by decide) (by decide) (by decide) (by decide) (by decide)
  exact ⟨⟨by decide, by decide⟩, h.1⟩

end PyFhe

namespace PyFhe

/-! ### Claim C1: BFV encrypt/decrypt -/

theorem getD_map_lt {α β : Type} (l : List α) (f : α → β) (j : ℕ) (d : α) (d' : β)
    (h : j < l.length) : (l.map f).getD j d' = f (l.getD j d) := by
  simp only [List.getD_eq_getElem?_getD, List.getElem?_map]
  rw [List.getElem?_eq_getElem h]
  rfl

theorem add_getD (x y : Polynomial) (mm : ℤ) (hm : mm ≠ 0) (j : ℕ) (hj : j < x.ring_degree) :
    (x.add y (some mm)).coeffs.getD j 0 =
      (x.coeffs.getD j 0 + y.coeffs.getD j 0) % mm := by
  unfold Polynomial.add Polynomial.mod
  simp only [if_neg hm]
  rw [List.map_map]
  exact getD_map_range x.ring_degree j _ 0 hj

theorem scalar_multiply_getD (x : Polynomial) (sc mm : ℤ) (hm : mm ≠ 0) (j : ℕ)
    (hj : j < x.coeffs.length) :
    (x.scalar_multiply sc (some mm)).coeffs.getD j 0 = (sc * x.coeffs.getD j 0) % mm := by
  unfold Polynomial.scalar_multiply
  simp only [if_neg hm]
  exact getD_map_lt x.coeffs _ j 0 0 hj

theorem mod_getD (x : Polynomial) (mm : ℤ) (j : ℕ) (hj : j < x.coeffs.length) :
    (x.mod mm).coeffs.getD j 0 = x.coeffs.getD j 0 % mm := by
  unfold Polynomial.mod
  exact getD_map_lt x.coeffs _ j 0 0 hj

theorem convCoeff_cast (q : ℕ) (x y : List ℤ) (N d : ℕ) :
    ((convCoeff x y N d : ℤ) : ZMod q) =
      ∑ i ∈ Finset.range N, if i ≤ d ∧ d - i < N
        then ((x.getD i 0 : ℤ) : ZMod q) * ((y.getD (d - i) 0 : ℤ) : ZMod q) else 0 := by
  unfold convCoeff
  rw [Int.cast_sum]
  apply Finset.sum_congr rfl
  intro i _
  split
  · rw [Int.cast_mul]
  · rw [Int.cast_zero]

theorem convCoeff_cast_congr (q : ℕ) (x x' y y' : List ℤ) (N d : ℕ)
    (hx : ∀ i, ((x.getD i 0 : ℤ) : ZMod q) = ((x'.getD i 0 : ℤ) : ZMod q))
    (hy : ∀ i, ((y.getD i 0 : ℤ) : ZMod q) = ((y'.getD i 0 : ℤ) : ZMod q)) :
    ((convCoeff x y N d : ℤ) : ZMod q) = ((convCoeff x' y' N d : ℤ) : ZMod q) := by
  rw [convCoeff_cast, convCoeff_cast]
  apply Finset.sum_congr rfl
  intro i _
  split
  · rw [hx i, hy (d - i)]
  · rfl

theorem ncCoeff_cast_congr (q : ℕ) (x x' y y' : List ℤ) (N j : ℕ)
    (hx : ∀ i, ((x.getD i 0 : ℤ) : ZMod q) = ((x'.getD i 0 : ℤ) : ZMod q))
    (hy : ∀ i, ((y.getD i 0 : ℤ) : ZMod q) = ((y'.getD i 0 : ℤ) : ZMod q)) :
    ((ncCoeff x y N j : ℤ) : ZMod q) = ((ncCoeff x' y' N j : ℤ) : ZMod q) := by
  unfold ncCoeff
  rw [Int.cast_sub, Int.cast_sub, convCoeff_cast_congr q x x' y y' N j hx hy,
    convCoeff_cast_congr q x x' y y' N (j + N) hx hy]

theorem convCoeff_cast_neg_add (q : ℕ) (e w u : List ℤ) (N d : ℕ) :
    ((convCoeff ((List.range N).map (fun i => -(e.getD i 0 + w.getD i 0))) u N d : ℤ)
        : ZMod q) =
      -((convCoeff e u N d : ℤ) : ZMod q) - ((convCoeff w u N d : ℤ) : ZMod q) := by
  rw [convCoeff_cast, convCoeff_cast, convCoeff_cast]
  rw [← Finset.sum_neg_distrib, ← Finset.sum_sub_distrib]
  apply Finset.sum_congr rfl
  intro i hi
  rw [Finset.mem_range] at hi
  rw [getD_map_range N i _ 0 hi]
  split
  · push_cast
    ring
  · simp

theorem ncCoeff_cast_neg_add (q : ℕ) (e w u : List ℤ) (N j : ℕ) :
    ((ncCoeff ((List.range N).map (fun i => -(e.getD i 0 + w.getD i 0))) u N j : ℤ)
        : ZMod q) =
      -((ncCoeff e u N j : ℤ) : ZMod q) - ((ncCoeff w u N j : ℤ) : ZMod q) := by
  unfold ncCoeff
  rw [Int.cast_sub, Int.cast_sub, Int.cast_sub,
    convCoeff_cast_neg_add q e w u N j,
    convCoeff_cast_neg_add q e w u N (j + N)]
  ring

end PyFhe

namespace PyFhe

theorem applyRed_some_ne (mm v : ℤ) (hm : mm ≠ 0) : applyRed (some mm) v = v % mm := by
  simp [applyRed, hm]

theorem multiply_naive_getD_mod (p poly : Polynomial) (mm : ℤ) (hm : mm ≠ 0) (j : ℕ)
    (hj : j < p.ring_degree) :
    (p.multiply_naive poly (some mm)).coeffs.getD j 0 =
      ncCoeff p.coeffs poly.coeffs p.ring_degree j % mm := by
  rw [multiply_naive_getD p poly (some mm) j hj, applyRed_some_ne _ _ hm]

theorem replicate_getD_zero (n j : ℕ) : (List.replicate n (0 : ℤ)).getD j 0 = 0 := by
  by_cases h : j < n
  · simp [List.getD_eq_getElem?_getD, List.getElem?_replicate, h]
  · rw [List.getD_eq_default]
    simp
    omega

theorem poly_eq_of_parts (x y : Polynomial) (h1 : x.ring_degree = y.ring_degree)
    (h2 : x.coeffs = y.coeffs) : x = y := by
  cases x with
  | mk rd cs =>
    cases y with
    | mk rd2 cs2 =>
      simp only at h1 h2
      rw [h1, h2]

set_option maxHeartbeats 2000000 in
/-- C1 amended: BFV decryption inverts encryption coefficientwise whenever
the plaintext modulus t divides the ciphertext modulus q (so that
Delta = q/t is exact), the plaintext coefficients lie in [0, t), and every
coefficient of the product of the public-key error with the encryption
randomness is below Delta/2 in absolute value (stated as 2*t*|coeff| < q);
and the ciphertext produced by encryption is exactly
c0 = p0*u + Delta*m mod q, c1 = p1*u mod q, the sampled encryption errors
being replaced by zero as in the source. -/
theorem bfv_encrypt_decrypt_correct
    (params : BFVParameters) (s a e u : Polynomial) (msg : Plaintext) (N : ℕ) (hN : 0 < N)
    (hNs : params.poly_degree = N)
    (hsd : s.ring_degree = N) (hsl : s.coeffs.length = N)
    (had : a.ring_degree = N) (hal : a.coeffs.length = N)
    (hed : e.ring_degree = N) (hel : e.coeffs.length = N)
    (hud : u.ring_degree = N) (hul : u.coeffs.length = N)
    (hmd : msg.poly.ring_degree = N) (hmll : msg.poly.coeffs.length = N)
    (ht : 0 < params.plain_modulus)
    (htq : params.plain_modulus ∣ params.ciph_modulus)
    (hmsg : ∀ j < N, 0 ≤ msg.poly.coeffs.getD j 0 ∧
      msg.poly.coeffs.getD j 0 < params.plain_modulus)
    (hnoise : ∀ j < N, 2 * params.plain_modulus *
      |ncCoeff e.coeffs u.coeffs N j| < params.ciph_modulus) :
    (∀ j < N,
      ((mkBFVDecryptor params ⟨s⟩).decrypt
        ((mkBFVEncryptor params (generate_public_key params s a e)).encrypt msg u)
        none).poly.coeffs.getD j 0 = msg.poly.coeffs.getD j 0) ∧
    ((mkBFVEncryptor params (generate_public_key params s a e)).encrypt msg u).c0 =
      ((generate_public_key params s a e).p0.multiply u params.ciph_modulus).add
        (msg.poly.scalar_multiply (params.ciph_modulus / params.plain_modulus)
          (some params.ciph_modulus)) (some params.ciph_modulus) ∧
    ((mkBFVEncryptor params (generate_public_key params s a e)).encrypt msg u).c1 =
      (generate_public_key params s a e).p1.multiply u params.ciph_modulus := by
  set q : ℤ := params.ciph_modulus with hqdef
  set t : ℤ := params.plain_modulus with htdef
  have hq0 : 0 < q := by
    have h0 := hnoise 0 hN
    have h1 : (0 : ℤ) ≤ 2 * t * |ncCoeff e.coeffs u.coeffs N 0| :=
      mul_nonneg (mul_nonneg (by norm_num) ht.le) (abs_nonneg _)
    exact lt_of_le_of_lt h1 h0
  have hqne : q ≠ 0 := ne_of_gt hq0
  have htne : t ≠ 0 := ne_of_gt ht
  set qn : ℕ := q.toNat with hqndef
  have hqn : (qn : ℤ) = q := Int.toNat_of_nonneg hq0.le
  -- Delta is exact
  obtain ⟨dl, hdl⟩ := htq
  have hdl0 : 0 < dl := by
    rcases lt_trichotomy dl 0 with h | h | h
    · exfalso
      have : t * dl < 0 := mul_neg_of_pos_of_neg ht h
      rw [← hdl] at this
      exact absurd this (not_lt.mpr hq0.le)
    · exfalso
      rw [h, mul_zero] at hdl
      exact absurd hdl (ne_of_gt hq0)
    · exact h
  have hdelta : pyTrunc params.scaling_factor = q / t := by
    unfold pyTrunc BFVParameters.scaling_factor
    rw [← hqdef, ← htdef, hdl]
    push_cast
    rw [mul_comm, mul_div_assoc, div_self (by exact_mod_cast htne), mul_one]
    rw [if_pos (by exact_mod_cast hdl0.le)]
    rw [Int.floor_intCast, Int.mul_ediv_cancel_left dl htne]
  have hdelta_mul : (q / t) * t = q := by
    rw [hdl, Int.mul_ediv_cancel_left dl htne, mul_comm]
  -- shorthands
  set pk := generate_public_key params s a e with hpk
  set enc := mkBFVEncryptor params pk with henc
  set ct := enc.encrypt msg u with hct
  set dec := mkBFVDecryptor params ⟨s⟩ with hdec
  set W : List ℤ := ncList N a.coeffs s.coeffs with hW
  set E2 : List ℤ :=
    (List.range N).map (fun i => -(e.coeffs.getD i 0 + W.getD i 0)) with hE2
  -- public key p0
  have hinner_as : a.multiply s q = a.multiply_naive s (some q) := rfl
  have hp0 : pk.p0 = (e.add (a.multiply s q) (some q)).scalar_multiply (-1) (some q) := rfl
  have hp0d : pk.p0.ring_degree = N := by
    rw [hp0]
    exact ((scalar_multiply_length _ _ _).1).trans (((add_length _ _ _).1).trans hed)
  have hp0l : pk.p0.coeffs.length = N := by
    rw [hp0]
    exact ((scalar_multiply_length _ _ _).2).trans (((add_length _ _ _).2).trans hed)
  have hp0get : ∀ j, j < N → pk.p0.coeffs.getD j 0 =
      (-1 * ((e.coeffs.getD j 0 +
        ncCoeff a.coeffs s.coeffs N j % q) % q)) % q := by
    intro j hj
    rw [hp0, scalar_multiply_getD _ _ _ hqne j
      (by exact ((add_length _ _ _).2).trans hed ▸ hj)]
    rw [add_getD _ _ _ hqne j (hed ▸ hj)]
    rw [hinner_as, multiply_naive_getD_mod a s q hqne j (had ▸ hj), had]
  have hp0cast : ∀ i, ((pk.p0.coeffs.getD i 0 : ℤ) : ZMod qn) =
      ((E2.getD i 0 : ℤ) : ZMod qn) := by
    intro i
    by_cases hi : i < N
    · rw [hp0get i hi, hE2, getD_map_range N i _ 0 hi]
      rw [← hqn]
      rw [ZMod.intCast_mod, Int.cast_mul, ZMod.intCast_mod, Int.cast_add,
        ZMod.intCast_mod]
      rw [hW, ncList_getD N _ _ i hi]
      push_cast
      ring
    · rw [List.getD_eq_default _ _ (by rw [hp0l]; exact Nat.le_of_not_lt hi),
        List.getD_eq_default _ _ (by
          rw [hE2, List.length_map, List.length_range]
          exact Nat.le_of_not_lt hi)]
  -- ciphertext c0, c1
  have herr1R : (⟨enc.poly_degree, List.replicate enc.poly_degree 0⟩ :
      Polynomial).ring_degree = N := hNs
  have herr1C : (⟨enc.poly_degree, List.replicate enc.poly_degree 0⟩ :
      Polynomial).coeffs = List.replicate enc.poly_degree 0 := rfl
  have hmulP0 : pk.p0.multiply u q = pk.p0.multiply_naive u (some q) := rfl
  have hp1 : pk.p1 = a := rfl
  have hmulP1 : pk.p1.multiply u q = pk.p1.multiply_naive u (some q) := rfl
  have hc0 : ct.c0 = ((⟨enc.poly_degree, List.replicate enc.poly_degree 0⟩ : Polynomial).add
      (pk.p0.multiply u q) (some q)).add
      (msg.poly.scalar_multiply enc.scaling_factor (some q)) (some q) := rfl
  have hc1 : ct.c1 = (⟨enc.poly_degree, List.replicate enc.poly_degree 0⟩ : Polynomial).add
      (pk.p1.multiply u q) (some q) := rfl
  have hc0d : ct.c0.ring_degree = N := by
    rw [hc0]
    exact ((add_length _ _ _).1).trans (((add_length _ _ _).1).trans herr1R)
  have hc0l : ct.c0.coeffs.length = N := by
    rw [hc0]
    exact ((add_length _ _ _).2).trans (((add_length _ _ _).1).trans herr1R)
  have hc1d : ct.c1.ring_degree = N := by
    rw [hc1]
    exact ((add_length _ _ _).1).trans herr1R
  have hc1l : ct.c1.coeffs.length = N := by
    rw [hc1]
    exact ((add_length _ _ _).2).trans herr1R
  have hc0get : ∀ j, j < N → ct.c0.coeffs.getD j 0 =
      ((0 + ncCoeff pk.p0.coeffs u.coeffs N j % q) % q +
        (enc.scaling_factor * msg.poly.coeffs.getD j 0) % q) % q := by
    intro j hj
    rw [hc0]
    rw [add_getD _ _ _ hqne j (by
      rw [(add_length _ _ _).1, herr1R]
      exact hj)]
    rw [add_getD _ _ _ hqne j (by rw [herr1R]; exact hj)]
    rw [herr1C, replicate_getD_zero]
    rw [hmulP0, multiply_naive_getD_mod pk.p0 u q hqne j (by rw [hp0d]; exact hj), hp0d]
    rw [scalar_multiply_getD _ _ _ hqne j (by rw [hmll]; exact hj)]
  have hc1get : ∀ j, j < N → ct.c1.coeffs.getD j 0 =
      (0 + ncCoeff a.coeffs u.coeffs N j % q) % q := by
    intro j hj
    rw [hc1]
    rw [add_getD _ _ _ hqne j (by rw [herr1R]; exact hj)]
    rw [herr1C, replicate_getD_zero]
    rw [hmulP1, multiply_naive_getD_mod pk.p1 u q hqne j (by rw [hp1, had]; exact hj)]
    rw [hp1, had]
  -- the decryption intermediate
  set I : Polynomial := ct.c0.add (ct.c1.multiply s q) (some q) with hI
  have hId : I.ring_degree = N := ((add_length _ _ _).1).trans hc0d
  have hIl : I.coeffs.length = N := ((add_length _ _ _).2).trans hc0d
  have hIget : ∀ j, j < N → I.coeffs.getD j 0 =
      (ct.c0.coeffs.getD j 0 +
        ncCoeff ct.c1.coeffs s.coeffs N j % q) % q := by
    intro j hj
    have hmulC1 : ct.c1.multiply s q = ct.c1.multiply_naive s (some q) := rfl
    rw [hI, add_getD _ _ _ hqne j (hc0d ▸ hj)]
    rw [hmulC1, multiply_naive_getD_mod ct.c1 s q hqne j (hc1d ▸ hj), hc1d]
  have hIbound : ∀ j, j < N → 0 ≤ I.coeffs.getD j 0 ∧ I.coeffs.getD j 0 < q := by
    intro j hj
    rw [hIget j hj]
    exact ⟨Int.emod_nonneg _ hqne, Int.emod_lt_of_pos _ hq0⟩
  -- congruence computation
  have hc1cast : ∀ i, ((ct.c1.coeffs.getD i 0 : ℤ) : ZMod qn) =
      (((ncList N a.coeffs u.coeffs).getD i 0 : ℤ) : ZMod qn) := by
    intro i
    by_cases hi : i < N
    · rw [hc1get i hi, ncList_getD N _ _ i hi, ← hqn, ZMod.intCast_mod, Int.cast_add,
        ZMod.intCast_mod]
      push_cast
      ring
    · rw [List.getD_eq_default _ _ (by rw [hc1l]; exact Nat.le_of_not_lt hi),
        List.getD_eq_default _ _ (by rw [ncList_length]; exact Nat.le_of_not_lt hi)]
  have hIcast : ∀ j, j < N → ((I.coeffs.getD j 0 : ℤ) : ZMod qn) =
      (enc.scaling_factor : ZMod qn) * ((msg.poly.coeffs.getD j 0 : ℤ) : ZMod qn) -
        ((ncCoeff e.coeffs u.coeffs N j : ℤ) : ZMod qn) := by
    intro j hj
    have h1 : ((ncCoeff ct.c1.coeffs s.coeffs N j : ℤ) : ZMod qn) =
        ((ncCoeff (ncList N a.coeffs u.coeffs) s.coeffs N j : ℤ) : ZMod qn) :=
      ncCoeff_cast_congr qn _ _ _ _ N j hc1cast (fun i => rfl)
    have h2 : ncCoeff (ncList N a.coeffs u.coeffs) s.coeffs N j =
        ncCoeff W u.coeffs N j := by
      have hsw := ncList_mul_right_comm a.coeffs u.coeffs s.coeffs N hal hul hsl hN
      have hg : (ncList N (ncList N a.coeffs u.coeffs) s.coeffs).getD j 0 =
          (ncList N (ncList N a.coeffs s.coeffs) u.coeffs).getD j 0 := by
        rw [hsw]
      rw [ncList_getD N _ _ j hj, ncList_getD N _ _ j hj] at hg
      rw [hW]
      exact hg
    have h3 : ((ncCoeff pk.p0.coeffs u.coeffs N j : ℤ) : ZMod qn) =
        ((ncCoeff E2 u.coeffs N j : ℤ) : ZMod qn) :=
      ncCoeff_cast_congr qn _ _ _ _ N j hp0cast (fun i => rfl)
    have h4 : ((ncCoeff E2 u.coeffs N j : ℤ) : ZMod qn) =
        -((ncCoeff e.coeffs u.coeffs N j : ℤ) : ZMod qn) -
          ((ncCoeff W u.coeffs N j : ℤ) : ZMod qn) := by
      rw [hE2]
      exact ncCoeff_cast_neg_add qn e.coeffs W u.coeffs N j
    rw [hIget j hj, hc0get j hj, ← hqn]
    push_cast [ZMod.intCast_mod]
    rw [h1, h2, h3, h4]
    ring
  -- decryption result
  have hfinal : ∀ j, j < N →
      (dec.decrypt ct none).poly.coeffs.getD j 0 =
        pyRound ((1 / params.scaling_factor) * (I.coeffs.getD j 0 : ℚ)) % t := by
    intro j hj
    have hdec1 : (dec.decrypt ct none).poly.coeffs =
        ((I.coeffs.map (fun (c : ℤ) => (1 / dec.scaling_factor) * (c : ℚ))).map
          pyRound).map (· % dec.plain_modulus) := rfl
    rw [hdec1]
    rw [getD_map_lt _ _ j (0 : ℤ) (0 : ℤ) (by
      rw [List.length_map, List.length_map, hIl]
      exact hj)]
    rw [getD_map_lt _ _ j (0 : ℚ) (0 : ℤ) (by
      rw [List.length_map, hIl]
      exact hj)]
    rw [getD_map_lt _ _ j (0 : ℤ) (0 : ℚ) (by rw [hIl]; exact hj)]
    rfl
  have hsf : params.scaling_factor = (q : ℚ) / (t : ℚ) := rfl
  refine ⟨?_, ?_, ?_⟩
  · -- decryption inverts encryption
    intro j hj
    rw [hfinal j hj]
    -- integer decomposition of the intermediate coefficient
    have hdvd : (qn : ℤ) ∣ ((q / t) * msg.poly.coeffs.getD j 0 -
        ncCoeff e.coeffs u.coeffs N j) - I.coeffs.getD j 0 := by
      rw [← ZMod.intCast_eq_intCast_iff_dvd_sub]
      have := hIcast j hj
      have hdelta2 : (enc.scaling_factor : ZMod qn) = (((q / t : ℤ) : ZMod qn)) := by
        show ((pyTrunc params.scaling_factor : ℤ) : ZMod qn) = _
        rw [hdelta]
      rw [this, hdelta2]
      push_cast
      ring
    obtain ⟨k, hk⟩ := hdvd
    have hIval : I.coeffs.getD j 0 = (q / t) * msg.poly.coeffs.getD j 0 -
        ncCoeff e.coeffs u.coeffs N j - qn * k := by linear_combination -hk
    -- the rational value rounds to m_j - t*k
    have hration : (1 / params.scaling_factor) * (I.coeffs.getD j 0 : ℚ) =
        ((msg.poly.coeffs.getD j 0 - t * k : ℤ) : ℚ) +
          (-(ncCoeff e.coeffs u.coeffs N j : ℚ)) * t / q := by
      rw [hsf, hIval]
      have htQ : (t : ℚ) ≠ 0 := by exact_mod_cast htne
      have hdlQ : (dl : ℚ) ≠ 0 := by exact_mod_cast ne_of_gt hdl0
      have hq_eq : (q : ℚ) = (t : ℚ) * (dl : ℚ) := by exact_mod_cast hdl
      have hdivtq : ((q / t : ℤ) : ℚ) = (dl : ℚ) := by
        rw [hdl, Int.mul_ediv_cancel_left dl htne]
      have hqnQ : ((qn : ℕ) : ℚ) = (t : ℚ) * (dl : ℚ) := by
        rw [← hq_eq]
        exact_mod_cast congrArg (fun z : ℤ => (z : ℚ)) hqn
      push_cast
      rw [hq_eq, hdivtq, hqnQ]
      field_simp
      ring
    have hround : pyRound ((1 / params.scaling_factor) * (I.coeffs.getD j 0 : ℚ)) =
        msg.poly.coeffs.getD j 0 - t * k := by
      rw [hration]
      apply pyRound_int_add_small
      rw [abs_div, abs_mul, abs_neg]
      have hqabs : |(q : ℚ)| = (q : ℚ) := abs_of_pos (by exact_mod_cast hq0)
      have htabs : |(t : ℚ)| = (t : ℚ) := abs_of_pos (by exact_mod_cast ht)
      have hnsQ : (2 : ℚ) * (t : ℚ) * |(ncCoeff e.coeffs u.coeffs N j : ℚ)| < (q : ℚ) := by
        exact_mod_cast hnoise j hj
      rw [hqabs, htabs]
      rw [div_lt_iff (by exact_mod_cast hq0)]
      calc |(ncCoeff e.coeffs u.coeffs N j : ℚ)| * (t : ℚ) =
          (2 * (t : ℚ) * |(ncCoeff e.coeffs u.coeffs N j : ℚ)|) * (1 / 2) := by ring
        _ < (q : ℚ) * (1 / 2) := by
            apply mul_lt_mul_of_pos_right hnsQ
            norm_num
        _ = 1 / 2 * (q : ℚ) := by ring
    rw [hround]
    have hmm := hmsg j hj
    have : (msg.poly.coeffs.getD j 0 - t * k) % t = msg.poly.coeffs.getD j 0 % t := by
      have : msg.poly.coeffs.getD j 0 - t * k = msg.poly.coeffs.getD j 0 + t * (-k) := by
        ring
      rw [this, Int.add_mul_emod_self_left]
    rw [this, Int.emod_eq_of_lt hmm.1 hmm.2]
  · -- c0 has the claimed shape
    rw [hc0]
    have habs : (⟨enc.poly_degree, List.replicate enc.poly_degree 0⟩ : Polynomial).add
        (pk.p0.multiply u q) (some q) = pk.p0.multiply u q := by
      have hlen : ((⟨enc.poly_degree, List.replicate enc.poly_degree 0⟩ : Polynomial).add
          (pk.p0.multiply u q) (some q)).coeffs.length = N :=
        ((add_length _ _ _).2).trans hNs
      have hxlen : (pk.p0.multiply u q).coeffs.length = N :=
        (multiply_naive_coeffs_length pk.p0 u (some q)).trans hp0d
      have hdeq : ((⟨enc.poly_degree, List.replicate enc.poly_degree 0⟩ : Polynomial).add
          (pk.p0.multiply u q) (some q)).ring_degree = (pk.p0.multiply u q).ring_degree := by
        exact ((add_length _ _ _).1).trans (hNs.trans hp0d.symm)
      have hceq : ((⟨enc.poly_degree, List.replicate enc.poly_degree 0⟩ : Polynomial).add
          (pk.p0.multiply u q) (some q)).coeffs = (pk.p0.multiply u q).coeffs := by
        apply List.ext_getElem (by rw [hlen, hxlen])
        intro i h1 h2
        have hiN : i < N := by
          rw [hlen] at h1
          exact h1
        have hlhs := add_getD (⟨enc.poly_degree, List.replicate enc.poly_degree 0⟩ :
          Polynomial) (pk.p0.multiply u q) q hqne i (by rw [herr1R]; exact hiN)
        rw [List.getD_eq_getElem?_getD, List.getElem?_eq_getElem h1] at hlhs
        have hrhsD := multiply_naive_getD_mod pk.p0 u q hqne i (by rw [hp0d]; exact hiN)
        rw [← hmulP0] at hrhsD
        have hrhs := hrhsD
        rw [List.getD_eq_getElem?_getD, List.getElem?_eq_getElem h2] at hrhs
        simp only [Option.getD_some] at hlhs hrhs
        rw [hlhs, hrhs]
        show ((List.replicate enc.poly_degree (0 : ℤ)).getD i 0 + _) % q = _
        rw [replicate_getD_zero, zero_add, hrhsD,
          Int.emod_emod_of_dvd _ dvd_rfl]
      exact poly_eq_of_parts _ _ hdeq hceq
    rw [habs]
    have hscale : enc.scaling_factor = q / t := hdelta
    rw [hscale]
  · -- c1 has the claimed shape
    rw [hc1]
    have hxlen : (pk.p1.multiply u q).coeffs.length = N := by
      have hp1 : pk.p1 = a := rfl
      rw [hp1]
      exact (multiply_naive_coeffs_length a u (some q)).trans had
    have hp1d : pk.p1.ring_degree = N := by
      have hp1 : pk.p1 = a := rfl
      rw [hp1]
      exact had
    have hceq : ((⟨enc.poly_degree, List.replicate enc.poly_degree 0⟩ : Polynomial).add
        (pk.p1.multiply u q) (some q)).coeffs = (pk.p1.multiply u q).coeffs := by
      apply List.ext_getElem
        (by rw [((add_length _ _ _).2).trans hNs, hxlen])
      intro i h1 h2
      have hiN : i < N := by
        rw [((add_length (⟨enc.poly_degree, List.replicate enc.poly_degree 0⟩ :
          Polynomial) (pk.p1.multiply u q) (some q)).2).trans herr1R] at h1
        exact h1
      have hlhs := add_getD (⟨enc.poly_degree, List.replicate enc.poly_degree 0⟩ :
        Polynomial) (pk.p1.multiply u q) q hqne i (by rw [herr1R]; exact hiN)
      rw [List.getD_eq_getElem?_getD, List.getElem?_eq_getElem h1] at hlhs
      have hrhsD := multiply_naive_getD_mod pk.p1 u q hqne i (by rw [hp1d]; exact hiN)
      rw [← hmulP1] at hrhsD
      have hrhs := hrhsD
      rw [List.getD_eq_getElem?_getD, List.getElem?_eq_getElem h2] at hrhs
      simp only [Option.getD_some] at hlhs hrhs
      rw [hlhs, hrhs]
      show ((List.replicate enc.poly_degree (0 : ℤ)).getD i 0 + _) % q = _
      rw [replicate_getD_zero, zero_add, hrhsD,
        Int.emod_emod_of_dvd _ dvd_rfl]
    have hdeq : ((⟨enc.poly_degree, List.replicate enc.poly_degree 0⟩ : Polynomial).add
        (pk.p1.multiply u q) (some q)).ring_degree = (pk.p1.multiply u q).ring_degree :=
      ((add_length _ _ _).1).trans (hNs.trans hp1d.symm)
    exact poly_eq_of_parts _ _ hdeq hceq

/-- C1 witness instance: N = 1, q = 8, t = 2 (so t divides q and Delta = 4),
message [1], secret key [1], uniform draw [1], key error [1], encryption
randomness [1]; decryption returns the message coefficient. -/
theorem bfv_encrypt_decrypt_correct_witness :
    ((mkBFVDecryptor ⟨1, 2, 8⟩ ⟨⟨1, [1]⟩⟩).decrypt
        ((mkBFVEncryptor ⟨1, 2, 8⟩
            (generate_public_key ⟨1, 2, 8⟩ ⟨1, [1]⟩ ⟨1, [1]⟩ ⟨1, [1]⟩)).encrypt
          ⟨⟨1, [1]⟩⟩ ⟨1, [1]⟩) none).poly.coeffs.getD 0 0 =
      (⟨⟨1, [1]⟩⟩ : Plaintext).poly.coeffs.getD 0 0 :=
  (bfv_encrypt_decrypt_correct ⟨1, 2, 8⟩ ⟨1, [1]⟩ ⟨1, [1]⟩ ⟨1, [1]⟩ ⟨1, [1]⟩ ⟨⟨1, [1]⟩⟩ 1
    (by decide) rfl rfl rfl rfl rfl rfl rfl rfl rfl rfl rfl (by decide) (by norm_num)
    (by decide) (by decide)).1 0 (by decide)

/-- C1 counterexample to the original claim: with N = 1, t = 3, q = 7 the
plaintext modulus does not divide the ciphertext modulus, and for the
message [2] with secret key [0], uniform draw [0], key error [1] and
encryption randomness [1] every hypothesis of the original claim holds
(message coefficients in [0, t), the public-key-error-times-randomness
coefficient has absolute value 1 < Delta/2 = (7/3)/2), yet decryption
returns [1], which differs from the message coefficient 2 mod 3: the
truncated Delta = int(7/3) = 2 used at encryption does not match the
rational 7/3 used at decryption. -/
theorem bfv_decrypt_original_claim_counterexample :
    (∀ j < 1, 0 ≤ (⟨⟨1, [2]⟩⟩ : Plaintext).poly.coeffs.getD j 0 ∧
        (⟨⟨1, [2]⟩⟩ : Plaintext).poly.coeffs.getD j 0 < (3 : ℤ)) ∧
    (∀ j < 1, |((ncCoeff [1] [1] 1 j : ℤ) : ℚ)| <
        BFVParameters.scaling_factor ⟨1, 3, 7⟩ / 2) ∧
    ((mkBFVDecryptor ⟨1, 3, 7⟩ ⟨⟨1, [0]⟩⟩).decrypt
        ((mkBFVEncryptor ⟨1, 3, 7⟩
            (generate_public_key ⟨1, 3, 7⟩ ⟨1, [0]⟩ ⟨1, [0]⟩ ⟨1, [1]⟩)).encrypt
          ⟨⟨1, [2]⟩⟩ ⟨1, [1]⟩) none).poly.coeffs = [1] ∧
    ¬ ((1 : ℤ) = (⟨⟨1, [2]⟩⟩ : Plaintext).poly.coeffs.getD 0 0 % 3) := by
  refine ⟨by decide, ?_, ?_, by decide⟩
  · intro j hj
    have hj0 : j = 0 := Nat.lt_one_iff.mp hj
    subst hj0
    have h : ncCoeff [1] [1] 1 0 = 1 := by decide
    rw [h]
    show |((1 : ℤ) : ℚ)| < ((7 : ℤ) : ℚ) / ((3 : ℤ) : ℚ) / 2
    rw [abs_of_nonneg (by norm_num)]
    norm_num
  · have henc : mkBFVEncryptor ⟨1, 3, 7⟩
        (generate_public_key ⟨1, 3, 7⟩ ⟨1, [0]⟩ ⟨1, [0]⟩ ⟨1, [1]⟩) =
        ⟨1, 7, generate_public_key ⟨1, 3, 7⟩ ⟨1, [0]⟩ ⟨1, [0]⟩ ⟨1, [1]⟩, 2⟩ := by
      have h2 : pyTrunc (BFVParameters.scaling_factor ⟨1, 3, 7⟩) = 2 := by
        show pyTrunc (((7 : ℤ) : ℚ) / ((3 : ℤ) : ℚ)) = 2
        unfold pyTrunc
        rw [if_pos (by norm_num)]
        rw [Int.floor_eq_iff]
        constructor <;> norm_num
      show (⟨1, 7, generate_public_key ⟨1, 3, 7⟩ ⟨1, [0]⟩ ⟨1, [0]⟩ ⟨1, [1]⟩,
        pyTrunc (BFVParameters.scaling_factor ⟨1, 3, 7⟩)⟩ : BFVEncryptor) = _
      rw [h2]
    rw [henc]
    have hct : (⟨1, 7, generate_public_key ⟨1, 3, 7⟩ ⟨1, [0]⟩ ⟨1, [0]⟩ ⟨1, [1]⟩, 2⟩ :
        BFVEncryptor).encrypt ⟨⟨1, [2]⟩⟩ ⟨1, [1]⟩ = ⟨⟨1, [3]⟩, ⟨1, [0]⟩⟩ := rfl
    rw [hct]
    have h1 : ((mkBFVDecryptor ⟨1, 3, 7⟩ ⟨⟨1, [0]⟩⟩).decrypt ⟨⟨1, [3]⟩, ⟨1, [0]⟩⟩
        none).poly.coeffs =
        (([(3 : ℤ)].map (fun (c : ℤ) =>
          (1 / (mkBFVDecryptor ⟨1, 3, 7⟩ ⟨⟨1, [0]⟩⟩).scaling_factor) * (c : ℚ))).map
            pyRound).map (· % (3 : ℤ)) := rfl
    rw [h1]
    simp only [List.map_cons, List.map_nil]
    have hval : (1 / (mkBFVDecryptor ⟨1, 3, 7⟩ ⟨⟨1, [0]⟩⟩).scaling_factor) *
        ((3 : ℤ) : ℚ) = 9/7 := by
      show (1 / (((7 : ℤ) : ℚ) / ((3 : ℤ) : ℚ))) * ((3 : ℤ) : ℚ) = 9/7
      push_cast
      norm_num
    rw [hval]
    have hfl : ⌊(9 : ℚ)/7⌋ = 1 := by
      rw [Int.floor_eq_iff]
      constructor <;> norm_num
    have hr : pyRound ((9 : ℚ)/7) = 1 := by
      simp only [pyRound]
      rw [hfl]
      norm_num
    rw [hr]
    decide

/-! ### C3: the CRT round-trip -/

theorem getD_mem_of_lt (l : List ℤ) (j : ℕ) (h : j < l.length) : l.getD j 0 ∈ l := by
  rw [List.getD_eq_getElem l 0 h]
  exact List.getElem_mem h

theorem intCast_emod_eq (n : ℕ) (a b : ℤ) (h : (n : ℤ) ∣ b) :
    ((a % b : ℤ) : ZMod n) = (a : ZMod n) := by
  rw [Int.emod_def]
  push_cast
  rw [(ZMod.intCast_zmod_eq_zero_iff_dvd b n).mpr h]
  ring

theorem foldl_add_emod (Q : ℤ) (f : ℕ → ℤ) (K : ℕ) :
    (List.range K).foldl (fun acc i => (acc + f i) % Q) 0 =
      (∑ i ∈ Finset.range K, f i) % Q := by
  induction K with
  | zero => simp
  | succ k ih =>
    rw [List.range_succ, List.foldl_append, List.foldl_cons, List.foldl_nil, ih,
      Finset.sum_range_succ, Int.emod_add_emod]

theorem foldl_mul_eq_prod (c : ℤ) (l : List ℤ) :
    l.foldl (· * ·) c = c * ∏ i ∈ Finset.range l.length, l.getD i 0 := by
  induction l generalizing c with
  | nil => simp
  | cons a t ih =>
    rw [List.foldl_cons, ih]
    rw [List.length_cons, Finset.prod_range_succ']
    simp only [List.getD_cons_succ, List.getD_cons_zero]
    ring

theorem int_prime_not_dvd_of_ne (p q : ℤ) (hp : Prime p) (hq : Prime q)
    (h0p : 0 < p) (h0q : 0 < q) (hne : p ≠ q) : ¬ p ∣ q := by
  rintro ⟨c, hc⟩
  rcases hq.irreducible.isUnit_or_isUnit hc with h | h
  · exact hp.not_unit h
  · rcases Int.isUnit_iff.mp h with h1 | h1
    · subst h1
      rw [mul_one] at hc
      exact hne hc.symm
    · subst h1
      rw [mul_neg_one] at hc
      omega

set_option maxHeartbeats 1000000 in
/-- The CRT round-trip core: for distinct positive primes,
reconstruct(crt(v)) = v mod Q, and = v when 0 <= v < Q.  Shared by the
round-trip claim and the multiply_crt analysis. -/
theorem crt_reconstruct_core (crt : CRTContext)
    (hpr : ∀ p ∈ crt.primes, Prime p)
    (hpos : ∀ p ∈ crt.primes, 0 < p)
    (hdist : crt.primes.Pairwise (· ≠ ·)) (v : ℤ) :
    crt.reconstruct (crt.crt v) = v % crt.modulus ∧
    (0 ≤ v → v < crt.modulus → crt.reconstruct (crt.crt v) = v) := by
  have hmem : ∀ j, j < crt.primes.length → crt.primes.getD j 0 ∈ crt.primes :=
    fun j hj => getD_mem_of_lt _ j hj
  have hPpr : ∀ j, j < crt.primes.length → Prime (crt.primes.getD j 0) :=
    fun j hj => hpr _ (hmem j hj)
  have hPpos : ∀ j, j < crt.primes.length → 0 < crt.primes.getD j 0 :=
    fun j hj => hpos _ (hmem j hj)
  have hP2 : ∀ j, j < crt.primes.length → 2 ≤ crt.primes.getD j 0 := by
    intro j hj
    have h1 := hPpos j hj
    have h2 := (hPpr j hj).ne_one
    omega
  have hPne : ∀ i j, i < crt.primes.length → j < crt.primes.length → i ≠ j →
      crt.primes.getD i 0 ≠ crt.primes.getD j 0 := by
    intro i j hi hj hne
    rw [List.pairwise_iff_getElem] at hdist
    rw [List.getD_eq_getElem _ 0 hi, List.getD_eq_getElem _ 0 hj]
    rcases Nat.lt_or_ge i j with h | h
    · exact hdist i j hi hj h
    · have hlt : j < i := by omega
      exact fun hcc => hdist j i hj hi hlt hcc.symm
  have hQprod : crt.modulus = ∏ i ∈ Finset.range crt.primes.length, crt.primes.getD i 0 := by
    show crt.primes.foldl (· * ·) 1 = _
    rw [foldl_mul_eq_prod, one_mul]
  have hQpos : 0 < crt.modulus := by
    rw [hQprod]
    exact Finset.prod_pos (fun i hi => hPpos i (Finset.mem_range.mp hi))
  have hsplit : ∀ j, j < crt.primes.length → crt.primes.getD j 0 *
      (∏ i ∈ (Finset.range crt.primes.length).erase j, crt.primes.getD i 0) = crt.modulus := by
    intro j hj
    rw [hQprod]
    exact Finset.mul_prod_erase (Finset.range crt.primes.length)
      (fun i => crt.primes.getD i 0) (Finset.mem_range.mpr hj)
  have hcv : ∀ j, j < crt.primes.length → crt.crt_vals.getD j 0 =
      ∏ i ∈ (Finset.range crt.primes.length).erase j, crt.primes.getD i 0 := by
    intro j hj
    show (crt.primes.map (fun p => crt.modulus.fdiv p)).getD j 0 = _
    rw [getD_map_lt _ _ j 0 0 hj, ← hsplit j hj]
    exact Int.mul_fdiv_cancel_left _ (ne_of_gt (hPpos j hj))
  have hndvd : ∀ j, j < crt.primes.length → ¬ crt.primes.getD j 0 ∣
      ∏ i ∈ (Finset.range crt.primes.length).erase j, crt.primes.getD i 0 := by
    intro j hj hdvd
    rcases (Prime.dvd_finset_prod_iff (hPpr j hj) _).mp hdvd with ⟨i, hi, hdvd2⟩
    have hiK : i < crt.primes.length := Finset.mem_range.mp (Finset.mem_of_mem_erase hi)
    have hij : i ≠ j := Finset.ne_of_mem_erase hi
    exact int_prime_not_dvd_of_ne _ _ (hPpr j hj) (hPpr i hiK) (hPpos j hj) (hPpos i hiK)
      (hPne j i hj hiK (fun h => hij h.symm)) hdvd2
  have hfermat : ∀ j, (hj : j < crt.primes.length) →
      ((crt.crt_vals.getD j 0 : ℤ) : ZMod (crt.primes.getD j 0).toNat) *
        ((crt.crt_inv_vals.getD j 0 : ℤ) : ZMod (crt.primes.getD j 0).toNat) = 1 := by
    intro j hj
    have hp2 := hP2 j hj
    have hpn : (((crt.primes.getD j 0).toNat : ℕ) : ℤ) = crt.primes.getD j 0 :=
      Int.toNat_of_nonneg (by omega)
    have hprime_nat : Nat.Prime (crt.primes.getD j 0).toNat := by
      rw [Nat.prime_iff_prime_int, hpn]
      exact hPpr j hj
    haveI : Fact (Nat.Prime (crt.primes.getD j 0).toNat) := ⟨hprime_nat⟩
    have hcv0 : ((crt.crt_vals.getD j 0 : ℤ) : ZMod (crt.primes.getD j 0).toNat) ≠ 0 := by
      intro h0
      rw [ZMod.intCast_zmod_eq_zero_iff_dvd, hpn, hcv j hj] at h0
      exact hndvd j hj h0
    have hinv : crt.crt_inv_vals.getD j 0 = mod_exp (crt.crt_vals.getD j 0)
        ((crt.primes.getD j 0) - 2).toNat (crt.primes.getD j 0) := by
      show ((List.range crt.primes.length).map _).getD j 0 = _
      rw [getD_map_range _ j _ 0 hj]
      rfl
    have he : ((crt.primes.getD j 0) - 2).toNat + 1 = (crt.primes.getD j 0).toNat - 1 := by
      omega
    rw [hinv]
    unfold mod_exp
    rw [intCast_emod_eq _ _ _ (dvd_of_eq hpn)]
    push_cast
    rw [← pow_succ', he]
    exact ZMod.pow_card_sub_one_eq_one hcv0
  obtain ⟨S, hS⟩ : ∃ S : ℤ, S = ∑ i ∈ Finset.range crt.primes.length,
      ((v % crt.primes.getD i 0 * crt.crt_inv_vals.getD i 0) % crt.primes.getD i 0 *
        crt.crt_vals.getD i 0) % crt.modulus := ⟨_, rfl⟩
  have hrec0 : crt.reconstruct (crt.crt v) =
      (∑ i ∈ Finset.range crt.primes.length,
        (((crt.crt v).getD i 0 * crt.crt_inv_vals.getD i 0) % crt.primes.getD i 0 *
          crt.crt_vals.getD i 0) % crt.modulus) % crt.modulus :=
    foldl_add_emod crt.modulus _ crt.primes.length
  have hrec : crt.reconstruct (crt.crt v) = S % crt.modulus := by
    rw [hrec0, hS]
    congr 1
    apply Finset.sum_congr rfl
    intro i hi
    have hiK : i < crt.primes.length := Finset.mem_range.mp hi
    show ((((crt.primes.map (fun p => v % p)).getD i 0) * crt.crt_inv_vals.getD i 0) %
      crt.primes.getD i 0 * crt.crt_vals.getD i 0) % crt.modulus = _
    rw [getD_map_lt _ _ i 0 0 hiK]
  have hsum : ∀ j, j < crt.primes.length → crt.primes.getD j 0 ∣ (S - v) := by
    intro j hj
    have hp2 := hP2 j hj
    have hpn : (((crt.primes.getD j 0).toNat : ℕ) : ℤ) = crt.primes.getD j 0 :=
      Int.toNat_of_nonneg (by omega)
    have hQdvdn : (((crt.primes.getD j 0).toNat : ℕ) : ℤ) ∣ crt.modulus := by
      rw [hpn]
      exact ⟨_, (hsplit j hj).symm⟩
    have hzero : ∀ i ∈ Finset.range crt.primes.length, i ≠ j →
        (((v % crt.primes.getD i 0 * crt.crt_inv_vals.getD i 0) % crt.primes.getD i 0 *
          crt.crt_vals.getD i 0) % crt.modulus :
            ZMod (crt.primes.getD j 0).toNat) = 0 := by
      intro i hi hne
      have hiK : i < crt.primes.length := Finset.mem_range.mp hi
      rw [intCast_emod_eq _ _ _ hQdvdn]
      push_cast
      have hz : ((crt.crt_vals.getD i 0 : ℤ) : ZMod (crt.primes.getD j 0).toNat) = 0 := by
        rw [ZMod.intCast_zmod_eq_zero_iff_dvd, hpn, hcv i hiK]
        exact Finset.dvd_prod_of_mem _
          (Finset.mem_erase.mpr ⟨fun h => hne h.symm, Finset.mem_range.mpr hj⟩)
      rw [hz, mul_zero]
    rw [← hpn, ← ZMod.intCast_zmod_eq_zero_iff_dvd]
    push_cast
    rw [sub_eq_zero, hS]
    push_cast
    rw [Finset.sum_eq_single_of_mem j (Finset.mem_range.mpr hj) hzero]
    rw [intCast_emod_eq _ _ _ hQdvdn]
    push_cast
    rw [intCast_emod_eq _ _ _ (dvd_of_eq hpn)]
    push_cast
    rw [intCast_emod_eq _ _ _ (dvd_of_eq hpn)]
    have hf : ((crt.crt_inv_vals.getD j 0 : ℤ) : ZMod (crt.primes.getD j 0).toNat) *
        ((crt.crt_vals.getD j 0 : ℤ) : ZMod (crt.primes.getD j 0).toNat) = 1 := by
      rw [mul_comm]
      exact hfermat j hj
    rw [mul_assoc, hf, mul_one]
  have hQdvdS : crt.modulus ∣ (S - v) := by
    have hgen : ∀ s : Finset ℕ, s ⊆ Finset.range crt.primes.length →
        (∏ i ∈ s, crt.primes.getD i 0) ∣ (S - v) := by
      intro s
      induction s using Finset.induction_on with
      | empty =>
        intro _
        simpa using one_dvd _
      | @insert a s ha ih =>
        intro hsub
        have haK : a < crt.primes.length := Finset.mem_range.mp (hsub (Finset.mem_insert_self a s))
        have hsub2 : s ⊆ Finset.range crt.primes.length :=
          fun x hx => hsub (Finset.mem_insert_of_mem hx)
        rw [Finset.prod_insert ha]
        have hcop : IsCoprime (crt.primes.getD a 0) (∏ i ∈ s, crt.primes.getD i 0) := by
          apply IsCoprime.prod_right
          intro i hi
          have hiK : i < crt.primes.length := Finset.mem_range.mp (hsub2 hi)
          rw [Prime.coprime_iff_not_dvd (hPpr a haK)]
          exact int_prime_not_dvd_of_ne _ _ (hPpr a haK) (hPpr i hiK) (hPpos a haK)
            (hPpos i hiK) (hPne a i haK hiK (by intro h; rw [h] at ha; exact ha hi))
        exact hcop.mul_dvd (hsum a haK) (ih hsub2)
    have hall := hgen (Finset.range crt.primes.length) (Finset.Subset.refl _)
    rw [← hQprod] at hall
    exact hall
  have h1 : crt.reconstruct (crt.crt v) = v % crt.modulus := by
    rw [hrec, Int.emod_eq_emod_iff_emod_sub_eq_zero]
    exact Int.emod_eq_zero_of_dvd hQdvdS
  refine ⟨h1, fun h0 hlt => ?_⟩
  rw [h1, Int.emod_eq_of_lt h0 hlt]

/-- C3: for a CRTContext whose prime list consists of distinct positive
primes (exactly what generate_primes produces), reconstruct(crt(v))
equals v mod Q for every integer v, where Q is the product modulus, and
equals v itself whenever 0 <= v < Q. -/
theorem crt_reconstruct_crt (crt : CRTContext)
    (hpr : ∀ p ∈ crt.primes, Prime p)
    (hpos : ∀ p ∈ crt.primes, 0 < p)
    (hdist : crt.primes.Pairwise (· ≠ ·)) (v : ℤ) :
    crt.reconstruct (crt.crt v) = v % crt.modulus ∧
    (0 ≤ v → v < crt.modulus → crt.reconstruct (crt.crt v) = v) :=
  crt_reconstruct_core crt hpr hpos hdist v

/-- C3 witness instance: primes [3, 5], Q = 15, v = 7; the round-trip
returns 7 both as 7 mod 15 and directly. -/
theorem crt_reconstruct_crt_witness :
    (⟨1, [3, 5], [1, 1]⟩ : CRTContext).reconstruct
        ((⟨1, [3, 5], [1, 1]⟩ : CRTContext).crt 7) = 7 % (⟨1, [3, 5], [1, 1]⟩ : CRTContext).modulus ∧
    (0 ≤ (7 : ℤ) → (7 : ℤ) < (⟨1, [3, 5], [1, 1]⟩ : CRTContext).modulus →
      (⟨1, [3, 5], [1, 1]⟩ : CRTContext).reconstruct
        ((⟨1, [3, 5], [1, 1]⟩ : CRTContext).crt 7) = 7) :=
  crt_reconstruct_crt ⟨1, [3, 5], [1, 1]⟩
    (by intro p hp; fin_cases hp <;> norm_num)
    (by intro p hp; fin_cases hp <;> norm_num)
    (by decide) 7

/-! ### C5: base_decompose -/

theorem int_ediv_ediv (a b c : ℤ) (hb : 0 < b) (hc : 0 < c) :
    a / b / c = a / (b * c) := by
  have h1 : a = (b * ((a / b) % c) + a % b) + b * c * (a / b / c) := by
    calc a = a % b + b * (a / b) := (Int.emod_add_ediv a b).symm
    _ = a % b + b * ((a / b) % c + c * (a / b / c)) := by rw [Int.emod_add_ediv (a / b) c]
    _ = (b * ((a / b) % c) + a % b) + b * c * (a / b / c) := by ring
  have hr0 : 0 ≤ b * ((a / b) % c) + a % b :=
    add_nonneg (mul_nonneg hb.le (Int.emod_nonneg _ hc.ne')) (Int.emod_nonneg _ hb.ne')
  have hr1 : b * ((a / b) % c) + a % b < b * c := by
    have h2 : (a / b) % c ≤ c - 1 := by
      have := Int.emod_lt_of_pos (a / b) hc
      omega
    have h3 : a % b < b := Int.emod_lt_of_pos a hb
    have h4 : b * ((a / b) % c) ≤ b * (c - 1) := mul_le_mul_of_nonneg_left h2 hb.le
    have h5 : b * (c - 1) = b * c - b := by ring
    omega
  have h6 : a / (b * c) = a / b / c := by
    conv_lhs => rw [h1]
    rw [add_comm (b * ((a / b) % c) + a % b) (b * c * (a / b / c))]
    rw [show b * c * (a / b / c) + (b * ((a / b) % c) + a % b) =
      (b * ((a / b) % c) + a % b) + b * c * (a / b / c) from by ring]
    rw [Int.add_mul_ediv_left _ _ (mul_ne_zero hb.ne' hc.ne'),
      Int.ediv_eq_zero_of_lt hr0 hr1, zero_add]
  exact h6.symm

theorem fl_zero : fl 0 = 0 := by
  unfold fl
  simp

theorem flPos_eq_self (x : ℚ) (m : ℤ)
    (hm : x * (2 : ℚ) ^ ((52 : ℤ) - Int.log 2 x) = (m : ℚ)) : flPos x = x := by
  unfold flPos
  rw [hm, pyRound_intCast, ← hm, mul_assoc, ← zpow_add₀ (by norm_num : (2:ℚ) ≠ 0)]
  rw [show ((52:ℤ) - Int.log 2 x) + (Int.log 2 x - 52) = 0 from by ring, zpow_zero, mul_one]

theorem fl_eq_self_of_pos (x : ℚ) (hx : 0 < x) (m : ℤ)
    (hm : x * (2 : ℚ) ^ ((52 : ℤ) - Int.log 2 x) = (m : ℚ)) : fl x = x := by
  unfold fl
  rw [if_neg (ne_of_gt hx), if_pos hx]
  exact flPos_eq_self x m hm

theorem fl_intCast (c : ℤ) (h0 : 0 ≤ c) (h1 : c < 2 ^ 53) : fl (c : ℚ) = c := by
  rcases eq_or_lt_of_le h0 with h | h
  · rw [← h]
    norm_num [fl_zero]
  · have hcpos : (0:ℚ) < (c : ℚ) := by exact_mod_cast h
    have hlog_lt : Int.log 2 (c : ℚ) < 53 := by
      rw [← Int.lt_zpow_iff_log_lt (by norm_num) hcpos]
      rw [show ((53:ℤ)) = ((53:ℕ):ℤ) from rfl, zpow_natCast]
      push_cast
      exact_mod_cast h1
    have hge : 0 ≤ (52:ℤ) - Int.log 2 (c:ℚ) := by omega
    apply fl_eq_self_of_pos _ hcpos (c * 2 ^ ((52:ℤ) - Int.log 2 (c:ℚ)).toNat)
    push_cast
    rw [← zpow_natCast (2:ℚ) ((52:ℤ) - Int.log 2 (c:ℚ)).toNat, Int.toNat_of_nonneg hge]

theorem fl_int_div_pow (c : ℤ) (k : ℕ) (h0 : 0 < c) (h1 : c < 2 ^ 53) :
    fl ((c : ℚ) / 2 ^ k) = (c : ℚ) / 2 ^ k := by
  have hxpos : 0 < (c : ℚ) / 2 ^ k := by positivity
  have hlt : (c : ℚ) / 2 ^ k < ((2:ℕ) : ℚ) ^ ((53 : ℤ) - k) := by
    rw [div_lt_iff₀ (by positivity)]
    push_cast
    rw [← zpow_natCast (2:ℚ) k, ← zpow_add₀ (by norm_num : (2:ℚ) ≠ 0)]
    rw [show (53:ℤ) - (k:ℤ) + (k:ℤ) = ((53:ℕ):ℤ) from by ring, zpow_natCast]
    exact_mod_cast h1
  have hlog_lt : Int.log 2 ((c : ℚ) / 2 ^ k) < 53 - k :=
    (Int.lt_zpow_iff_log_lt (by norm_num) hxpos).mp hlt
  have hge : 0 ≤ (52:ℤ) - k - Int.log 2 ((c : ℚ) / 2 ^ k) := by omega
  apply fl_eq_self_of_pos _ hxpos (c * 2 ^ ((52:ℤ) - k - Int.log 2 ((c : ℚ) / 2 ^ k)).toNat)
  generalize hl : Int.log 2 ((c : ℚ) / 2 ^ k) = l
  rw [hl] at hge
  push_cast
  rw [← zpow_natCast (2:ℚ) ((52:ℤ) - (k:ℤ) - l).toNat, Int.toNat_of_nonneg hge]
  rw [div_mul_eq_mul_div, div_eq_iff (by positivity : ((2:ℚ)^k) ≠ 0), mul_assoc,
    ← zpow_natCast (2:ℚ) k, ← zpow_add₀ (by norm_num : (2:ℚ) ≠ 0)]
  rw [show ((52:ℤ) - (k:ℤ) - l) + (k:ℤ) = (52:ℤ) - l from by ring]

theorem baseDecomposeStep_coeff (k : ℕ) (c : ℤ) (h0 : 0 ≤ c) (h1 : c < 2 ^ 53) :
    pyTrunc (fl (fl (c : ℚ) * fl (1 / (((2:ℤ) ^ k : ℤ) : ℚ)))) = c / 2 ^ k := by
  have hb : (((2:ℤ) ^ k : ℤ) : ℚ) = (2:ℚ) ^ k := by push_cast; rfl
  have hinv : fl (1 / (((2:ℤ) ^ k : ℤ) : ℚ)) = 1 / (2:ℚ) ^ k := by
    rw [hb]
    have h2 : ((1:ℤ) : ℚ) / 2 ^ k = 1 / (2:ℚ)^k := by norm_num
    rw [← h2, fl_int_div_pow 1 k (by norm_num) (by norm_num), h2]
  rw [hinv, fl_intCast c h0 h1]
  rcases eq_or_lt_of_le h0 with h | h
  · rw [← h]
    rw [Int.cast_zero, zero_mul, fl_zero]
    unfold pyTrunc
    rw [if_pos le_rfl, Int.floor_zero, Int.zero_ediv]
  · have hmul : (c : ℚ) * (1 / 2 ^ k) = (c : ℚ) / 2 ^ k := by rw [mul_one_div]
    rw [hmul, fl_int_div_pow c k h h1]
    unfold pyTrunc
    rw [if_pos (by positivity)]
    rw [show ((2:ℚ)^k) = (((2^k : ℕ) : ℚ)) from by push_cast; rfl,
      Rat.floor_intCast_div_natCast]
    push_cast
    rfl

theorem baseDecomposeStep_getD (base : ℤ) (q : Polynomial) (j : ℕ) :
    (baseDecomposeStep base q).coeffs.getD j 0 =
      pyTrunc (fl (fl (q.coeffs.getD j 0 : ℚ) * fl (1 / (base : ℚ)))) := by
  by_cases hj : j < q.coeffs.length
  · show (q.coeffs.map _).getD j 0 = _
    rw [getD_map_lt _ _ j 0 0 hj]
  · have hj' : q.coeffs.length ≤ j := Nat.le_of_not_lt hj
    show (q.coeffs.map _).getD j 0 = _
    rw [List.getD_eq_default _ _ (by rw [List.length_map]; exact hj'),
      List.getD_eq_default _ _ hj']
    rw [Int.cast_zero, fl_zero, zero_mul, fl_zero]
    unfold pyTrunc
    rw [if_pos le_rfl, Int.floor_zero]

theorem base_decompose_eq_map (p : Polynomial) (base : ℤ) (L : ℕ) :
    p.base_decompose base L = (List.range L).map
      (fun i => ((baseDecomposeStep base)^[i] p).mod base) := by
  have h : ∀ M : ℕ, (List.range M).foldl (fun (st : List Polynomial × Polynomial) _ =>
      (st.1 ++ [st.2.mod base], baseDecomposeStep base st.2)) ([], p) =
      ((List.range M).map (fun i => ((baseDecomposeStep base)^[i] p).mod base),
        (baseDecomposeStep base)^[M] p) := by
    intro M
    induction M with
    | zero => rfl
    | succ n ih =>
      rw [List.range_succ, List.foldl_append, List.foldl_cons, List.foldl_nil, ih,
        List.map_append, List.map_cons, List.map_nil, Function.iterate_succ_apply']
  show ((List.range L).foldl _ ([], p)).1 = _
  rw [h L]

theorem baseDecomposeStep_iterate_getD (k : ℕ) (p : Polynomial)
    (hc : ∀ j, 0 ≤ p.coeffs.getD j 0 ∧ p.coeffs.getD j 0 < 2 ^ 53) :
    ∀ i j, ((baseDecomposeStep ((2:ℤ)^k))^[i] p).coeffs.getD j 0 =
      p.coeffs.getD j 0 / ((2:ℤ)^k) ^ i := by
  intro i
  induction i with
  | zero =>
    intro j
    rw [Function.iterate_zero_apply, pow_zero, Int.ediv_one]
  | succ n ih =>
    intro j
    rw [Function.iterate_succ_apply', baseDecomposeStep_getD, ih j]
    have h0 : 0 ≤ p.coeffs.getD j 0 / ((2:ℤ)^k) ^ n :=
      Int.ediv_nonneg (hc j).1 (by positivity)
    have h1 : p.coeffs.getD j 0 / ((2:ℤ)^k) ^ n < 2 ^ 53 :=
      lt_of_le_of_lt (Int.ediv_le_self _ (hc j).1) (hc j).2
    rw [baseDecomposeStep_coeff k _ h0 h1]
    rw [int_ediv_ediv _ _ _ (by positivity) (by positivity), ← pow_succ]

theorem mod_getD_all (x : Polynomial) (m : ℤ) (j : ℕ) :
    (x.mod m).coeffs.getD j 0 = x.coeffs.getD j 0 % m := by
  by_cases hj : j < x.coeffs.length
  · show (x.coeffs.map _).getD j 0 = _
    rw [getD_map_lt _ _ j 0 0 hj]
  · have hj' : x.coeffs.length ≤ j := Nat.le_of_not_lt hj
    show (x.coeffs.map _).getD j 0 = _
    rw [List.getD_eq_default _ _ (by rw [List.length_map]; exact hj'),
      List.getD_eq_default _ _ hj', Int.zero_emod]

theorem geom_digit_sum (b : ℤ) (hb : 0 < b) (c : ℤ) (hc : 0 ≤ c) :
    ∀ L : ℕ, ∑ i ∈ Finset.range L, b^i * ((c / b^i) % b) = c % b^L := by
  intro L
  induction L with
  | zero => rw [Finset.range_zero, Finset.sum_empty, pow_zero, Int.emod_one]
  | succ n ih =>
    rw [Finset.sum_range_succ, ih]
    have hbn : (0:ℤ) < b^n := by positivity
    have hbn1 : (0:ℤ) < b^(n+1) := by positivity
    have hdvd : b^n ∣ b^(n+1) := pow_dvd_pow b (Nat.le_succ n)
    have e1 : c % b^n = c % b^(n+1) % b^n := (Int.emod_emod_of_dvd c hdvd).symm
    have e2 : (c / b^n) % b = c % b^(n+1) / b^n := by
      have hq := Int.emod_add_ediv c (b^(n+1))
      have hc2 : c / b^n = c % b^(n+1) / b^n + b * (c / b^(n+1)) := by
        conv_lhs => rw [← hq]
        rw [show c % b^(n+1) + b^(n+1) * (c / b^(n+1)) =
          c % b^(n+1) + b^n * (b * (c / b^(n+1))) from by ring]
        rw [Int.add_mul_ediv_left _ _ (ne_of_gt hbn)]
      rw [hc2, Int.add_mul_emod_self_left]
      apply Int.emod_eq_of_lt
      · exact Int.ediv_nonneg (Int.emod_nonneg c (ne_of_gt hbn1)) hbn.le
      · rw [Int.ediv_lt_iff_lt_mul hbn]
        rw [show b * b^n = b^(n+1) from by ring]
        exact Int.emod_lt_of_pos c hbn1
    rw [e1, e2]
    exact Int.emod_add_ediv (c % b^(n+1)) (b^n)

set_option maxHeartbeats 800000 in
/-- C5 amended: when the base is a power of two B = 2^k (k >= 1) and the
coefficients are nonnegative binary64-exact integers (below 2^53), the
float path of base_decompose is exact: it returns L digit polynomials,
every digit coefficient lies in [0, B), and for every coefficient index j
the digits reconstruct the coefficient modulo B^L,
sum_i B^i * digit_i_j = c_j mod B^L (so p = sum B^i decomposed[i]
whenever the coefficients are below B^L, in particular for L =
floor(log_B q) + 1 and coefficients in [0, q)). -/
theorem base_decompose_correct (p : Polynomial) (k L : ℕ) (hk : 1 ≤ k)
    (hc : ∀ j < p.coeffs.length, 0 ≤ p.coeffs.getD j 0 ∧ p.coeffs.getD j 0 < 2 ^ 53) :
    (p.base_decompose ((2:ℤ)^k) L).length = L ∧
    (∀ i < L, ∀ j, 0 ≤ ((p.base_decompose ((2:ℤ)^k) L).getD i ⟨0, []⟩).coeffs.getD j 0 ∧
        ((p.base_decompose ((2:ℤ)^k) L).getD i ⟨0, []⟩).coeffs.getD j 0 < 2^k) ∧
    (∀ j, ∑ i ∈ Finset.range L,
        ((2:ℤ)^k)^i * ((p.base_decompose ((2:ℤ)^k) L).getD i ⟨0, []⟩).coeffs.getD j 0 =
      p.coeffs.getD j 0 % ((2:ℤ)^k)^L) := by
  have hc' : ∀ j, 0 ≤ p.coeffs.getD j 0 ∧ p.coeffs.getD j 0 < 2^53 := by
    intro j
    by_cases hj : j < p.coeffs.length
    · exact hc j hj
    · rw [List.getD_eq_default _ _ (Nat.le_of_not_lt hj)]
      norm_num
  have hB : (0:ℤ) < 2^k := by positivity
  have hmap := base_decompose_eq_map p ((2:ℤ)^k) L
  have hlen : (p.base_decompose ((2:ℤ)^k) L).length = L := by
    rw [hmap, List.length_map, List.length_range]
  have hdig : ∀ i, i < L → ∀ j,
      ((p.base_decompose ((2:ℤ)^k) L).getD i ⟨0, []⟩).coeffs.getD j 0 =
      (p.coeffs.getD j 0 / ((2:ℤ)^k)^i) % (2:ℤ)^k := by
    intro i hi j
    rw [hmap, getD_map_range L i
        (fun i => ((baseDecomposeStep ((2:ℤ)^k))^[i] p).mod ((2:ℤ)^k))
        (⟨0, []⟩ : Polynomial) hi,
      mod_getD_all, baseDecomposeStep_iterate_getD k p hc' i j]
  refine ⟨hlen, fun i hi j => ?_, fun j => ?_⟩
  · rw [hdig i hi j]
    exact ⟨Int.emod_nonneg _ (ne_of_gt hB), Int.emod_lt_of_pos _ hB⟩
  · calc ∑ i ∈ Finset.range L,
        ((2:ℤ)^k)^i * ((p.base_decompose ((2:ℤ)^k) L).getD i ⟨0, []⟩).coeffs.getD j 0 =
        ∑ i ∈ Finset.range L,
          ((2:ℤ)^k)^i * ((p.coeffs.getD j 0 / ((2:ℤ)^k)^i) % (2:ℤ)^k) :=
        Finset.sum_congr rfl (fun i hi => by rw [hdig i (Finset.mem_range.mp hi) j])
    _ = p.coeffs.getD j 0 % ((2:ℤ)^k)^L :=
        geom_digit_sum ((2:ℤ)^k) hB (p.coeffs.getD j 0) (hc' j).1 L

/-- C5 witness instance: p = 5 + 6x of degree 2, base 2 (k = 1), three
levels; the decomposition is exact and reconstructs the coefficients
modulo 8. -/
theorem base_decompose_correct_witness :
    ((⟨2, [5, 6]⟩ : Polynomial).base_decompose ((2:ℤ)^1) 3).length = 3 ∧
    (∀ i < 3, ∀ j,
      0 ≤ (((⟨2, [5, 6]⟩ : Polynomial).base_decompose ((2:ℤ)^1) 3).getD i
          ⟨0, []⟩).coeffs.getD j 0 ∧
      (((⟨2, [5, 6]⟩ : Polynomial).base_decompose ((2:ℤ)^1) 3).getD i
          ⟨0, []⟩).coeffs.getD j 0 < 2^1) ∧
    (∀ j, ∑ i ∈ Finset.range 3,
        ((2:ℤ)^1)^i * (((⟨2, [5, 6]⟩ : Polynomial).base_decompose ((2:ℤ)^1) 3).getD i
          ⟨0, []⟩).coeffs.getD j 0 =
      (⟨2, [5, 6]⟩ : Polynomial).coeffs.getD j 0 % ((2:ℤ)^1)^3) :=
  base_decompose_correct ⟨2, [5, 6]⟩ 1 3 (by decide) (by decide)

set_option maxHeartbeats 800000 in
/-- C5 counterexample to the original claim: with base B = 49, modulus
q = 73 and the single-coefficient polynomial [49], the number of levels is
L = floor(log_49 73) + 1 = 2 and the coefficient 49 lies in [0, 73), yet
both digits returned by base_decompose are zero, so the reconstruction
sum is 0 and is not congruent to 49 mod 73: binary64 division makes
49 * float(1/49) = (2^53 - 1)/2^53 < 1, so the second working polynomial
floors to zero while the first digit is 49 mod 49 = 0. -/
theorem base_decompose_float_counterexample :
    (⟨1, [49]⟩ : Polynomial).base_decompose 49 2 = [⟨1, [0]⟩, ⟨1, [0]⟩] ∧
    (49:ℤ)^1 ≤ 73 ∧ (73:ℤ) < (49:ℤ)^2 ∧ (0:ℤ) ≤ 49 ∧ (49:ℤ) < 73 ∧
    ¬ ((73:ℤ) ∣ (∑ i ∈ Finset.range 2, (49:ℤ)^i *
        (((⟨1, [49]⟩ : Polynomial).base_decompose 49 2).getD i ⟨0, []⟩).coeffs.getD 0 0) -
      (⟨1, [49]⟩ : Polynomial).coeffs.getD 0 0) := by
  have hc49 : ((49:ℤ):ℚ) = (49:ℚ) := by norm_num
  have h49 : fl (49:ℚ) = (49:ℚ) := by
    rw [← hc49]
    exact fl_intCast 49 (by norm_num) (by norm_num)
  have hinv : fl (1 / (49:ℚ)) = (5882252574524729:ℚ) * (2:ℚ)^(-58:ℤ) := by
    have hlog : Int.log 2 ((1:ℚ)/49) = -6 := by
      have le1 : (-6 : ℤ) ≤ Int.log 2 ((1:ℚ)/49) := by
        rw [← Int.zpow_le_iff_le_log (by norm_num) (by norm_num)]
        rw [zpow_neg]
        push_cast
        norm_num
      have le2 : Int.log 2 ((1:ℚ)/49) < -5 := by
        rw [← Int.lt_zpow_iff_log_lt (by norm_num) (by norm_num)]
        rw [zpow_neg]
        push_cast
        norm_num
      omega
    unfold fl
    rw [if_neg (by norm_num), if_pos (by norm_num)]
    unfold flPos
    rw [hlog]
    rw [show ((52:ℤ) - (-6:ℤ)) = (58:ℤ) from by norm_num,
      show ((-6:ℤ) - 52) = (-58:ℤ) from by norm_num]
    have heq : (1:ℚ)/49 * (2:ℚ)^(58:ℤ) = ((5882252574524729:ℤ):ℚ) + 23/49 := by
      rw [show ((58:ℤ)) = ((58:ℕ):ℤ) from rfl, zpow_natCast]
      push_cast
      norm_num
    rw [heq, pyRound_int_add_small _ _
      (by rw [abs_of_nonneg (by norm_num : (0:ℚ) ≤ 23/49)]; norm_num)]
    norm_num
  have hy : fl ((49:ℚ) * ((5882252574524729:ℚ) * (2:ℚ)^(-58:ℤ))) =
      (9007199254740991:ℚ) * (2:ℚ)^(-53:ℤ) := by
    have hyval : (49:ℚ) * ((5882252574524729:ℚ) * (2:ℚ)^(-58:ℤ)) =
        (288230376151711721:ℚ) * (2:ℚ)^(-58:ℤ) := by
      rw [← mul_assoc]
      norm_num
    rw [hyval]
    have hval : (288230376151711721:ℚ) * (2:ℚ)^(-58:ℤ) =
        288230376151711721/288230376151711744 := by
      rw [zpow_neg, show ((58:ℤ)) = ((58:ℕ):ℤ) from rfl, zpow_natCast]
      norm_num
    have hlog : Int.log 2 ((288230376151711721:ℚ) * (2:ℚ)^(-58:ℤ)) = -1 := by
      rw [hval]
      have le1 : (-1 : ℤ) ≤ Int.log 2 ((288230376151711721:ℚ)/288230376151711744) := by
        rw [← Int.zpow_le_iff_le_log (by norm_num) (by norm_num)]
        rw [zpow_neg]
        push_cast
        norm_num
      have le2 : Int.log 2 ((288230376151711721:ℚ)/288230376151711744) < 0 := by
        rw [← Int.lt_zpow_iff_log_lt (by norm_num) (by norm_num)]
        push_cast
        norm_num
      omega
    unfold fl
    rw [if_neg (by rw [hval]; norm_num), if_pos (by rw [hval]; norm_num)]
    unfold flPos
    rw [hlog]
    rw [show ((52:ℤ) - (-1:ℤ)) = (53:ℤ) from by norm_num,
      show ((-1:ℤ) - 52) = (-53:ℤ) from by norm_num]
    have heq : (288230376151711721:ℚ) * (2:ℚ)^(-58:ℤ) * (2:ℚ)^(53:ℤ) =
        ((9007199254740991:ℤ):ℚ) + 9/32 := by
      rw [mul_assoc, ← zpow_add₀ (by norm_num : (2:ℚ) ≠ 0)]
      rw [show ((-58:ℤ) + 53) = (-5:ℤ) from by norm_num]
      rw [zpow_neg, show ((5:ℤ)) = ((5:ℕ):ℤ) from rfl, zpow_natCast]
      push_cast
      norm_num
    rw [heq, pyRound_int_add_small _ _
      (by rw [abs_of_nonneg (by norm_num : (0:ℚ) ≤ 9/32)]; norm_num)]
    norm_num
  have htr : pyTrunc ((9007199254740991:ℚ) * (2:ℚ)^(-53:ℤ)) = 0 := by
    have hv : (9007199254740991:ℚ) * (2:ℚ)^(-53:ℤ) =
        9007199254740991/9007199254740992 := by
      rw [zpow_neg, show ((53:ℤ)) = ((53:ℕ):ℤ) from rfl, zpow_natCast]
      norm_num
    unfold pyTrunc
    rw [if_pos (by rw [hv]; norm_num)]
    rw [hv]
    rw [Int.floor_eq_iff]
    constructor <;> norm_num
  have hkey : pyTrunc (fl (fl ((49:ℤ):ℚ) * fl (1 / ((49:ℤ):ℚ)))) = 0 := by
    rw [hc49, h49, hinv, hy, htr]
  have hstep : baseDecomposeStep 49 ⟨1, [49]⟩ = ⟨1, [0]⟩ := by
    show (⟨1, [pyTrunc (fl (fl ((49:ℤ):ℚ) * fl (1 / ((49:ℤ):ℚ))))]⟩ : Polynomial) = ⟨1, [0]⟩
    rw [hkey]
  have hmain : (⟨1, [49]⟩ : Polynomial).base_decompose 49 2 = [⟨1, [0]⟩, ⟨1, [0]⟩] := by
    rw [base_decompose_eq_map]
    rw [show List.range 2 = [0, 1] from rfl]
    rw [List.map_cons, List.map_cons, List.map_nil]
    rw [Function.iterate_zero_apply, Function.iterate_one, hstep]
    rfl
  refine ⟨hmain, by norm_num, by norm_num, by norm_num, by norm_num, ?_⟩
  rw [hmain]
  rw [show (∑ i ∈ Finset.range 2, (49:ℤ)^i *
      (([(⟨1, [0]⟩ : Polynomial), ⟨1, [0]⟩]).getD i ⟨0, []⟩).coeffs.getD 0 0) = 0 from by decide,
    show ((⟨1, [49]⟩ : Polynomial)).coeffs.getD 0 0 = 49 from rfl]
  omega

/-! ### C2: the negacyclic NTT round-trip.

The development runs in stages: pyLog2 and reverse_bits arithmetic; the
factored foldl structure of nttLoop; transfer of the integer loop with
reduction mod q to the ZMod q loop with no reduction; the butterfly-stage
invariant (dftStage); orthogonality of a root of order 2^n; and finally
the ftt_fwd/ftt_inv round-trip. -/

theorem pyLog2Aux_two_pow : ∀ (j fuel : ℕ), j < fuel → pyLog2Aux fuel (2^j) = j := by
  intro j
  induction j with
  | zero =>
    intro fuel hf
    match fuel, hf with
    | f + 1, _ =>
      show pyLog2Aux (f + 1) 1 = 0
      unfold pyLog2Aux
      rw [if_neg (by omega)]
  | succ n ih =>
    intro fuel hf
    match fuel, hf with
    | f + 1, hf =>
      show pyLog2Aux (f + 1) (2^(n+1)) = n + 1
      unfold pyLog2Aux
      rw [if_pos (by have := Nat.one_le_two_pow (n := n); rw [pow_succ]; omega)]
      rw [show 2^(n+1)/2 = 2^n from by rw [pow_succ]; omega]
      rw [ih f (by omega)]

theorem pyLog2_two_pow (n : ℕ) : pyLog2 (2^n) = n :=
  pyLog2Aux_two_pow n (2^n) (Nat.lt_two_pow n)

theorem reverse_bits_lt (v w : ℕ) : reverse_bits v w < 2^w := by
  induction w generalizing v with
  | zero =>
    show 0 < 2^0
    norm_num
  | succ u ih =>
    show (v % 2) * 2^u + reverse_bits (v/2) u < 2^(u+1)
    have h1 : v % 2 ≤ 1 := by omega
    have h2 := ih (v/2)
    have h3 : (v % 2) * 2^u ≤ 2^u := by
      calc (v % 2) * 2^u ≤ 1 * 2^u := Nat.mul_le_mul_right _ h1
      _ = 2^u := one_mul _
    calc (v % 2) * 2^u + reverse_bits (v/2) u < (v % 2) * 2^u + 2^u := by omega
    _ ≤ 2^u + 2^u := by omega
    _ = 2^(u+1) := by rw [pow_succ]; ring

theorem reverse_bits_two_mul (b w : ℕ) :
    reverse_bits (2*b) (w+1) = reverse_bits b w := by
  show (2*b % 2) * 2^w + reverse_bits (2*b/2) w = reverse_bits b w
  rw [show 2*b % 2 = 0 from by omega, show 2*b/2 = b from by omega, zero_mul, zero_add]

theorem reverse_bits_two_mul_add_one (b w : ℕ) :
    reverse_bits (2*b+1) (w+1) = 2^w + reverse_bits b w := by
  show ((2*b+1) % 2) * 2^w + reverse_bits ((2*b+1)/2) w = 2^w + reverse_bits b w
  rw [show (2*b+1) % 2 = 1 from by omega, show (2*b+1)/2 = b from by omega, one_mul]

theorem bit_reverse_vec_length {R : Type} [CommRing R] (l : List R) :
    (bit_reverse_vec l).length = l.length := by
  unfold bit_reverse_vec
  rw [List.length_map, List.length_range]

theorem nttButterfly_length {R : Type} [CommRing R] (red : R → R) (rou : List R)
    (tw : ℕ → ℕ → ℕ) (logm j : ℕ) (buf : List R) (i : ℕ) :
    (nttButterfly red rou tw logm j buf i).length = buf.length := by
  unfold nttButterfly
  rw [List.length_set, List.length_set]

theorem nttBlock_length {R : Type} [CommRing R] (red : R → R) (rou : List R)
    (tw : ℕ → ℕ → ℕ) (logm : ℕ) (buf : List R) (j : ℕ) :
    (nttBlock red rou tw logm buf j).length = buf.length :=
  foldl_length_invariant _ _ buf (fun buf i => nttButterfly_length red rou tw logm j buf i)

theorem nttStage_length {R : Type} [CommRing R] (red : R → R) (rou : List R)
    (tw : ℕ → ℕ → ℕ) (nc : ℕ) (buf : List R) (s : ℕ) :
    (nttStage red rou tw nc buf s).length = buf.length :=
  foldl_length_invariant _ _ buf (fun buf j => nttBlock_length red rou tw (s+1) buf j)

theorem nttLoop_eq_foldl {R : Type} [CommRing R] (red : R → R) (rou : List R)
    (tw : ℕ → ℕ → ℕ) (nc : ℕ) (input : List R) :
    nttLoop red rou tw nc input =
      (List.range (pyLog2 nc)).foldl (nttStage red rou tw nc) input := rfl

theorem nttLoop_length {R : Type} [CommRing R] (red : R → R) (rou : List R)
    (tw : ℕ → ℕ → ℕ) (nc : ℕ) (input : List R) :
    (nttLoop red rou tw nc input).length = input.length := by
  rw [nttLoop_eq_foldl]
  exact foldl_length_invariant _ _ input (fun buf s => nttStage_length red rou tw nc buf s)

theorem map_intCast_getD (q : ℕ) (l : List ℤ) (j : ℕ) :
    (l.map (fun x : ℤ => (x : ZMod q))).getD j 0 = ((l.getD j 0 : ℤ) : ZMod q) := by
  by_cases hj : j < l.length
  · rw [getD_map_lt _ _ j 0 0 hj]
  · have hj' := Nat.le_of_not_lt hj
    rw [List.getD_eq_default _ _ (by rw [List.length_map]; exact hj'),
      List.getD_eq_default _ _ hj', Int.cast_zero]

theorem bit_reverse_vec_cast (q : ℕ) (l : List ℤ) :
    (bit_reverse_vec l).map (fun x : ℤ => (x : ZMod q)) =
      bit_reverse_vec (l.map (fun x : ℤ => (x : ZMod q))) := by
  unfold bit_reverse_vec
  rw [List.map_map, List.length_map]
  apply List.map_congr_left
  intro i _
  show ((l.getD (reverse_bits i (pyLog2 l.length)) 0 : ℤ) : ZMod q) = _
  rw [map_intCast_getD]

theorem nttButterfly_cast (qz : ℤ) (qn : ℕ) (hqn : (qn : ℤ) = qz) (rou : List ℤ)
    (tw : ℕ → ℕ → ℕ) (logm j : ℕ) (buf : List ℤ) (i : ℕ) :
    (nttButterfly (· % qz) rou tw logm j buf i).map (fun x : ℤ => (x : ZMod qn)) =
      nttButterfly id (rou.map (fun x : ℤ => (x : ZMod qn))) tw logm j
        (buf.map (fun x : ℤ => (x : ZMod qn))) i := by
  unfold nttButterfly
  beta_reduce
  rw [List.map_set, List.map_set]
  rw [intCast_emod_eq qn _ qz (dvd_of_eq hqn), intCast_emod_eq qn _ qz (dvd_of_eq hqn)]
  push_cast
  rw [intCast_emod_eq qn _ qz (dvd_of_eq hqn)]
  push_cast
  rw [map_intCast_getD, map_intCast_getD, map_intCast_getD]
  rfl

theorem nttBlock_cast (qz : ℤ) (qn : ℕ) (hqn : (qn : ℤ) = qz) (rou : List ℤ)
    (tw : ℕ → ℕ → ℕ) (logm : ℕ) (buf : List ℤ) (j : ℕ) :
    (nttBlock (· % qz) rou tw logm buf j).map (fun x : ℤ => (x : ZMod qn)) =
      nttBlock id (rou.map (fun x : ℤ => (x : ZMod qn))) tw logm
        (buf.map (fun x : ℤ => (x : ZMod qn))) j :=
  (List.foldl_hom (fun l : List ℤ => l.map (fun x : ℤ => (x : ZMod qn)))
    (nttButterfly (· % qz) rou tw logm j)
    (nttButterfly id (rou.map (fun x : ℤ => (x : ZMod qn))) tw logm j)
    (List.range (1 <<< (logm - 1))) buf
    (fun buf i => (nttButterfly_cast qz qn hqn rou tw logm j buf i).symm)).symm

theorem nttStage_cast (qz : ℤ) (qn : ℕ) (hqn : (qn : ℤ) = qz) (rou : List ℤ)
    (tw : ℕ → ℕ → ℕ) (nc : ℕ) (buf : List ℤ) (s : ℕ) :
    (nttStage (· % qz) rou tw nc buf s).map (fun x : ℤ => (x : ZMod qn)) =
      nttStage id (rou.map (fun x : ℤ => (x : ZMod qn))) tw nc
        (buf.map (fun x : ℤ => (x : ZMod qn))) s :=
  (List.foldl_hom (fun l : List ℤ => l.map (fun x : ℤ => (x : ZMod qn)))
    (nttBlock (· % qz) rou tw (s+1))
    (nttBlock id (rou.map (fun x : ℤ => (x : ZMod qn))) tw (s+1))
    ((List.range ((nc + 1 <<< (s+1) - 1) / 1 <<< (s+1))).map (· * 1 <<< (s+1))) buf
    (fun buf j => (nttBlock_cast qz qn hqn rou tw (s+1) buf j).symm)).symm

theorem nttLoop_cast (qz : ℤ) (qn : ℕ) (hqn : (qn : ℤ) = qz) (rou : List ℤ)
    (tw : ℕ → ℕ → ℕ) (nc : ℕ) (input : List ℤ) :
    (nttLoop (· % qz) rou tw nc input).map (fun x : ℤ => (x : ZMod qn)) =
      nttLoop id (rou.map (fun x : ℤ => (x : ZMod qn))) tw nc
        (input.map (fun x : ℤ => (x : ZMod qn))) := by
  rw [nttLoop_eq_foldl, nttLoop_eq_foldl]
  exact (List.foldl_hom (fun l : List ℤ => l.map (fun x : ℤ => (x : ZMod qn)))
    (nttStage (· % qz) rou tw nc)
    (nttStage id (rou.map (fun x : ℤ => (x : ZMod qn))) tw nc)
    (List.range (pyLog2 nc)) input
    (fun buf s => (nttStage_cast qz qn hqn rou tw nc buf s).symm)).symm

theorem nttButterfly_id_eq {R : Type} [CommRing R] (rou : List R) (tw : ℕ → ℕ → ℕ)
    (logm j : ℕ) (buf : List R) (i : ℕ) :
    nttButterfly id rou tw logm j buf i =
      (buf.set (j+i) (buf.getD (j+i) 0 +
          rou.getD (tw logm i) 0 * buf.getD (j+i+1 <<< (logm-1)) 0)).set
        (j+i+1 <<< (logm-1)) (buf.getD (j+i) 0 -
          rou.getD (tw logm i) 0 * buf.getD (j+i+1 <<< (logm-1)) 0) := rfl

set_option maxHeartbeats 1000000 in
theorem nttBlock_partial_getD {R : Type} [CommRing R] (rou : List R) (tw : ℕ → ℕ → ℕ)
    (logm j half : ℕ) (hhalf : 1 <<< (logm - 1) = half) (hpos : 0 < half)
    (buf : List R) (hlen : j + 2 * half ≤ buf.length) :
    ∀ t, t ≤ half → ∀ idx,
      ((List.range t).foldl (nttButterfly id rou tw logm j) buf).getD idx 0 =
        if j ≤ idx ∧ idx < j + t then
          buf.getD idx 0 + rou.getD (tw logm (idx - j)) 0 * buf.getD (idx + half) 0
        else if j + half ≤ idx ∧ idx < j + half + t then
          buf.getD (idx - half) 0 - rou.getD (tw logm (idx - half - j)) 0 * buf.getD idx 0
        else buf.getD idx 0 := by
  intro t
  induction t with
  | zero =>
    intro _ idx
    rw [List.range_zero, List.foldl_nil,
      if_neg (show ¬(j ≤ idx ∧ idx < j + 0) from by omega),
      if_neg (show ¬(j + half ≤ idx ∧ idx < j + half + 0) from by omega)]
  | succ t ih =>
    intro ht idx
    rw [List.range_succ, List.foldl_append, List.foldl_cons, List.foldl_nil]
    have ht' : t ≤ half := by omega
    have hPlen : ((List.range t).foldl (nttButterfly id rou tw logm j) buf).length =
        buf.length :=
      foldl_length_invariant _ _ buf (fun b i => nttButterfly_length id rou tw logm j b i)
    have hre : ((List.range t).foldl (nttButterfly id rou tw logm j) buf).getD (j + t) 0 =
        buf.getD (j + t) 0 := by
      rw [ih ht' (j + t), if_neg (show ¬(j ≤ j + t ∧ j + t < j + t) from by omega),
        if_neg (show ¬(j + half ≤ j + t ∧ j + t < j + half + t) from by omega)]
    have hro : ((List.range t).foldl (nttButterfly id rou tw logm j) buf).getD
        (j + t + half) 0 = buf.getD (j + t + half) 0 := by
      rw [ih ht' (j + t + half),
        if_neg (show ¬(j ≤ j + t + half ∧ j + t + half < j + t) from by omega),
        if_neg (show ¬(j + half ≤ j + t + half ∧ j + t + half < j + half + t) from by omega)]
    rw [nttButterfly_id_eq, hhalf, hre, hro]
    by_cases h1 : idx = j + t + half
    · rw [h1, getD_set_self _ _ _ _ (by rw [List.length_set, hPlen]; omega)]
      rw [if_neg (show ¬(j ≤ j + t + half ∧ j + t + half < j + (t+1)) from by omega),
        if_pos (show j + half ≤ j + t + half ∧ j + t + half < j + half + (t+1) from by omega)]
      rw [show j + t + half - half = j + t from by omega,
        show j + t - j = t from by omega]
    · rw [getD_set_ne _ _ _ _ _ (by omega)]
      by_cases h2 : idx = j + t
      · rw [h2, getD_set_self _ _ _ _ (by rw [hPlen]; omega)]
        rw [if_pos (show j ≤ j + t ∧ j + t < j + (t+1) from by omega)]
        rw [show j + t - j = t from by omega]
      · rw [getD_set_ne _ _ _ _ _ (by omega)]
        rw [ih ht' idx]
        by_cases h3 : j ≤ idx ∧ idx < j + t
        · rw [if_pos h3, if_pos (show j ≤ idx ∧ idx < j + (t+1) from by omega)]
        · rw [if_neg h3]
          by_cases h4 : j + half ≤ idx ∧ idx < j + half + t
          · rw [if_pos h4,
              if_neg (show ¬(j ≤ idx ∧ idx < j + (t+1)) from by omega),
              if_pos (show j + half ≤ idx ∧ idx < j + half + (t+1) from by omega)]
          · rw [if_neg h4,
              if_neg (show ¬(j ≤ idx ∧ idx < j + (t+1)) from by omega),
              if_neg (show ¬(j + half ≤ idx ∧ idx < j + half + (t+1)) from by omega)]

theorem nttBlock_id_getD {R : Type} [CommRing R] (rou : List R) (tw : ℕ → ℕ → ℕ)
    (s j : ℕ) (buf : List R) (hlen : j + 2 * 2^s ≤ buf.length) (idx : ℕ) :
    (nttBlock id rou tw (s+1) buf j).getD idx 0 =
      if j ≤ idx ∧ idx < j + 2^s then
        buf.getD idx 0 + rou.getD (tw (s+1) (idx - j)) 0 * buf.getD (idx + 2^s) 0
      else if j + 2^s ≤ idx ∧ idx < j + 2^s + 2^s then
        buf.getD (idx - 2^s) 0 - rou.getD (tw (s+1) (idx - 2^s - j)) 0 * buf.getD idx 0
      else buf.getD idx 0 := by
  have hsh : (1 : ℕ) <<< ((s+1) - 1) = 2^s := by
    rw [show (s+1) - 1 = s from rfl, Nat.one_shiftLeft]
  have hb : nttBlock id rou tw (s+1) buf j =
      (List.range (2^s)).foldl (nttButterfly id rou tw (s+1) j) buf := by
    unfold nttBlock
    rw [hsh]
  rw [hb]
  exact nttBlock_partial_getD rou tw (s+1) j (2^s) hsh (by positivity) buf hlen (2^s)
    le_rfl idx

set_option maxHeartbeats 1000000 in
theorem nttStage_blocks_getD {R : Type} [CommRing R] (rou : List R) (tw : ℕ → ℕ → ℕ)
    (s : ℕ) (buf : List R) (nb : ℕ) (hlen : nb * 2^(s+1) ≤ buf.length) :
    ∀ B, B ≤ nb → ∀ idx,
      (((List.range B).map (· * 2^(s+1))).foldl (nttBlock id rou tw (s+1)) buf).getD idx 0 =
      if idx < B * 2^(s+1) then
        (if idx % 2^(s+1) < 2^s then
          buf.getD idx 0 + rou.getD (tw (s+1) (idx % 2^(s+1))) 0 * buf.getD (idx + 2^s) 0
        else
          buf.getD (idx - 2^s) 0 -
            rou.getD (tw (s+1) (idx % 2^(s+1) - 2^s)) 0 * buf.getD idx 0)
      else buf.getD idx 0 := by
  have h2h : (2:ℕ)^(s+1) = 2^s + 2^s := by rw [pow_succ]; ring
  have hspos : (0:ℕ) < 2^s := by positivity
  intro B
  induction B with
  | zero =>
    intro _ idx
    rw [List.range_zero, List.map_nil, List.foldl_nil,
      if_neg (show ¬(idx < 0 * 2^(s+1)) from by omega)]
  | succ B ih =>
    intro hB idx
    have hB' : B ≤ nb := by omega
    have hsucc : (B+1) * 2^(s+1) = B * 2^(s+1) + 2^(s+1) := by ring
    have hmulmono : (B+1) * 2^(s+1) ≤ nb * 2^(s+1) :=
      Nat.mul_le_mul_right _ hB
    rw [List.range_succ, List.map_append, List.map_cons, List.map_nil, List.foldl_append,
      List.foldl_cons, List.foldl_nil]
    have hQlen : (((List.range B).map (· * 2^(s+1))).foldl (nttBlock id rou tw (s+1))
        buf).length = buf.length :=
      foldl_length_invariant _ _ buf (fun b j => nttBlock_length id rou tw (s+1) b j)
    have hblen : B * 2^(s+1) + 2 * 2^s ≤
        (((List.range B).map (· * 2^(s+1))).foldl (nttBlock id rou tw (s+1)) buf).length := by
      rw [hQlen]
      omega
    rw [nttBlock_id_getD rou tw s (B * 2^(s+1)) _ hblen idx]
    by_cases hc1 : B * 2^(s+1) ≤ idx ∧ idx < B * 2^(s+1) + 2^s
    · -- even half of the new block
      have hQ1 : (((List.range B).map (· * 2^(s+1))).foldl (nttBlock id rou tw (s+1))
          buf).getD idx 0 = buf.getD idx 0 := by
        rw [ih hB' idx, if_neg (show ¬(idx < B * 2^(s+1)) from by omega)]
      have hQ2 : (((List.range B).map (· * 2^(s+1))).foldl (nttBlock id rou tw (s+1))
          buf).getD (idx + 2^s) 0 = buf.getD (idx + 2^s) 0 := by
        rw [ih hB' (idx + 2^s), if_neg (show ¬(idx + 2^s < B * 2^(s+1)) from by omega)]
      rw [if_pos hc1, hQ1, hQ2]
      have hmod : idx % 2^(s+1) = idx - B * 2^(s+1) := by
        conv_lhs => rw [show idx = 2^(s+1) * B + (idx - B * 2^(s+1)) from by
            rw [mul_comm]; omega]
        rw [Nat.mul_add_mod, Nat.mod_eq_of_lt (by omega)]
      rw [if_pos (show idx < (B+1) * 2^(s+1) from by omega),
        if_pos (show idx % 2^(s+1) < 2^s from by omega), hmod]
    · by_cases hc2 : B * 2^(s+1) + 2^s ≤ idx ∧ idx < B * 2^(s+1) + 2^s + 2^s
      · -- odd half of the new block
        have hQ1 : (((List.range B).map (· * 2^(s+1))).foldl (nttBlock id rou tw (s+1))
            buf).getD (idx - 2^s) 0 = buf.getD (idx - 2^s) 0 := by
          rw [ih hB' (idx - 2^s), if_neg (show ¬(idx - 2^s < B * 2^(s+1)) from by omega)]
        have hQ2 : (((List.range B).map (· * 2^(s+1))).foldl (nttBlock id rou tw (s+1))
            buf).getD idx 0 = buf.getD idx 0 := by
          rw [ih hB' idx, if_neg (show ¬(idx < B * 2^(s+1)) from by omega)]
        rw [if_neg hc1, if_pos hc2, hQ1, hQ2]
        have hmod : idx % 2^(s+1) = idx - B * 2^(s+1) := by
          conv_lhs => rw [show idx = 2^(s+1) * B + (idx - B * 2^(s+1)) from by
            rw [mul_comm]; omega]
          rw [Nat.mul_add_mod, Nat.mod_eq_of_lt (by omega)]
        rw [if_pos (show idx < (B+1) * 2^(s+1) from by omega),
          if_neg (show ¬(idx % 2^(s+1) < 2^s) from by omega), hmod]
        rw [show idx - B * 2^(s+1) - 2^s = idx - 2^s - B * 2^(s+1) from by omega]
      · -- outside the new block
        rw [if_neg hc1, if_neg hc2, ih hB' idx]
        by_cases hc3 : idx < B * 2^(s+1)
        · rw [if_pos hc3, if_pos (show idx < (B+1) * 2^(s+1) from by omega)]
        · rw [if_neg hc3, if_neg (show ¬(idx < (B+1) * 2^(s+1)) from by omega)]

theorem sum_even_odd {M : Type} [AddCommMonoid M] (f : ℕ → M) (m : ℕ) :
    ∑ k ∈ Finset.range (2*m), f k =
      (∑ k ∈ Finset.range m, f (2*k)) + ∑ k ∈ Finset.range m, f (2*k+1) := by
  induction m with
  | zero => simp
  | succ t ih =>
    rw [show 2*(t+1) = (2*t + 1) + 1 from by ring, Finset.sum_range_succ, Finset.sum_range_succ,
      ih, Finset.sum_range_succ (fun k => f (2*k)) t, Finset.sum_range_succ (fun k => f (2*k+1)) t]
    abel

theorem sum_range_two_pow_succ {M : Type} [AddCommMonoid M] (f : ℕ → M) (s : ℕ) :
    ∑ k ∈ Finset.range (2^(s+1)), f k =
      (∑ k ∈ Finset.range (2^s), f (2*k)) + ∑ k ∈ Finset.range (2^s), f (2*k+1) := by
  rw [show (2:ℕ)^(s+1) = 2 * 2^s from by rw [pow_succ]; ring]
  exact sum_even_odd f (2^s)

theorem dftStage_length {R : Type} [CommRing R] (ζ : R) (n s : ℕ) (c : List R) :
    (dftStage ζ n s c).length = 2^n := by
  unfold dftStage
  rw [List.length_map, List.length_range]

theorem dftStage_getD {R : Type} [CommRing R] (ζ : R) (n s : ℕ) (c : List R) (idx : ℕ)
    (h : idx < 2^n) :
    (dftStage ζ n s c).getD idx 0 =
      ∑ k ∈ Finset.range (2^s), c.getD (k * 2^(n-s) + reverse_bits (idx / 2^s) (n-s)) 0 *
        ζ^(idx % 2^s * (k * 2^(n-s))) := by
  unfold dftStage
  rw [getD_map_range _ idx _ 0 h]

set_option maxHeartbeats 1000000 in
theorem dft_butterfly_even {R : Type} [CommRing R] (ζ : R) (n s : ℕ) (hs : s < n)
    (c : List R) (idx : ℕ) (hidx : idx < 2^n) (hr : idx % 2^(s+1) < 2^s) :
    (dftStage ζ n s c).getD idx 0 +
      ζ^((idx % 2^(s+1)) * 2^(n-s-1)) * (dftStage ζ n s c).getD (idx + 2^s) 0 =
    (dftStage ζ n (s+1) c).getD idx 0 := by
  have h2h : (2:ℕ)^(s+1) = 2^s + 2^s := by rw [pow_succ]; ring
  have hspos : (0:ℕ) < 2^s := by positivity
  have hpow : (2:ℕ)^(s+1) * 2^(n-s-1) = 2^n := by
    rw [← pow_add]
    congr 1
    omega
  have hdm := Nat.div_add_mod idx (2^(s+1))
  have hblt : idx / 2^(s+1) < 2^(n-s-1) :=
    Nat.div_lt_of_lt_mul (by rw [hpow]; exact hidx)
  have hlt2 : idx + 2^s < 2^n := by
    have h3 : 2^(s+1) * (idx / 2^(s+1) + 1) ≤ 2^(s+1) * 2^(n-s-1) :=
      Nat.mul_le_mul_left _ hblt
    have h4 : 2^(s+1) * (idx / 2^(s+1) + 1) = 2^(s+1) * (idx / 2^(s+1)) + 2^(s+1) := by ring
    rw [hpow] at h3
    omega
  have hms : idx % 2^s = idx % 2^(s+1) := by
    conv_lhs => rw [← Nat.mod_mod_of_dvd idx (pow_dvd_pow 2 (Nat.le_succ s))]
    rw [Nat.mod_eq_of_lt hr]
  have hdiv : idx / 2^s = 2 * (idx / 2^(s+1)) := by
    conv_lhs => rw [← hdm]
    rw [show (2:ℕ)^(s+1) * (idx / 2^(s+1)) + idx % 2^(s+1) =
      2^s * (2 * (idx / 2^(s+1))) + idx % 2^(s+1) from by rw [pow_succ]; ring]
    rw [Nat.mul_add_div hspos, Nat.div_eq_of_lt hr, add_zero]
  have hdiv2 : (idx + 2^s) / 2^s = 2 * (idx / 2^(s+1)) + 1 := by
    rw [Nat.add_div_right _ hspos, hdiv]
  have hmod2 : (idx + 2^s) % 2^s = idx % 2^(s+1) := by
    rw [Nat.add_mod_right, hms]
  have hw : n - s = (n - s - 1) + 1 := by omega
  rw [dftStage_getD ζ n s c idx hidx, dftStage_getD ζ n s c (idx + 2^s) hlt2,
    dftStage_getD ζ n (s+1) c idx hidx]
  rw [hms, hdiv, hdiv2, hmod2]
  rw [show n - (s+1) = n - s - 1 from by omega]
  generalize hwg : n - s - 1 = w
  rw [show n - s = w + 1 from by omega]
  rw [reverse_bits_two_mul (idx / 2^(s+1)) w,
    reverse_bits_two_mul_add_one (idx / 2^(s+1)) w]
  rw [sum_range_two_pow_succ (fun k =>
    c.getD (k * 2^w + reverse_bits (idx / 2^(s+1)) w) 0 *
      ζ^(idx % 2^(s+1) * (k * 2^w))) s]
  rw [Finset.mul_sum]
  congr 1
  · apply Finset.sum_congr rfl
    intro k _
    rw [show k * 2^(w+1) = 2*k*2^w from by rw [pow_succ]; ring]
  · apply Finset.sum_congr rfl
    intro k _
    rw [show k * 2^(w+1) + (2^w + reverse_bits (idx / 2^(s+1)) w) =
      (2*k+1) * 2^w + reverse_bits (idx / 2^(s+1)) w from by rw [pow_succ]; ring]
    rw [show idx % 2^(s+1) * ((2*k+1) * 2^w) =
      idx % 2^(s+1) * 2^w + idx % 2^(s+1) * (k * 2^(w+1)) from by rw [pow_succ]; ring]
    rw [pow_add]
    ring

set_option maxHeartbeats 1000000 in
theorem dft_butterfly_odd {R : Type} [CommRing R] (ζ : R) (n s : ℕ) (hs : s < n)
    (hζ : ζ^(2^(n-1)) = -1) (c : List R) (idx : ℕ) (hidx : idx < 2^n)
    (hr : 2^s ≤ idx % 2^(s+1)) :
    (dftStage ζ n s c).getD (idx - 2^s) 0 -
      ζ^((idx % 2^(s+1) - 2^s) * 2^(n-s-1)) * (dftStage ζ n s c).getD idx 0 =
    (dftStage ζ n (s+1) c).getD idx 0 := by
  have h2h : (2:ℕ)^(s+1) = 2^s + 2^s := by rw [pow_succ]; ring
  have hspos : (0:ℕ) < 2^s := by positivity
  have hdm := Nat.div_add_mod idx (2^(s+1))
  have hrlt : idx % 2^(s+1) < 2^(s+1) := Nat.mod_lt _ (by positivity)
  have hmodle := Nat.mod_le idx (2^(s+1))
  have hζ2 : ζ^(2^n) = 1 := by
    rw [show (2:ℕ)^n = 2^(n-1) * 2 from by rw [← pow_succ]; congr 1; omega,
      pow_mul, hζ, neg_one_sq]
  have hidx_eq : idx - 2^s = 2^s * (2 * (idx / 2^(s+1))) + (idx % 2^(s+1) - 2^s) := by
    have h5 : (2:ℕ)^(s+1) * (idx / 2^(s+1)) = 2^s * (2 * (idx / 2^(s+1))) := by
      rw [pow_succ]; ring
    omega
  have hsm : idx % 2^(s+1) - 2^s < 2^s := by omega
  have hmod_sub : (idx - 2^s) % 2^s = idx % 2^(s+1) - 2^s := by
    rw [hidx_eq, Nat.mul_add_mod, Nat.mod_eq_of_lt hsm]
  have hdiv_sub : (idx - 2^s) / 2^s = 2 * (idx / 2^(s+1)) := by
    rw [hidx_eq, Nat.mul_add_div hspos, Nat.div_eq_of_lt hsm, add_zero]
  have hmod_idx : idx % 2^s = idx % 2^(s+1) - 2^s := by
    conv_lhs => rw [← Nat.mod_mod_of_dvd idx (pow_dvd_pow 2 (Nat.le_succ s)),
      show idx % 2^(s+1) = 2^s * 1 + (idx % 2^(s+1) - 2^s) from by omega]
    rw [Nat.mul_add_mod, Nat.mod_eq_of_lt hsm]
  have hdiv_idx : idx / 2^s = 2 * (idx / 2^(s+1)) + 1 := by
    have hidx_eq2 : idx = 2^s * (2 * (idx / 2^(s+1)) + 1) + (idx % 2^(s+1) - 2^s) := by
      have h5 : (2:ℕ)^(s+1) * (idx / 2^(s+1)) = 2^s * (2 * (idx / 2^(s+1))) := by
        rw [pow_succ]; ring
      have h6 : (2:ℕ)^s * (2 * (idx / 2^(s+1)) + 1) = 2^s * (2 * (idx / 2^(s+1))) + 2^s := by
        ring
      omega
    conv_lhs => rw [hidx_eq2]
    rw [Nat.mul_add_div hspos, Nat.div_eq_of_lt hsm, add_zero]
  rw [dftStage_getD ζ n s c (idx - 2^s) (by omega), dftStage_getD ζ n s c idx hidx,
    dftStage_getD ζ n (s+1) c idx hidx]
  rw [hmod_sub, hdiv_sub, hmod_idx, hdiv_idx]
  rw [show n - (s+1) = n - s - 1 from by omega]
  generalize hwg : n - s - 1 = w
  rw [show n - s = w + 1 from by omega]
  rw [reverse_bits_two_mul (idx / 2^(s+1)) w,
    reverse_bits_two_mul_add_one (idx / 2^(s+1)) w]
  rw [sum_range_two_pow_succ (fun k =>
    c.getD (k * 2^w + reverse_bits (idx / 2^(s+1)) w) 0 *
      ζ^(idx % 2^(s+1) * (k * 2^w))) s]
  obtain ⟨r2, hr2⟩ : ∃ r2, idx % 2^(s+1) = 2^s + r2 := ⟨idx % 2^(s+1) - 2^s, by omega⟩
  have hr2lt : r2 < 2^s := by omega
  rw [show idx % 2^(s+1) - 2^s = r2 from by omega, hr2]
  have hnn : (2:ℕ)^n = 2^s * (2 * 2^w) := by
    rw [show n = s + (1 + w) from by omega, pow_add, pow_add, pow_one]
  have heven : ∀ k ∈ Finset.range (2^s),
      c.getD (2*k*2^w + reverse_bits (idx / 2^(s+1)) w) 0 * ζ^((2^s+r2) * (2*k*2^w)) =
      c.getD (k*2^(w+1) + reverse_bits (idx / 2^(s+1)) w) 0 * ζ^(r2 * (k*2^(w+1))) := by
    intro k _
    rw [show 2*k*2^w = k*2^(w+1) from by rw [pow_succ]; ring]
    rw [show (2^s+r2) * (k*2^(w+1)) = 2^n * k + r2 * (k*2^(w+1)) from by
      rw [hnn, pow_succ]; ring]
    rw [pow_add ζ (2^n * k) (r2 * (k*2^(w+1))), pow_mul ζ (2^n) k, hζ2, one_pow, one_mul]
  have hodd : ∀ k ∈ Finset.range (2^s),
      c.getD ((2*k+1)*2^w + reverse_bits (idx / 2^(s+1)) w) 0 *
          ζ^((2^s+r2) * ((2*k+1)*2^w)) =
      -(ζ^(r2 * 2^w) * (c.getD (k*2^(w+1) + (2^w + reverse_bits (idx / 2^(s+1)) w)) 0 *
        ζ^(r2 * (k*2^(w+1))))) := by
    intro k _
    rw [show (2*k+1)*2^w + reverse_bits (idx / 2^(s+1)) w =
      k*2^(w+1) + (2^w + reverse_bits (idx / 2^(s+1)) w) from by rw [pow_succ]; ring]
    rw [show (2^s+r2) * ((2*k+1)*2^w) =
      2^(n-1) + (2^n * k + (r2 * 2^w + r2 * (k*2^(w+1)))) from by
      rw [hnn, pow_succ, show n - 1 = s + w from by omega, pow_add]; ring]
    rw [pow_add ζ (2^(n-1)) (2^n * k + (r2 * 2^w + r2 * (k*2^(w+1)))), hζ,
      pow_add ζ (2^n * k) (r2 * 2^w + r2 * (k*2^(w+1))), pow_mul ζ (2^n) k, hζ2,
      one_pow, one_mul, pow_add ζ (r2 * 2^w) (r2 * (k*2^(w+1)))]
    ring
  rw [Finset.sum_congr rfl heven, Finset.sum_congr rfl hodd]
  rw [Finset.sum_neg_distrib, Finset.mul_sum]
  ring

set_option maxHeartbeats 1000000 in
theorem nttStage_dft {R : Type} [CommRing R] (ζ : R) (n s : ℕ) (hs : s < n)
    (hζ : ζ^(2^(n-1)) = -1) (c : List R) (rou : List R) (tw : ℕ → ℕ → ℕ)
    (htw : ∀ i, i < 2^s → rou.getD (tw (s+1) i) 0 = ζ^(i * 2^(n-s-1))) :
    nttStage id rou tw (2^n) (dftStage ζ n s c) s = dftStage ζ n (s+1) c := by
  have h2h : (2:ℕ)^(s+1) = 2^s + 2^s := by rw [pow_succ]; ring
  have hspos : (0:ℕ) < 2^s := by positivity
  have hpow : (2:ℕ)^(s+1) * 2^(n-s-1) = 2^n := by
    rw [← pow_add]
    congr 1
    omega
  have hnb : (2^n + 2^(s+1) - 1) / 2^(s+1) = 2^(n-s-1) := by
    have h1 : (1:ℕ) ≤ 2^(s+1) := Nat.one_le_two_pow
    rw [show 2^n + 2^(s+1) - 1 = 2^(s+1) * 2^(n-s-1) + (2^(s+1) - 1) from by
      rw [hpow]; omega]
    rw [Nat.mul_add_div (by positivity), Nat.div_eq_of_lt (by omega), add_zero]
  have hstage : nttStage id rou tw (2^n) (dftStage ζ n s c) s =
      ((List.range (2^(n-s-1))).map (· * 2^(s+1))).foldl (nttBlock id rou tw (s+1))
        (dftStage ζ n s c) := by
    show List.foldl (nttBlock id rou tw (s+1)) (dftStage ζ n s c)
      (List.map (fun x => x * (1 <<< (s+1)))
        (List.range ((2^n + (1 <<< (s+1)) - 1) / (1 <<< (s+1))))) = _
    rw [Nat.one_shiftLeft, hnb]
  rw [hstage]
  apply List.ext_getElem
  · rw [foldl_length_invariant _ _ _ (fun b j => nttBlock_length id rou tw (s+1) b j),
      dftStage_length, dftStage_length]
  intro idx h1 h2
  have hidx : idx < 2^n := by
    rw [foldl_length_invariant _ _ _ (fun b j => nttBlock_length id rou tw (s+1) b j),
      dftStage_length] at h1
    exact h1
  have hrlt : idx % 2^(s+1) < 2^(s+1) := Nat.mod_lt _ (by positivity)
  rw [← List.getD_eq_getElem _ 0 h1, ← List.getD_eq_getElem _ 0 h2]
  rw [nttStage_blocks_getD rou tw s (dftStage ζ n s c) (2^(n-s-1))
      (by rw [dftStage_length]
          exact le_of_eq (by rw [← hpow]; ring))
      (2^(n-s-1)) le_rfl idx]
  rw [if_pos (show idx < 2^(n-s-1) * 2^(s+1) from by
    rw [show (2:ℕ)^(n-s-1) * 2^(s+1) = 2^n from by rw [← hpow]; ring]
    exact hidx)]
  by_cases hc : idx % 2^(s+1) < 2^s
  · rw [if_pos hc, htw (idx % 2^(s+1)) hc]
    exact dft_butterfly_even ζ n s hs c idx hidx hc
  · rw [if_neg hc, htw (idx % 2^(s+1) - 2^s) (by omega)]
    exact dft_butterfly_odd ζ n s hs hζ c idx hidx (by omega)

theorem nttLoop_dft {R : Type} [CommRing R] (ζ : R) (n : ℕ) (c rou : List R)
    (tw : ℕ → ℕ → ℕ) (hc : c.length = 2^n)
    (htw : ∀ logm i, 1 ≤ logm → logm ≤ n → i < 2^(logm-1) →
      rou.getD (tw logm i) 0 = ζ^(i * 2^(n-logm)))
    (hζ : ζ^(2^(n-1)) = -1) :
    nttLoop id rou tw (2^n) (bit_reverse_vec c) = dftStage ζ n n c := by
  have h0 : bit_reverse_vec c = dftStage ζ n 0 c := by
    unfold bit_reverse_vec dftStage
    rw [hc, pyLog2_two_pow]
    apply List.map_congr_left
    intro idx _
    rw [pow_zero]
    simp
  rw [nttLoop_eq_foldl, pyLog2_two_pow, h0]
  have hmain : ∀ t, t ≤ n →
      (List.range t).foldl (nttStage id rou tw (2^n)) (dftStage ζ n 0 c) =
      dftStage ζ n t c := by
    intro t
    induction t with
    | zero =>
      intro _
      rw [List.range_zero, List.foldl_nil]
    | succ t ih =>
      intro ht
      rw [List.range_succ, List.foldl_append, List.foldl_cons, List.foldl_nil,
        ih (by omega)]
      exact nttStage_dft ζ n t (by omega) hζ c rou tw
        (fun i hi => htw (t+1) i (by omega) (by omega) hi)
  exact hmain n le_rfl

theorem dftStage_final {R : Type} [CommRing R] (ζ : R) (n : ℕ) (c : List R) (idx : ℕ)
    (hidx : idx < 2^n) :
    (dftStage ζ n n c).getD idx 0 =
      ∑ k ∈ Finset.range (2^n), c.getD k 0 * ζ^(idx * k) := by
  rw [dftStage_getD ζ n n c idx hidx]
  apply Finset.sum_congr rfl
  intro k _
  rw [Nat.sub_self, pow_zero, mul_one, Nat.mod_eq_of_lt hidx]
  rfl

theorem pow_two_order {F : Type} [Field F] (ζ : F) (n : ℕ) (hn : 1 ≤ n)
    (hζ : ζ^(2^(n-1)) = -1) (hne : (-1 : F) ≠ 1) : orderOf ζ = 2^n := by
  have hz1 : ζ^(2^n) = 1 := by
    rw [show (2:ℕ)^n = 2^(n-1) * 2 from by rw [← pow_succ]; congr 1; omega, pow_mul, hζ,
      neg_one_sq]
  have hdvd : orderOf ζ ∣ 2^n := orderOf_dvd_of_pow_eq_one hz1
  obtain ⟨j, hj, hjeq⟩ := (Nat.dvd_prime_pow Nat.prime_two).mp hdvd
  rcases eq_or_lt_of_le hj with h | h
  · rw [hjeq, h]
  · exfalso
    have hdvd2 : orderOf ζ ∣ 2^(n-1) := by
      rw [hjeq]
      exact pow_dvd_pow 2 (by omega)
    have h1 := orderOf_dvd_iff_pow_eq_one.mp hdvd2
    rw [hζ] at h1
    exact hne h1

theorem pow_two_root_ne_zero {F : Type} [Field F] (ζ : F) (n : ℕ)
    (hζ : ζ^(2^(n-1)) = -1) : ζ ≠ 0 := by
  intro h
  rw [h, zero_pow (by positivity)] at hζ
  exact absurd hζ.symm (neg_ne_zero.mpr one_ne_zero)

set_option maxHeartbeats 1000000 in
theorem dft_orthogonality {F : Type} [Field F] (ζ : F) (n : ℕ) (hn : 1 ≤ n)
    (hζ : ζ^(2^(n-1)) = -1)
    (hne : (-1 : F) ≠ 1) (l j : ℕ) (hl : l < 2^n) (hj : j < 2^n) :
    ∑ k ∈ Finset.range (2^n), ζ^(k*l) * (ζ⁻¹)^(k*j) =
      if l = j then ((2^n : ℕ) : F) else 0 := by
  have horder := pow_two_order ζ n hn hζ hne
  have hz1 : ζ^(2^n) = 1 := by
    rw [← horder]
    exact pow_orderOf_eq_one ζ
  have hz0 : ζ ≠ 0 := pow_two_root_ne_zero ζ n hζ
  have hterm : ∀ k, ζ^(k*l) * (ζ⁻¹)^(k*j) = (ζ^l * (ζ⁻¹)^j)^k := by
    intro k
    rw [mul_pow, ← pow_mul, ← pow_mul, mul_comm l k, mul_comm j k]
  rw [Finset.sum_congr rfl (fun k _ => hterm k)]
  by_cases he : l = j
  · subst he
    rw [show ζ^l * (ζ⁻¹)^l = 1 from by rw [inv_pow, mul_inv_cancel₀ (pow_ne_zero l hz0)]]
    rw [if_pos rfl]
    simp
  · rw [if_neg he]
    have hu1 : ζ^l * (ζ⁻¹)^j ≠ 1 := by
      intro h
      have h2 : ζ^l = ζ^j := by
        rw [inv_pow] at h
        exact (mul_inv_eq_one₀ (pow_ne_zero j hz0)).mp h
      rcases Nat.lt_or_ge l j with hlj | hlj
      · have h4 : ζ^(j-l) * ζ^l = ζ^l := by
          rw [← pow_add, show j - l + l = j from by omega, ← h2]
        have h5 : ζ^(j-l) = 1 := by
          have h41 : ζ^(j-l) * ζ^l = 1 * ζ^l := by rw [h4, one_mul]
          exact mul_right_cancel₀ (pow_ne_zero l hz0) h41
        have h6 := orderOf_dvd_of_pow_eq_one h5
        rw [horder] at h6
        have h7 := Nat.le_of_dvd (by omega) h6
        omega
      · have hjl : j < l := by omega
        have h4 : ζ^(l-j) * ζ^j = ζ^j := by
          rw [← pow_add, show l - j + j = l from by omega, h2]
        have h5 : ζ^(l-j) = 1 := by
          have h41 : ζ^(l-j) * ζ^j = 1 * ζ^j := by rw [h4, one_mul]
          exact mul_right_cancel₀ (pow_ne_zero j hz0) h41
        have h6 := orderOf_dvd_of_pow_eq_one h5
        rw [horder] at h6
        have h7 := Nat.le_of_dvd (by omega) h6
        omega
    have huN : (ζ^l * (ζ⁻¹)^j)^(2^n) = 1 := by
      rw [mul_pow, ← pow_mul, ← pow_mul, mul_comm l (2^n), mul_comm j (2^n),
        pow_mul, pow_mul, hz1, one_pow, inv_pow, hz1, inv_one, one_pow, one_mul]
    rw [geom_sum_eq hu1, huN, sub_self, zero_div]

set_option maxHeartbeats 1000000 in
theorem dft_inversion {F : Type} [Field F] (ζ : F) (n : ℕ) (hn : 1 ≤ n)
    (hζ : ζ^(2^(n-1)) = -1)
    (hne : (-1 : F) ≠ 1) (a : List F) (j : ℕ) (hj : j < 2^n) :
    ∑ k ∈ Finset.range (2^n),
        (∑ l ∈ Finset.range (2^n), a.getD l 0 * ζ^(k*l)) * (ζ⁻¹)^(k*j) =
      a.getD j 0 * ((2^n : ℕ) : F) := by
  have hsw : ∑ k ∈ Finset.range (2^n),
      (∑ l ∈ Finset.range (2^n), a.getD l 0 * ζ^(k*l)) * (ζ⁻¹)^(k*j)
      = ∑ l ∈ Finset.range (2^n), a.getD l 0 * ∑ k ∈ Finset.range (2^n),
          ζ^(k*l) * (ζ⁻¹)^(k*j) :=
    calc ∑ k ∈ Finset.range (2^n),
        (∑ l ∈ Finset.range (2^n), a.getD l 0 * ζ^(k*l)) * (ζ⁻¹)^(k*j)
        = ∑ k ∈ Finset.range (2^n), ∑ l ∈ Finset.range (2^n),
            a.getD l 0 * (ζ^(k*l) * (ζ⁻¹)^(k*j)) := by
          apply Finset.sum_congr rfl
          intro k _
          rw [Finset.sum_mul]
          apply Finset.sum_congr rfl
          intro l _
          ring
    _ = ∑ l ∈ Finset.range (2^n), ∑ k ∈ Finset.range (2^n),
            a.getD l 0 * (ζ^(k*l) * (ζ⁻¹)^(k*j)) := Finset.sum_comm
    _ = ∑ l ∈ Finset.range (2^n), a.getD l 0 * ∑ k ∈ Finset.range (2^n),
            ζ^(k*l) * (ζ⁻¹)^(k*j) := by
          apply Finset.sum_congr rfl
          intro l _
          rw [Finset.mul_sum]
  rw [hsw]
  rw [Finset.sum_congr rfl (fun l hl => by
    rw [dft_orthogonality ζ n hn hζ hne l j (Finset.mem_range.mp hl) hj])]
  simp only [mul_ite, mul_zero]
  rw [Finset.sum_ite_eq' (Finset.range (2^n)) j (fun l => a.getD l 0 * ((2^n : ℕ) : F))]
  rw [if_pos (Finset.mem_range.mpr hj)]

theorem powModIter_cast (qz : ℤ) (qn : ℕ) (hqn : (qn : ℤ) = qz) (w : ℤ) (i : ℕ) :
    ((powModIter w qz i : ℤ) : ZMod qn) = ((w : ℤ) : ZMod qn)^i := by
  induction i with
  | zero =>
    show ((1 : ℤ) : ZMod qn) = _
    rw [pow_zero, Int.cast_one]
  | succ t ih =>
    show (((powModIter w qz t * w) % qz : ℤ) : ZMod qn) = _
    rw [intCast_emod_eq qn _ qz (dvd_of_eq hqn)]
    push_cast
    rw [ih, pow_succ]

theorem mod_inv_cast (qz : ℤ) (qn : ℕ) (hqn : (qn : ℤ) = qz) (hprime : Nat.Prime qn)
    (a : ℤ) (ha : ((a : ℤ) : ZMod qn) ≠ 0) :
    ((mod_inv a qz : ℤ) : ZMod qn) = ((a : ℤ) : ZMod qn)⁻¹ := by
  haveI : Fact (Nat.Prime qn) := ⟨hprime⟩
  have hq2 : 2 ≤ qn := hprime.two_le
  have he : (qz - 2).toNat + 1 = qn - 1 := by omega
  have h1 : ((a : ℤ) : ZMod qn) * ((mod_inv a qz : ℤ) : ZMod qn) = 1 := by
    unfold mod_inv mod_exp
    rw [intCast_emod_eq qn _ qz (dvd_of_eq hqn)]
    push_cast
    rw [← pow_succ', he]
    exact ZMod.pow_card_sub_one_eq_one ha
  exact eq_inv_of_mul_eq_one_right h1

theorem power_table_htw {F : Type} [CommRing F] (v : F) (n : ℕ) (logm i : ℕ)
    (h1 : 1 ≤ logm) (h2 : logm ≤ n) (hi : i < 2^(logm-1)) :
    ((List.range (2^n)).map (fun j => v ^ j)).getD (i <<< (1 + n - logm)) 0 =
      (v^2)^(i * 2^(n-logm)) := by
  have hidx : i * 2^(1+n-logm) < 2^n := by
    calc i * 2^(1+n-logm) < 2^(logm-1) * 2^(1+n-logm) :=
      mul_lt_mul_of_pos_right hi (by positivity)
    _ = 2^n := by rw [← pow_add]; congr 1; omega
  rw [Nat.shiftLeft_eq]
  rw [getD_map_range _ _ _ 0 hidx]
  rw [show i * 2^(1+n-logm) = 2 * (i * 2^(n-logm)) from by
    rw [show 1+n-logm = 1+(n-logm) from by omega, pow_add, pow_one]; ring]
  rw [pow_mul]

theorem roots_table_cast (qz : ℤ) (qn : ℕ) (hqn : (qn : ℤ) = qz) (w : ℤ) (N : ℕ) :
    ((List.range N).map (powModIter w qz)).map (fun x : ℤ => (x : ZMod qn)) =
      (List.range N).map (fun j => ((w : ℤ) : ZMod qn)^j) := by
  rw [List.map_map]
  apply List.map_congr_left
  intro j _
  exact powModIter_cast qz qn hqn w j

theorem int_eq_of_cast_eq (qz : ℤ) (qn : ℕ) (hqn : (qn : ℤ) = qz) (a b : ℤ)
    (ha0 : 0 ≤ a) (ha1 : a < qz) (hb0 : 0 ≤ b) (hb1 : b < qz)
    (h : ((a : ℤ) : ZMod qn) = ((b : ℤ) : ZMod qn)) : a = b := by
  have hd := (ZMod.intCast_eq_intCast_iff_dvd_sub a b qn).mp h
  rw [hqn] at hd
  have h0 := Int.eq_zero_of_abs_lt_dvd hd (abs_lt.mpr ⟨by omega, by omega⟩)
  omega

theorem ntt_cast_dft (ctx : NTTContext) (qn : ℕ) (hqn : (qn : ℤ) = ctx.coeff_modulus)
    (rou : List ℤ) (coeffs : List ℤ) (n : ℕ) (hlen : coeffs.length = 2^n)
    (ζ : ZMod qn)
    (htw : ∀ logm i, 1 ≤ logm → logm ≤ n → i < 2^(logm-1) →
      (rou.map (fun x : ℤ => (x : ZMod qn))).getD (i <<< (1 + n - logm)) 0 =
        ζ^(i * 2^(n-logm)))
    (hζ : ζ^(2^(n-1)) = -1) :
    (ctx.ntt coeffs rou).map (fun x : ℤ => (x : ZMod qn)) =
      dftStage ζ n n (coeffs.map (fun x : ℤ => (x : ZMod qn))) := by
  unfold NTTContext.ntt
  rw [hlen, pyLog2_two_pow]
  rw [nttLoop_cast ctx.coeff_modulus qn hqn, bit_reverse_vec_cast]
  exact nttLoop_dft ζ n (coeffs.map (fun x : ℤ => (x : ZMod qn)))
    (rou.map (fun x : ℤ => (x : ZMod qn))) _
    (by rw [List.length_map, hlen])
    (fun logm i h1 h2 hi => htw logm i h1 h2 hi) hζ

theorem round_trip_scalar {F : Type} [Field F] (a w N : F) (j : ℕ)
    (hw : w ≠ 0) (hN : N ≠ 0) : a * w^j * N * (w⁻¹)^j * N⁻¹ = a := by
  have h1 : w^j * (w⁻¹)^j = 1 := by
    rw [inv_pow, mul_inv_cancel₀ (pow_ne_zero j hw)]
  have h2 : N * N⁻¹ = 1 := mul_inv_cancel₀ hN
  calc a * w^j * N * (w⁻¹)^j * N⁻¹ = a * (w^j * (w⁻¹)^j) * (N * N⁻¹) := by ring
  _ = a := by rw [h1, h2, mul_one, mul_one]

set_option maxHeartbeats 4000000 in
/-- C2: for every NTTContext with power-of-two degree N = 2^n (n >= 1),
positive prime coefficient modulus q with q = 1 mod 2N, and root of unity w
with w^N = -1 mod q (what the sympy-backed root_of_unity computation
guarantees for such q), and every length-N integer vector c,
ftt_inv (ftt_fwd c) equals c reduced coefficientwise into [0, q): the
forward/inverse negacyclic NTT round-trip is the identity on Z_q^N. -/
theorem ntt_round_trip (ctx : NTTContext) (n : ℕ) (hn : 1 ≤ n)
    (hdeg : ctx.degree = 2^n)
    (hpr : Prime ctx.coeff_modulus)
    (hqpos : 0 < ctx.coeff_modulus)
    (hq1 : ((2 * 2^n : ℕ) : ℤ) ∣ ctx.coeff_modulus - 1)
    (hw : ctx.coeff_modulus ∣ ctx.root_of_unity ^ (2^n) + 1)
    (c : List ℤ) (hc : c.length = 2^n) :
    ctx.ftt_inv (ctx.ftt_fwd c) = c.map (· % ctx.coeff_modulus) := by
  have hA1 : (1:ℕ) ≤ 2^n := Nat.one_le_two_pow
  have hAZ : (((2:ℕ)^n : ℕ) : ℤ) = (2:ℤ)^n := by push_cast; rfl
  have hq2 : 2 ≤ ctx.coeff_modulus := by
    have h1 : ctx.coeff_modulus ≠ 1 := fun h => hpr.not_unit (h ▸ isUnit_one)
    omega
  have hq5 : 2 * (2:ℤ)^n + 1 ≤ ctx.coeff_modulus := by
    obtain ⟨k, hk⟩ := hq1
    push_cast at hk
    have hp2 : (0:ℤ) < 2 * 2^n := by positivity
    have hk1 : 1 ≤ k := by nlinarith
    nlinarith
  have hqn : (ctx.coeff_modulus.toNat : ℤ) = ctx.coeff_modulus :=
    Int.toNat_of_nonneg (by omega)
  have hprime_nat : Nat.Prime ctx.coeff_modulus.toNat := by
    rw [Nat.prime_iff_prime_int, hqn]
    exact hpr
  haveI : Fact (Nat.Prime ctx.coeff_modulus.toNat) := ⟨hprime_nat⟩
  have hqn5 : 2 * 2^n + 1 ≤ ctx.coeff_modulus.toNat := by
    have h1 : (2:ℤ) * ((2^n : ℕ) : ℤ) + 1 ≤ (ctx.coeff_modulus.toNat : ℤ) := by
      rw [hqn, hAZ]
      exact hq5
    exact_mod_cast h1
  have hne : ((-1 : ZMod ctx.coeff_modulus.toNat)) ≠ 1 := by
    intro h
    have hh : ((2 : ℤ) : ZMod ctx.coeff_modulus.toNat) = 0 := by
      have h1 : (1 : ZMod ctx.coeff_modulus.toNat) + 1 = 0 := by linear_combination -h
      calc ((2 : ℤ) : ZMod ctx.coeff_modulus.toNat) =
          (1 : ZMod ctx.coeff_modulus.toNat) + 1 := by push_cast; ring
      _ = 0 := h1
    rw [ZMod.intCast_zmod_eq_zero_iff_dvd] at hh
    have h2 := Int.le_of_dvd (by norm_num) hh
    omega
  have hwN : ((ctx.root_of_unity : ℤ) : ZMod ctx.coeff_modulus.toNat)^(2^n) = -1 := by
    have h0 : ((ctx.root_of_unity ^ (2^n) + 1 : ℤ) : ZMod ctx.coeff_modulus.toNat) = 0 := by
      rw [ZMod.intCast_zmod_eq_zero_iff_dvd, hqn]
      exact hw
    push_cast at h0
    linear_combination h0
  have hwz0 : ((ctx.root_of_unity : ℤ) : ZMod ctx.coeff_modulus.toNat) ≠ 0 := by
    intro h
    rw [h, zero_pow (by positivity)] at hwN
    have h1 : (1 : ZMod ctx.coeff_modulus.toNat) = 0 := by linear_combination hwN
    exact hne (by linear_combination (-2 : ZMod ctx.coeff_modulus.toNat) * h1)
  have hζ : ((((ctx.root_of_unity : ℤ) : ZMod ctx.coeff_modulus.toNat))^2)^(2^(n-1)) = -1 := by
    rw [← pow_mul, show 2 * 2^(n-1) = 2^n from by
      rw [← pow_succ']
      congr 1
      omega]
    exact hwN
  have hζi : (((((ctx.root_of_unity : ℤ) : ZMod ctx.coeff_modulus.toNat))⁻¹)^2)^(2^(n-1))
      = -1 := by
    rw [inv_pow, inv_pow, hζ, inv_neg, inv_one]
  have hTf : ctx.roots_of_unity.map (fun x : ℤ => (x : ZMod ctx.coeff_modulus.toNat)) =
      (List.range (2^n)).map
        (fun j => ((ctx.root_of_unity : ℤ) : ZMod ctx.coeff_modulus.toNat)^j) := by
    show ((List.range ctx.degree).map
      (powModIter ctx.root_of_unity ctx.coeff_modulus)).map
        (fun x : ℤ => (x : ZMod ctx.coeff_modulus.toNat)) = _
    rw [hdeg]
    exact roots_table_cast ctx.coeff_modulus ctx.coeff_modulus.toNat hqn
      ctx.root_of_unity (2^n)
  have hTi : ctx.roots_of_unity_inv.map (fun x : ℤ => (x : ZMod ctx.coeff_modulus.toNat)) =
      (List.range (2^n)).map
        (fun j => ((((ctx.root_of_unity : ℤ) : ZMod ctx.coeff_modulus.toNat))⁻¹)^j) := by
    show ((List.range ctx.degree).map
      (powModIter (mod_inv ctx.root_of_unity ctx.coeff_modulus) ctx.coeff_modulus)).map
        (fun x : ℤ => (x : ZMod ctx.coeff_modulus.toNat)) = _
    rw [hdeg, roots_table_cast ctx.coeff_modulus ctx.coeff_modulus.toNat hqn _ (2^n)]
    apply List.map_congr_left
    intro j _
    rw [mod_inv_cast ctx.coeff_modulus ctx.coeff_modulus.toNat hqn hprime_nat _ hwz0]
  have htwf : ∀ logm i, 1 ≤ logm → logm ≤ n → i < 2^(logm-1) →
      (ctx.roots_of_unity.map (fun x : ℤ => (x : ZMod ctx.coeff_modulus.toNat))).getD
          (i <<< (1 + n - logm)) 0 =
        ((((ctx.root_of_unity : ℤ) : ZMod ctx.coeff_modulus.toNat))^2)^(i * 2^(n-logm)) := by
    intro logm i h1 h2 hi
    rw [hTf]
    exact power_table_htw _ n logm i h1 h2 hi
  have htwi : ∀ logm i, 1 ≤ logm → logm ≤ n → i < 2^(logm-1) →
      (ctx.roots_of_unity_inv.map (fun x : ℤ => (x : ZMod ctx.coeff_modulus.toNat))).getD
          (i <<< (1 + n - logm)) 0 =
        (((((ctx.root_of_unity : ℤ) : ZMod ctx.coeff_modulus.toNat))⁻¹)^2)^(i * 2^(n-logm)) := by
    intro logm i h1 h2 hi
    rw [hTi]
    exact power_table_htw _ n logm i h1 h2 hi
  have hIcast : ∀ i, i < 2^n →
      ((((List.range c.length).map
        (fun i => (c.getD i 0 * ctx.roots_of_unity.getD i 0) % ctx.coeff_modulus)).getD i 0 : ℤ)
          : ZMod ctx.coeff_modulus.toNat) =
        ((c.getD i 0 : ℤ) : ZMod ctx.coeff_modulus.toNat) *
          ((ctx.root_of_unity : ℤ) : ZMod ctx.coeff_modulus.toNat)^i := by
    intro i hi
    rw [hc, getD_map_range _ _ _ 0 hi]
    beta_reduce
    rw [intCast_emod_eq ctx.coeff_modulus.toNat _ _ (dvd_of_eq hqn)]
    push_cast
    have htab : ((ctx.roots_of_unity.getD i 0 : ℤ) : ZMod ctx.coeff_modulus.toNat) =
        ((ctx.root_of_unity : ℤ) : ZMod ctx.coeff_modulus.toNat)^i := by
      rw [← map_intCast_getD ctx.coeff_modulus.toNat ctx.roots_of_unity i, hTf,
        getD_map_range _ _ _ 0 hi]
    rw [htab]
  have hFlen : (ctx.ftt_fwd c).length = 2^n := by
    rw [ftt_fwd_length, hc]
  have hFwd : ∀ j, j < 2^n →
      (((ctx.ftt_fwd c).getD j 0 : ℤ) : ZMod ctx.coeff_modulus.toNat) =
        ∑ k ∈ Finset.range (2^n),
          (((c.getD k 0 : ℤ) : ZMod ctx.coeff_modulus.toNat) *
            ((ctx.root_of_unity : ℤ) : ZMod ctx.coeff_modulus.toNat)^k) *
            ((((ctx.root_of_unity : ℤ) : ZMod ctx.coeff_modulus.toNat))^2)^(j * k) := by
    intro j hj
    rw [← map_intCast_getD ctx.coeff_modulus.toNat _ j]
    show ((ctx.ntt ((List.range c.length).map
        (fun i => (c.getD i 0 * ctx.roots_of_unity.getD i 0) % ctx.coeff_modulus))
      ctx.roots_of_unity).map (fun x : ℤ => (x : ZMod ctx.coeff_modulus.toNat))).getD j 0 = _
    rw [ntt_cast_dft ctx ctx.coeff_modulus.toNat hqn ctx.roots_of_unity _ n
      (by rw [List.length_map, List.length_range, hc]) _ htwf hζ]
    rw [dftStage_final _ n _ j hj]
    apply Finset.sum_congr rfl
    intro k hk
    rw [map_intCast_getD, hIcast k (Finset.mem_range.mp hk)]
  have hAdef : ∀ l, l < 2^n →
      (((List.range (2^n)).map (fun l => ((c.getD l 0 : ℤ) : ZMod ctx.coeff_modulus.toNat) *
        ((ctx.root_of_unity : ℤ) : ZMod ctx.coeff_modulus.toNat)^l)).getD l 0) =
      ((c.getD l 0 : ℤ) : ZMod ctx.coeff_modulus.toNat) *
        ((ctx.root_of_unity : ℤ) : ZMod ctx.coeff_modulus.toNat)^l := by
    intro l hl
    rw [getD_map_range _ _ _ 0 hl]
  have hTsd : ∀ j, j < 2^n →
      (((ctx.ntt (ctx.ftt_fwd c) ctx.roots_of_unity_inv).getD j 0 : ℤ)
          : ZMod ctx.coeff_modulus.toNat) =
        (((c.getD j 0 : ℤ) : ZMod ctx.coeff_modulus.toNat) *
          ((ctx.root_of_unity : ℤ) : ZMod ctx.coeff_modulus.toNat)^j) *
          ((2^n : ℕ) : ZMod ctx.coeff_modulus.toNat) := by
    intro j hj
    rw [← map_intCast_getD ctx.coeff_modulus.toNat _ j]
    rw [ntt_cast_dft ctx ctx.coeff_modulus.toNat hqn ctx.roots_of_unity_inv _ n hFlen _
      htwi hζi]
    rw [dftStage_final _ n _ j hj]
    have hstep : ∀ k ∈ Finset.range (2^n),
        ((ctx.ftt_fwd c).map (fun x : ℤ => (x : ZMod ctx.coeff_modulus.toNat))).getD k 0 *
          (((((ctx.root_of_unity : ℤ) : ZMod ctx.coeff_modulus.toNat))⁻¹)^2)^(j * k) =
        (∑ l ∈ Finset.range (2^n),
          ((List.range (2^n)).map (fun l => ((c.getD l 0 : ℤ) : ZMod ctx.coeff_modulus.toNat) *
            ((ctx.root_of_unity : ℤ) : ZMod ctx.coeff_modulus.toNat)^l)).getD l 0 *
              ((((ctx.root_of_unity : ℤ) : ZMod ctx.coeff_modulus.toNat))^2)^(k*l)) *
          (((((ctx.root_of_unity : ℤ) : ZMod ctx.coeff_modulus.toNat))^2)⁻¹)^(k*j) := by
      intro k hk
      rw [map_intCast_getD, hFwd k (Finset.mem_range.mp hk)]
      rw [inv_pow, mul_comm j k]
      congr 1
      apply Finset.sum_congr rfl
      intro l hl
      rw [hAdef l (Finset.mem_range.mp hl)]
    rw [Finset.sum_congr rfl hstep]
    rw [dft_inversion ((((ctx.root_of_unity : ℤ) : ZMod ctx.coeff_modulus.toNat))^2) n hn hζ
      hne _ j hj]
    rw [hAdef j hj]
  have hTiD : ∀ j, j < 2^n →
      ((ctx.roots_of_unity_inv.getD j 0 : ℤ) : ZMod ctx.coeff_modulus.toNat) =
        ((((ctx.root_of_unity : ℤ) : ZMod ctx.coeff_modulus.toNat))⁻¹)^j := by
    intro j hj
    rw [← map_intCast_getD ctx.coeff_modulus.toNat _ j, hTi, getD_map_range _ _ _ 0 hj]
  have hNF0 : (((2^n : ℕ) : ℤ) : ZMod ctx.coeff_modulus.toNat) ≠ 0 := by
    intro h
    rw [ZMod.intCast_zmod_eq_zero_iff_dvd] at h
    have h2 := Int.le_of_dvd (by positivity) h
    rw [hAZ] at h2
    have h4 : (0:ℤ) ≤ 2^n := by positivity
    have h3 : (2:ℤ) * 2^n + 1 ≤ (ctx.coeff_modulus.toNat : ℤ) := by
      rw [hqn]
      exact hq5
    linarith
  have hNF0nat : (((2^n : ℕ)) : ZMod ctx.coeff_modulus.toNat) ≠ 0 := by
    intro h
    apply hNF0
    rw [Int.cast_natCast]
    exact h
  have hNinv : ((mod_inv (ctx.degree : ℤ) ctx.coeff_modulus : ℤ) : ZMod ctx.coeff_modulus.toNat)
      = ((((2^n : ℕ)) : ZMod ctx.coeff_modulus.toNat))⁻¹ := by
    rw [hdeg, mod_inv_cast ctx.coeff_modulus ctx.coeff_modulus.toNat hqn hprime_nat _ hNF0]
    rw [Int.cast_natCast]
  apply List.ext_getElem
  · rw [ftt_inv_length, ftt_fwd_length, List.length_map]
  · intro j hj1 hj2
    have hjN : j < 2^n := by
      rw [ftt_inv_length, ftt_fwd_length, hc] at hj1
      exact hj1
    rw [← List.getD_eq_getElem _ 0 hj1, ← List.getD_eq_getElem _ 0 hj2]
    show ((List.range (ctx.ftt_fwd c).length).map
      (fun i => ((ctx.ntt (ctx.ftt_fwd c) ctx.roots_of_unity_inv).getD i 0 *
        ctx.roots_of_unity_inv.getD i 0 *
        mod_inv (ctx.degree : ℤ) ctx.coeff_modulus) % ctx.coeff_modulus)).getD j 0 =
      (c.map (· % ctx.coeff_modulus)).getD j 0
    rw [hFlen, getD_map_range _ _ _ 0 hjN]
    rw [getD_map_lt _ _ j 0 0 (by rw [hc]; exact hjN)]
    beta_reduce
    apply int_eq_of_cast_eq ctx.coeff_modulus ctx.coeff_modulus.toNat hqn _ _
      (Int.emod_nonneg _ (by omega)) (Int.emod_lt_of_pos _ (by omega))
      (Int.emod_nonneg _ (by omega)) (Int.emod_lt_of_pos _ (by omega))
    rw [intCast_emod_eq ctx.coeff_modulus.toNat _ _ (dvd_of_eq hqn),
      intCast_emod_eq ctx.coeff_modulus.toNat _ _ (dvd_of_eq hqn)]
    push_cast
    rw [hTsd j hjN, hTiD j hjN, hNinv]
    exact round_trip_scalar _ _ _ j hwz0 hNF0nat

theorem ntt_round_trip_witness :
    NTTContext.ftt_inv ⟨4, 73, 10⟩ (NTTContext.ftt_fwd ⟨4, 73, 10⟩ [5, 80, -3, 7]) =
      [5, 80, -3, 7].map (· % (73:ℤ)) :=
  ntt_round_trip ⟨4, 73, 10⟩ 2 (by norm_num) rfl (by norm_num) (by norm_num)
    (by norm_num) (by norm_num) [5, 80, -3, 7] rfl

theorem pow_mul_mod {R : Type} [CommRing R] (ζ : R) (n : ℕ) (hz1 : ζ^(2^n) = 1)
    (k s : ℕ) : ζ^(k*s) = ζ^(k*(s % 2^n)) := by
  conv_lhs => rw [show k*s = 2^n * (k * (s / 2^n)) + k * (s % 2^n) from by
    conv_lhs => rw [show s = 2^n * (s / 2^n) + s % 2^n from (Nat.div_add_mod s (2^n)).symm]
    ring]
  rw [pow_add, pow_mul, hz1, one_pow, one_mul]

set_option maxHeartbeats 1000000 in
theorem dft_convolution {F : Type} [Field F] (ζ : F) (n : ℕ) (hn : 1 ≤ n)
    (hζ : ζ^(2^(n-1)) = -1) (hne : (-1 : F) ≠ 1) (f g : ℕ → F) (j : ℕ) (hj : j < 2^n) :
    ∑ k ∈ Finset.range (2^n),
      (∑ l ∈ Finset.range (2^n), f l * ζ^(k*l)) *
        (∑ t ∈ Finset.range (2^n), g t * ζ^(k*t)) * (ζ⁻¹)^(k*j) =
    ((2^n : ℕ) : F) * ∑ l ∈ Finset.range (2^n), ∑ t ∈ Finset.range (2^n),
      (if (l+t) % 2^n = j then f l * g t else 0) := by
  have hz1 : ζ^(2^n) = 1 := by
    rw [← pow_two_order ζ n hn hζ hne]
    exact pow_orderOf_eq_one ζ
  have h1 : ∀ k, (∑ l ∈ Finset.range (2^n), f l * ζ^(k*l)) *
      (∑ t ∈ Finset.range (2^n), g t * ζ^(k*t)) * (ζ⁻¹)^(k*j) =
      ∑ l ∈ Finset.range (2^n), ∑ t ∈ Finset.range (2^n),
        f l * g t * (ζ^(k*(l+t)) * (ζ⁻¹)^(k*j)) := by
    intro k
    rw [Finset.sum_mul_sum]
    rw [Finset.sum_mul]
    apply Finset.sum_congr rfl
    intro l _
    rw [Finset.sum_mul]
    apply Finset.sum_congr rfl
    intro t _
    rw [show k*(l+t) = k*l + k*t from by ring, pow_add]
    ring
  rw [Finset.sum_congr rfl (fun k _ => h1 k)]
  rw [Finset.sum_comm]
  rw [Finset.sum_congr rfl (fun l _ => Finset.sum_comm)]
  have h2 : ∀ l ∈ Finset.range (2^n), ∀ t ∈ Finset.range (2^n),
      ∑ k ∈ Finset.range (2^n), f l * g t * (ζ^(k*(l+t)) * (ζ⁻¹)^(k*j)) =
      (if (l+t) % 2^n = j then f l * g t * ((2^n : ℕ) : F) else 0) := by
    intro l _ t _
    rw [← Finset.mul_sum]
    rw [Finset.sum_congr rfl (fun k _ => by rw [pow_mul_mod ζ n hz1 k (l+t)])]
    rw [dft_orthogonality ζ n hn hζ hne ((l+t) % 2^n) j (Nat.mod_lt _ (by positivity)) hj]
    rw [mul_ite, mul_zero]
  rw [Finset.sum_congr rfl (fun l hl => Finset.sum_congr rfl (fun t ht => h2 l hl t ht))]
  rw [Finset.mul_sum]
  apply Finset.sum_congr rfl
  intro l _
  rw [Finset.mul_sum]
  apply Finset.sum_congr rfl
  intro t _
  by_cases hc : (l+t) % 2^n = j
  · rw [if_pos hc, if_pos hc]
    ring
  · rw [if_neg hc, if_neg hc, mul_zero]

theorem convCoeff_double (c1 c2 : List ℤ) (N d : ℕ) :
    convCoeff c1 c2 N d =
      ∑ l ∈ Finset.range N, ∑ t ∈ Finset.range N,
        (if l + t = d then c1.getD l 0 * c2.getD t 0 else 0) := by
  unfold convCoeff
  apply Finset.sum_congr rfl
  intro l _
  by_cases hld : l ≤ d ∧ d - l < N
  · rw [if_pos hld]
    symm
    rw [Finset.sum_eq_single (d - l) (fun t ht htne => by
      have ht' := Finset.mem_range.mp ht
      exact if_neg (fun hc => htne (by omega))) (fun hnm =>
      absurd (Finset.mem_range.mpr hld.2) hnm)]
    rw [if_pos (by omega)]
  · rw [if_neg hld]
    symm
    apply Finset.sum_eq_zero
    intro t ht
    have ht' := Finset.mem_range.mp ht
    rw [if_neg (by omega)]

theorem convCoeff_double_cast {R : Type} [CommRing R] (c1 c2 : List ℤ) (N d : ℕ) :
    ((convCoeff c1 c2 N d : ℤ) : R) =
      ∑ l ∈ Finset.range N, ∑ t ∈ Finset.range N,
        (if l + t = d then ((c1.getD l 0 : ℤ) : R) * ((c2.getD t 0 : ℤ) : R) else 0) := by
  rw [convCoeff_double]
  push_cast
  apply Finset.sum_congr rfl
  intro l _
  apply Finset.sum_congr rfl
  intro t _
  split_ifs
  · rfl
  · rfl

theorem nc_from_cyclic {F : Type} [Field F] (w : F) (n : ℕ) (hw : w^(2^n) = -1)
    (f g : ℕ → F) (j : ℕ) (hj : j < 2^n) :
    ∑ l ∈ Finset.range (2^n), ∑ t ∈ Finset.range (2^n),
      (if (l+t) % 2^n = j then (f l * w^l) * (g t * w^t) else 0) =
    w^j * ((∑ l ∈ Finset.range (2^n), ∑ t ∈ Finset.range (2^n),
        (if l + t = j then f l * g t else 0)) -
      (∑ l ∈ Finset.range (2^n), ∑ t ∈ Finset.range (2^n),
        (if l + t = j + 2^n then f l * g t else 0))) := by
  have hterm : ∀ l ∈ Finset.range (2^n), ∀ t ∈ Finset.range (2^n),
      (if (l+t) % 2^n = j then (f l * w^l) * (g t * w^t) else 0) =
      w^j * ((if l + t = j then f l * g t else 0) -
        (if l + t = j + 2^n then f l * g t else 0)) := by
    intro l hl t ht
    have hl' := Finset.mem_range.mp hl
    have ht' := Finset.mem_range.mp ht
    by_cases h1 : l + t = j
    · rw [if_pos (by rw [h1]; exact Nat.mod_eq_of_lt hj), if_pos h1,
        if_neg (by omega)]
      rw [show (f l * w^l) * (g t * w^t) = f l * g t * w^(l+t) from by
        rw [pow_add]; ring]
      rw [h1]
      ring
    · by_cases h2 : l + t = j + 2^n
      · rw [if_pos (by rw [h2, Nat.add_mod_right]; exact Nat.mod_eq_of_lt hj), if_neg h1, if_pos h2]
        rw [show (f l * w^l) * (g t * w^t) = f l * g t * w^(l+t) from by
          rw [pow_add]; ring]
        rw [h2, pow_add, hw]
        ring
      · rw [if_neg ?hcm, if_neg h1, if_neg h2]
        · ring
        case hcm =>
          intro hc
          rcases Nat.lt_or_ge (l+t) (2^n) with hs | hs
          · rw [Nat.mod_eq_of_lt hs] at hc
            exact h1 hc
          · have hlt2 : l + t - 2^n < 2^n := by omega
            have heq : (l+t) % 2^n = l + t - 2^n := by
              conv_lhs => rw [show l + t = (l + t - 2^n) + 1 * 2^n from by omega]
              rw [Nat.add_mul_mod_self_right]
              exact Nat.mod_eq_of_lt hlt2
            rw [heq] at hc
            exact h2 (by omega)
  rw [Finset.sum_congr rfl (fun l hl => Finset.sum_congr rfl (fun t ht => hterm l hl t ht))]
  rw [← Finset.sum_sub_distrib, Finset.mul_sum]
  apply Finset.sum_congr rfl
  intro l _
  rw [← Finset.sum_sub_distrib, Finset.mul_sum]

theorem getD_replicate_self {α : Type} (n j : ℕ) (a : α) :
    (List.replicate n a).getD j a = a := by
  by_cases hj : j < n
  · rw [List.getD_eq_getElem _ _ (by rw [List.length_replicate]; exact hj)]
    simp
  · rw [List.getD_eq_default _ _ (by rw [List.length_replicate]; omega)]

theorem fft_tw_index_lt (n logm i : ℕ) (h1 : 1 ≤ logm) (h2 : logm ≤ n+1)
    (hi : i < 2^(logm-1)) :
    (i * (2^n * 8)) >>> logm = i * 2^(n+3-logm) ∧ i * 2^(n+3-logm) < 2^n * 8 := by
  have hM : (2:ℕ)^n * 8 = 2^(n+3) := by
    rw [pow_add]
    norm_num
  constructor
  · rw [Nat.shiftRight_eq_div_pow, hM]
    rw [show i * 2^(n+3) = i * 2^(n+3-logm) * 2^logm from by
      rw [mul_assoc, ← pow_add]
      congr 2
      omega]
    exact Nat.mul_div_cancel _ (by positivity)
  · rw [hM]
    calc i * 2^(n+3-logm) < 2^(logm-1) * 2^(n+3-logm) :=
      mul_lt_mul_of_pos_right hi (by positivity)
    _ ≤ 2^(n+3) := by
      rw [← pow_add]
      exact Nat.pow_le_pow_right (by norm_num) (by omega)

set_option maxHeartbeats 1000000 in
theorem fft_fwd_table_htw (n : ℕ) (logm i : ℕ)
    (h1 : 1 ≤ logm) (h2 : logm ≤ n+1) (hi : i < 2^(logm-1)) :
    (FFTContext.roots_of_unity ⟨2^n * 8⟩).getD ((i * (2^n * 8)) >>> logm) 0 =
      (Complex.exp (2 * Real.pi * Complex.I / ((2^(n+1) : ℕ) : ℂ)))^(i * 2^(n+1-logm)) := by
  obtain ⟨hidx, hlt⟩ := fft_tw_index_lt n logm i h1 h2 hi
  show ((List.range (2^n*8)).map (fun k : ℕ =>
    Complex.exp (2 * Real.pi * Complex.I * k / ((2^n*8 : ℕ) : ℂ)))).getD
      ((i * (2^n * 8)) >>> logm) 0 = _
  rw [hidx, getD_map_range _ _ _ 0 hlt]
  rw [← Complex.exp_nat_mul]
  congr 1
  have hd1 : ((2:ℂ))^n * 8 ≠ 0 := mul_ne_zero (pow_ne_zero _ two_ne_zero) (by norm_num)
  have hd2 : ((2:ℂ))^(n+1) ≠ 0 := pow_ne_zero _ two_ne_zero
  push_cast
  rw [show n+3-logm = (n+1-logm)+2 from by omega]
  field_simp
  ring

set_option maxHeartbeats 1000000 in
theorem fft_inv_table_htw (n : ℕ) (logm i : ℕ)
    (h1 : 1 ≤ logm) (h2 : logm ≤ n+1) (hi : i < 2^(logm-1)) :
    (FFTContext.roots_of_unity_inv ⟨2^n * 8⟩).getD ((i * (2^n * 8)) >>> logm) 0 =
      ((Complex.exp (2 * Real.pi * Complex.I / ((2^(n+1) : ℕ) : ℂ)))⁻¹)^(i * 2^(n+1-logm)) := by
  obtain ⟨hidx, hlt⟩ := fft_tw_index_lt n logm i h1 h2 hi
  have hf := fft_fwd_table_htw n logm i h1 h2 hi
  rw [show FFTContext.roots_of_unity ⟨2^n * 8⟩ = (List.range (2^n*8)).map (fun k : ℕ =>
      Complex.exp (2 * Real.pi * Complex.I * k / ((2^n*8 : ℕ) : ℂ))) from rfl, hidx,
    getD_map_range _ _ _ 0 hlt] at hf
  show ((List.range (2^n*8)).map (fun k : ℕ =>
    Complex.exp (-(2 * Real.pi * Complex.I * k) / ((2^n*8 : ℕ) : ℂ)))).getD
      ((i * (2^n * 8)) >>> logm) 0 = _
  rw [hidx, getD_map_range _ _ _ 0 hlt]
  show Complex.exp (-(2 * Real.pi * Complex.I * ((i * 2^(n+3-logm) : ℕ) : ℂ)) /
    ((2^n*8 : ℕ) : ℂ)) = _
  rw [neg_div, Complex.exp_neg]
  show (Complex.exp (2 * Real.pi * Complex.I * ((i * 2^(n+3-logm) : ℕ) : ℂ) /
    ((2^n*8 : ℕ) : ℂ)))⁻¹ = _
  rw [hf, ← inv_pow]

theorem fft_zeta_pow (n : ℕ) :
    (Complex.exp (2 * Real.pi * Complex.I / ((2^(n+1) : ℕ) : ℂ)))^(2^n) = -1 := by
  rw [← Complex.exp_nat_mul]
  have harg : ((2^n : ℕ) : ℂ) * (2 * Real.pi * Complex.I / ((2^(n+1) : ℕ) : ℂ)) =
      Real.pi * Complex.I := by
    have hd2 : ((2:ℂ))^(n+1) ≠ 0 := pow_ne_zero _ two_ne_zero
    push_cast
    field_simp
    ring
  rw [harg, Complex.exp_pi_mul_I]

theorem fft_zeta_inv_pow (n : ℕ) :
    ((Complex.exp (2 * Real.pi * Complex.I / ((2^(n+1) : ℕ) : ℂ)))⁻¹)^(2^n) = -1 := by
  rw [inv_pow, fft_zeta_pow n, inv_neg, inv_one]

theorem fft_dft (ctx : FFTContext) (coeffs rou : List ℂ) (m : ℕ)
    (hlen : coeffs.length = 2^m) (ζ : ℂ)
    (htw : ∀ logm i, 1 ≤ logm → logm ≤ m → i < 2^(logm-1) →
      rou.getD ((i * ctx.fft_length) >>> logm) 0 = ζ^(i * 2^(m-logm)))
    (hζ : ζ^(2^(m-1)) = -1) :
    ctx.fft coeffs rou = dftStage ζ m m coeffs := by
  unfold FFTContext.fft
  rw [hlen]
  exact nttLoop_dft ζ m coeffs rou _ hlen (fun logm i ha hb hc => htw logm i ha hb hc) hζ

theorem fft_inv_length (ctx : FFTContext) (coeffs : List ℂ) :
    (ctx.fft_inv coeffs).length = coeffs.length := by
  unfold FFTContext.fft_inv
  rw [List.length_map, fft_length]

theorem fft_fwd_getD (n : ℕ) (coeffs : List ℂ) (hlen : coeffs.length = 2^(n+1)) (j : ℕ)
    (hj : j < 2^(n+1)) :
    (FFTContext.fft_fwd ⟨2^n * 8⟩ coeffs).getD j 0 =
      ∑ k ∈ Finset.range (2^(n+1)), coeffs.getD k 0 *
        (Complex.exp (2 * Real.pi * Complex.I / ((2^(n+1) : ℕ) : ℂ)))^(j*k) := by
  unfold FFTContext.fft_fwd
  rw [fft_dft ⟨2^n * 8⟩ coeffs _ (n+1) hlen
    (Complex.exp (2 * Real.pi * Complex.I / ((2^(n+1) : ℕ) : ℂ)))
    (fun logm i ha hb hc => fft_fwd_table_htw n logm i ha hb hc) (fft_zeta_pow n)]
  exact dftStage_final _ (n+1) coeffs j hj

theorem fft_inv_getD (n : ℕ) (coeffs : List ℂ) (hlen : coeffs.length = 2^(n+1)) (j : ℕ)
    (hj : j < 2^(n+1)) :
    (FFTContext.fft_inv ⟨2^n * 8⟩ coeffs).getD j 0 =
      (∑ k ∈ Finset.range (2^(n+1)), coeffs.getD k 0 *
        ((Complex.exp (2 * Real.pi * Complex.I / ((2^(n+1) : ℕ) : ℂ)))⁻¹)^(j*k)) /
        ((2^(n+1) : ℕ) : ℂ) := by
  unfold FFTContext.fft_inv
  have hfl : (FFTContext.fft ⟨2^n * 8⟩ coeffs (FFTContext.roots_of_unity_inv ⟨2^n * 8⟩)).length
      = 2^(n+1) := by rw [fft_length, hlen]
  rw [getD_map_lt _ _ j 0 0 (by rw [hfl]; exact hj)]
  beta_reduce
  rw [fft_dft ⟨2^n * 8⟩ coeffs _ (n+1) hlen
    ((Complex.exp (2 * Real.pi * Complex.I / ((2^(n+1) : ℕ) : ℂ)))⁻¹)
    (fun logm i ha hb hc => fft_inv_table_htw n logm i ha hb hc) (fft_zeta_inv_pow n)]
  rw [dftStage_final _ (n+1) coeffs j hj, hlen]

theorem pad_getD (c : List ℤ) (N : ℕ) (hN : c.length = N) (l : ℕ) :
    (c.map (fun x : ℤ => (x : ℂ)) ++ List.replicate N 0).getD l 0 =
      if l < N then ((c.getD l 0 : ℤ) : ℂ) else 0 := by
  by_cases hl : l < N
  · rw [if_pos hl]
    rw [List.getD_append _ _ _ _ (by rw [List.length_map, hN]; exact hl)]
    rw [getD_map_lt _ _ l 0 0 (by rw [hN]; exact hl)]
  · rw [if_neg hl]
    rw [List.getD_append_right _ _ _ _ (by rw [List.length_map, hN]; omega)]
    rw [List.length_map, hN]
    exact getD_replicate_self N (l - N) 0

set_option maxHeartbeats 1000000 in
theorem cconv_pad (c1 c2 : List ℤ) (N : ℕ) (h1 : c1.length = N) (h2 : c2.length = N)
    (d : ℕ) (hd : d < 2*N) :
    ∑ l ∈ Finset.range (2*N), ∑ t ∈ Finset.range (2*N),
      (if (l + t) % (2*N) = d then
        (c1.map (fun x : ℤ => (x : ℂ)) ++ List.replicate N 0).getD l 0 *
        (c2.map (fun x : ℤ => (x : ℂ)) ++ List.replicate N 0).getD t 0 else 0) =
      ((convCoeff c1 c2 N d : ℤ) : ℂ) := by
  have hterm : ∀ l ∈ Finset.range (2*N), ∀ t ∈ Finset.range (2*N),
      (if (l + t) % (2*N) = d then
        (c1.map (fun x : ℤ => (x : ℂ)) ++ List.replicate N 0).getD l 0 *
        (c2.map (fun x : ℤ => (x : ℂ)) ++ List.replicate N 0).getD t 0 else 0) =
      (if l + t = d then
        (c1.map (fun x : ℤ => (x : ℂ)) ++ List.replicate N 0).getD l 0 *
        (c2.map (fun x : ℤ => (x : ℂ)) ++ List.replicate N 0).getD t 0 else 0) := by
    intro l hl t ht
    have hl' := Finset.mem_range.mp hl
    have ht' := Finset.mem_range.mp ht
    by_cases hc : l + t = d
    · rw [if_pos (by rw [hc]; exact Nat.mod_eq_of_lt hd), if_pos hc]
    · rw [if_neg hc]
      by_cases hm : (l + t) % (2*N) = d
      · rw [if_pos hm]
        have hsum : l + t = d + 2*N := by
          rcases Nat.lt_or_ge (l+t) (2*N) with hs | hs
          · rw [Nat.mod_eq_of_lt hs] at hm
            omega
          · have hlt2 : l + t - 2*N < 2*N := by omega
            have heq : (l+t) % (2*N) = l + t - 2*N := by
              conv_lhs => rw [show l + t = (l + t - 2*N) + 1 * (2*N) from by omega]
              rw [Nat.add_mul_mod_self_right]
              exact Nat.mod_eq_of_lt hlt2
            omega
        rcases Nat.lt_or_ge l N with hln | hln
        · rw [pad_getD c2 N h2 t, if_neg (show ¬ t < N from by omega), mul_zero]
        · rw [pad_getD c1 N h1 l, if_neg (show ¬ l < N from by omega), zero_mul]
      · rw [if_neg hm]
  rw [Finset.sum_congr rfl (fun l hl => Finset.sum_congr rfl (fun t ht => hterm l hl t ht))]
  have hzero1 : ∀ l ∈ Finset.range (2*N), l ∉ Finset.range N →
      (∑ t ∈ Finset.range (2*N), (if l + t = d then
        (c1.map (fun x : ℤ => (x : ℂ)) ++ List.replicate N 0).getD l 0 *
        (c2.map (fun x : ℤ => (x : ℂ)) ++ List.replicate N 0).getD t 0 else 0)) = 0 := by
    intro l _ hln
    have hlge : N ≤ l := by
      rcases Nat.lt_or_ge l N with hc | hc
      · exact absurd (Finset.mem_range.mpr hc) hln
      · exact hc
    apply Finset.sum_eq_zero
    intro t _
    rw [pad_getD c1 N h1 l, if_neg (show ¬ l < N from by omega), zero_mul, ite_self]
  rw [← Finset.sum_subset (Finset.range_subset.mpr (by omega : N ≤ 2*N)) hzero1]
  have hinner : ∀ l ∈ Finset.range N,
      (∑ t ∈ Finset.range (2*N), (if l + t = d then
        (c1.map (fun x : ℤ => (x : ℂ)) ++ List.replicate N 0).getD l 0 *
        (c2.map (fun x : ℤ => (x : ℂ)) ++ List.replicate N 0).getD t 0 else 0)) =
      ∑ t ∈ Finset.range N, (if l + t = d then
        ((c1.getD l 0 : ℤ) : ℂ) * ((c2.getD t 0 : ℤ) : ℂ) else 0) := by
    intro l hl
    have hl' := Finset.mem_range.mp hl
    have hzero2 : ∀ t ∈ Finset.range (2*N), t ∉ Finset.range N →
        (if l + t = d then
          (c1.map (fun x : ℤ => (x : ℂ)) ++ List.replicate N 0).getD l 0 *
          (c2.map (fun x : ℤ => (x : ℂ)) ++ List.replicate N 0).getD t 0 else 0) = 0 := by
      intro t _ htn
      have htge : N ≤ t := by
        rcases Nat.lt_or_ge t N with hc | hc
        · exact absurd (Finset.mem_range.mpr hc) htn
        · exact hc
      rw [pad_getD c2 N h2 t, if_neg (show ¬ t < N from by omega), mul_zero, ite_self]
    rw [← Finset.sum_subset (Finset.range_subset.mpr (by omega : N ≤ 2*N)) hzero2]
    apply Finset.sum_congr rfl
    intro t ht
    have ht' := Finset.mem_range.mp ht
    rw [pad_getD c1 N h1 l, pad_getD c2 N h2 t, if_pos hl', if_pos ht']
  rw [Finset.sum_congr rfl hinner, ← convCoeff_double_cast]

theorem pyRoundR_intCast (z : ℤ) : pyRoundR ((z : ℤ) : ℝ) = z := by
  unfold pyRoundR
  rw [Int.floor_intCast]
  norm_num

theorem mod_small_centered (v Q : ℤ) (hQ : 0 < Q) (h : 2 * |v| < Q) :
    (if Q.fdiv 2 < v % Q then v % Q - Q else v % Q) = v := by
  have hfd : Q.fdiv 2 = Q / 2 := Int.fdiv_eq_ediv _ (by norm_num)
  rcases le_or_lt 0 v with hv | hv
  · have habs : |v| = v := abs_of_nonneg hv
    rw [habs] at h
    rw [Int.emod_eq_of_lt hv (by omega)]
    have hn : ¬ Q.fdiv 2 < v := by
      rw [hfd]
      have hle : v ≤ Q / 2 := by
        rw [Int.le_ediv_iff_mul_le (by norm_num : (0:ℤ) < 2)]
        omega
      omega
    rw [if_neg hn]
  · have habs : |v| = -v := abs_of_neg hv
    rw [habs] at h
    have hmod : v % Q = v + Q :=
      calc v % Q = (v + Q * 1) % Q := by rw [Int.add_mul_emod_self_left]
      _ = v + Q := by rw [mul_one]; exact Int.emod_eq_of_lt (by omega) (by omega)
    have hp : Q.fdiv 2 < v + Q := by
      rw [hfd, Int.ediv_lt_iff_lt_mul (by norm_num : (0:ℤ) < 2)]
      omega
    rw [hmod, if_pos hp]
    ring

theorem foldl_range_congr {α : Type} (f g : α → ℕ → α) (K : ℕ) (init : α)
    (h : ∀ acc i, i < K → f acc i = g acc i) :
    (List.range K).foldl f init = (List.range K).foldl g init := by
  induction K with
  | zero => rfl
  | succ k ih =>
    rw [List.range_succ, List.foldl_append, List.foldl_append, List.foldl_cons,
      List.foldl_cons, List.foldl_nil, List.foldl_nil]
    rw [ih (fun acc i hi => h acc i (by omega))]
    rw [h _ k (by omega)]

theorem fft_fold_phase1 (prod : List ℂ) (N k : ℕ) (hk : k ≤ N) :
    ((List.range k).foldl (fftStepAcc N prod) (List.replicate N 0)).length = N ∧
    ∀ j, j < N →
      ((List.range k).foldl (fftStepAcc N prod) (List.replicate N 0)).getD j 0 =
        if j < k then prod.getD j 0 else 0 := by
  induction k with
  | zero =>
    refine ⟨by simp, ?_⟩
    intro j hj
    rw [List.range_zero, List.foldl_nil, if_neg (by omega)]
    exact getD_replicate_self N j 0
  | succ k ih =>
    obtain ⟨hlen, hval⟩ := ih (Nat.le_of_succ_le hk)
    rw [List.range_succ, List.foldl_append]
    have hkN : k < N := hk
    have hstep : List.foldl (fftStepAcc N prod)
        ((List.range k).foldl (fftStepAcc N prod) (List.replicate N 0)) [k] =
        ((List.range k).foldl (fftStepAcc N prod) (List.replicate N 0)).set k
          (prod.getD k 0) := by
      simp only [List.foldl_cons, List.foldl_nil, fftStepAcc]
      rw [Nat.mod_eq_of_lt hkN, if_pos hkN, hval k hkN, if_neg (lt_irrefl k), zero_add,
        one_mul]
    rw [hstep]
    refine ⟨by simp [hlen], ?_⟩
    intro j hj
    by_cases hjk : j = k
    · subst hjk
      rw [getD_set_self _ _ _ _ (by omega), if_pos (Nat.lt_succ_self j)]
    · rw [getD_set_ne _ _ _ _ _ (fun h => hjk h.symm), hval j hj]
      by_cases hlt : j < k
      · rw [if_pos hlt, if_pos (Nat.lt_succ_of_lt hlt)]
      · rw [if_neg hlt, if_neg (by omega)]

theorem fft_fold_phase2 (prod : List ℂ) (N k : ℕ) (hk : k ≤ N - 1) (hN : 0 < N) :
    (((List.range k).map (N + ·)).foldl (fftStepAcc N prod)
        ((List.range N).foldl (fftStepAcc N prod) (List.replicate N 0))).length = N ∧
    ∀ j, j < N →
      (((List.range k).map (N + ·)).foldl (fftStepAcc N prod)
        ((List.range N).foldl (fftStepAcc N prod) (List.replicate N 0))).getD j 0 =
        if j < k then prod.getD j 0 - prod.getD (N + j) 0 else prod.getD j 0 := by
  induction k with
  | zero =>
    obtain ⟨hlen, hval⟩ := fft_fold_phase1 prod N N le_rfl
    refine ⟨hlen, ?_⟩
    intro j hj
    simp only [List.range_zero, List.map_nil, List.foldl_nil]
    rw [hval j hj, if_pos hj, if_neg (Nat.not_lt_zero j)]
  | succ k ih =>
    obtain ⟨hlen, hval⟩ := ih (by omega)
    rw [List.range_succ, List.map_append, List.foldl_append]
    simp only [List.map_cons, List.map_nil]
    have hkN : k < N := by omega
    have hstep : List.foldl (fftStepAcc N prod)
        (((List.range k).map (N + ·)).foldl (fftStepAcc N prod)
          ((List.range N).foldl (fftStepAcc N prod) (List.replicate N 0))) [N + k] =
        (((List.range k).map (N + ·)).foldl (fftStepAcc N prod)
          ((List.range N).foldl (fftStepAcc N prod) (List.replicate N 0))).set k
            (prod.getD k 0 - prod.getD (N + k) 0) := by
      simp only [List.foldl_cons, List.foldl_nil, fftStepAcc]
      have hidx : (N + k) % N = k := by
        rw [Nat.add_mod_left, Nat.mod_eq_of_lt hkN]
      rw [hidx, if_neg (by omega), hval k hkN, if_neg (lt_irrefl k)]
      rw [show prod.getD k 0 + (-1 : ℂ) * prod.getD (N + k) 0 =
        prod.getD k 0 - prod.getD (N + k) 0 from by ring]
    rw [hstep]
    refine ⟨by simp [hlen], ?_⟩
    intro j hj
    by_cases hjk : j = k
    · subst hjk
      rw [getD_set_self _ _ _ _ (by omega), if_pos (Nat.lt_succ_self j)]
    · rw [getD_set_ne _ _ _ _ _ (fun h => hjk h.symm), hval j hj]
      by_cases hlt : j < k
      · rw [if_pos hlt, if_pos (Nat.lt_succ_of_lt hlt)]
      · rw [if_neg hlt, if_neg (by omega)]

theorem convCoeff_high_zero (c1 c2 : List ℤ) (N d : ℕ) (hd : 2*N - 1 ≤ d) (hN : 0 < N) :
    convCoeff c1 c2 N d = 0 := by
  unfold convCoeff
  apply Finset.sum_eq_zero
  intro i hi
  have hi' := Finset.mem_range.mp hi
  rw [if_neg (show ¬(i ≤ d ∧ d - i < N) from by omega)]

set_option maxHeartbeats 2000000 in
theorem multiply_fft_eq_ncList (p1 p2 : Polynomial) (n : ℕ)
    (hd1 : p1.ring_degree = 2^n)
    (hl1 : p1.coeffs.length = 2^n) (hl2 : p2.coeffs.length = 2^n) :
    p1.multiply_fft p2 = (⟨2^n, ncList (2^n) p1.coeffs p2.coeffs⟩ : Polynomial) := by
  have hN : 0 < 2^n := by positivity
  have hpow : (2:ℕ)^(n+1) = 2 * 2^n := by
    rw [pow_succ]
    ring
  have hpadlen1 : (p1.coeffs.map (fun c : ℤ => (c : ℂ)) ++
      List.replicate (2^n) 0).length = 2^(n+1) := by
    rw [List.length_append, List.length_map, hl1, List.length_replicate, pow_succ]
    ring
  have hpadlen2 : (p2.coeffs.map (fun c : ℤ => (c : ℂ)) ++
      List.replicate (2^n) 0).length = 2^(n+1) := by
    rw [List.length_append, List.length_map, hl2, List.length_replicate, pow_succ]
    ring
  have hablen : ((List.range (2^n * 2)).map (fun i =>
      (FFTContext.fft_fwd ⟨2^n * 8⟩
        (p1.coeffs.map (fun c : ℤ => (c : ℂ)) ++ List.replicate (2^n) 0)).getD i 0 *
      (FFTContext.fft_fwd ⟨2^n * 8⟩
        (p2.coeffs.map (fun c : ℤ => (c : ℂ)) ++ List.replicate (2^n) 0)).getD i 0)).length
      = 2^(n+1) := by
    rw [List.length_map, List.length_range, pow_succ]
  have hlen0 : (((2:ℕ)^(n+1) : ℕ) : ℂ) ≠ 0 := Nat.cast_ne_zero.mpr (by positivity)
  have hprod : ∀ d, d < 2^(n+1) →
      (FFTContext.fft_inv ⟨2^n * 8⟩ ((List.range (2^n * 2)).map (fun i =>
        (FFTContext.fft_fwd ⟨2^n * 8⟩
          (p1.coeffs.map (fun c : ℤ => (c : ℂ)) ++ List.replicate (2^n) 0)).getD i 0 *
        (FFTContext.fft_fwd ⟨2^n * 8⟩
          (p2.coeffs.map (fun c : ℤ => (c : ℂ)) ++ List.replicate (2^n) 0)).getD i 0))).getD d 0
      = ((convCoeff p1.coeffs p2.coeffs (2^n) d : ℤ) : ℂ) := by
    intro d hd
    rw [fft_inv_getD n _ hablen d hd]
    have hsum : ∑ k ∈ Finset.range (2^(n+1)),
        ((List.range (2^n * 2)).map (fun i =>
          (FFTContext.fft_fwd ⟨2^n * 8⟩
            (p1.coeffs.map (fun c : ℤ => (c : ℂ)) ++ List.replicate (2^n) 0)).getD i 0 *
          (FFTContext.fft_fwd ⟨2^n * 8⟩
            (p2.coeffs.map (fun c : ℤ => (c : ℂ)) ++ List.replicate (2^n) 0)).getD i 0)).getD k 0 *
          ((Complex.exp (2 * Real.pi * Complex.I / ((2^(n+1) : ℕ) : ℂ)))⁻¹)^(d*k) =
        ∑ k ∈ Finset.range (2^(n+1)),
          (∑ l ∈ Finset.range (2^(n+1)),
            (p1.coeffs.map (fun c : ℤ => (c : ℂ)) ++ List.replicate (2^n) 0).getD l 0 *
              (Complex.exp (2 * Real.pi * Complex.I / ((2^(n+1) : ℕ) : ℂ)))^(k*l)) *
          (∑ t ∈ Finset.range (2^(n+1)),
            (p2.coeffs.map (fun c : ℤ => (c : ℂ)) ++ List.replicate (2^n) 0).getD t 0 *
              (Complex.exp (2 * Real.pi * Complex.I / ((2^(n+1) : ℕ) : ℂ)))^(k*t)) *
          ((Complex.exp (2 * Real.pi * Complex.I / ((2^(n+1) : ℕ) : ℂ)))⁻¹)^(k*d) := by
      apply Finset.sum_congr rfl
      intro k hk
      have hk' := Finset.mem_range.mp hk
      rw [getD_map_range _ _ _ 0 (show k < 2^n * 2 from by omega)]
      beta_reduce
      rw [fft_fwd_getD n _ hpadlen1 k hk', fft_fwd_getD n _ hpadlen2 k hk']
      rw [mul_comm d k]
    rw [hsum]
    rw [dft_convolution _ (n+1) (by omega) (fft_zeta_pow n) (by norm_num : (-1:ℂ) ≠ 1)
      _ _ d hd]
    rw [mul_div_cancel_left₀ _ hlen0]
    rw [hpow]
    exact cconv_pad p1.coeffs p2.coeffs (2^n) hl1 hl2 d (by omega)
  have hloop : p1.multiply_fft p2 = (PolynomialC.mk p1.ring_degree
      ((List.range (2 * p1.ring_degree - 1)).foldl
        (fftStepAcc p1.ring_degree
          (FFTContext.fft_inv ⟨p1.ring_degree * 8⟩
            ((List.range (p1.ring_degree * 2)).map (fun i =>
              (FFTContext.fft_fwd ⟨p1.ring_degree * 8⟩
                (p1.coeffs.map (fun c : ℤ => (c : ℂ)) ++
                  List.replicate p1.ring_degree 0)).getD i 0 *
              (FFTContext.fft_fwd ⟨p1.ring_degree * 8⟩
                (p2.coeffs.map (fun c : ℤ => (c : ℂ)) ++
                  List.replicate p1.ring_degree 0)).getD i 0))))
        (List.replicate p1.ring_degree 0))).round := by
    unfold Polynomial.multiply_fft fftStepAcc
    rfl
  rw [hloop, hd1]
  rw [show ∀ L : List ℂ, (PolynomialC.mk (2^n) L).round =
    (⟨2^n, L.map (fun c => pyRoundR c.re)⟩ : Polynomial) from fun L => rfl]
  apply poly_eq_of_parts
  · rfl
  · show ((List.range (2 * 2^n - 1)).foldl
      (fftStepAcc (2^n)
        (FFTContext.fft_inv ⟨2^n * 8⟩
          ((List.range (2^n * 2)).map (fun i =>
            (FFTContext.fft_fwd ⟨2^n * 8⟩
              (p1.coeffs.map (fun c : ℤ => (c : ℂ)) ++ List.replicate (2^n) 0)).getD i 0 *
            (FFTContext.fft_fwd ⟨2^n * 8⟩
              (p2.coeffs.map (fun c : ℤ => (c : ℂ)) ++ List.replicate (2^n) 0)).getD i 0))))
      (List.replicate (2^n) 0)).map (fun c => pyRoundR c.re) =
      ncList (2^n) p1.coeffs p2.coeffs
    rw [show 2 * 2^n - 1 = 2^n + (2^n - 1) from by omega, List.range_add, List.foldl_append]
    obtain ⟨hflen, hfval⟩ := fft_fold_phase2
      (FFTContext.fft_inv ⟨2^n * 8⟩
        ((List.range (2^n * 2)).map (fun i =>
          (FFTContext.fft_fwd ⟨2^n * 8⟩
            (p1.coeffs.map (fun c : ℤ => (c : ℂ)) ++ List.replicate (2^n) 0)).getD i 0 *
          (FFTContext.fft_fwd ⟨2^n * 8⟩
            (p2.coeffs.map (fun c : ℤ => (c : ℂ)) ++ List.replicate (2^n) 0)).getD i 0)))
      (2^n) (2^n - 1) le_rfl hN
    apply List.ext_getElem
    · rw [List.length_map, hflen, ncList_length]
    · intro j hj1 hj2
      have hjN : j < 2^n := by
        rw [List.length_map, hflen] at hj1
        exact hj1
      rw [← List.getD_eq_getElem _ 0 hj1, ← List.getD_eq_getElem _ 0 hj2]
      rw [getD_map_lt _ _ j 0 0 (by rw [hflen]; exact hjN)]
      beta_reduce
      rw [hfval j hjN, ncList_getD _ _ _ j hjN]
      by_cases hlt : j < 2^n - 1
      · rw [if_pos hlt]
        rw [hprod j (by omega), hprod (2^n + j) (by omega)]
        rw [show ((convCoeff p1.coeffs p2.coeffs (2^n) j : ℤ) : ℂ) -
            ((convCoeff p1.coeffs p2.coeffs (2^n) (2^n + j) : ℤ) : ℂ) =
            (((convCoeff p1.coeffs p2.coeffs (2^n) j -
               convCoeff p1.coeffs p2.coeffs (2^n) (2^n + j) : ℤ)) : ℂ) from by
          push_cast
          ring]
        rw [Complex.intCast_re, pyRoundR_intCast]
        unfold ncCoeff
        rw [Nat.add_comm (2^n) j]
      · rw [if_neg hlt]
        rw [hprod j (by omega)]
        rw [Complex.intCast_re, pyRoundR_intCast]
        unfold ncCoeff
        rw [convCoeff_high_zero p1.coeffs p2.coeffs (2^n) (j + 2^n) (by omega) hN, sub_zero]

set_option maxHeartbeats 4000000 in
theorem multiply_ntt_mod (p1 p2 : Polynomial) (n : ℕ) (hn : 1 ≤ n)
    (ctx : NTTContext) (hdeg : ctx.degree = 2^n)
    (hpr : Prime ctx.coeff_modulus) (hqpos : 0 < ctx.coeff_modulus)
    (hq1 : ((2 * 2^n : ℕ) : ℤ) ∣ ctx.coeff_modulus - 1)
    (hw : ctx.coeff_modulus ∣ ctx.root_of_unity ^ (2^n) + 1)
    (hd1 : p1.ring_degree = 2^n)
    (hl1 : p1.coeffs.length = 2^n) (hl2 : p2.coeffs.length = 2^n) :
    ∀ j, j < 2^n → (p1.multiply_ntt p2 ctx).coeffs.getD j 0 =
      ncCoeff p1.coeffs p2.coeffs (2^n) j % ctx.coeff_modulus := by
  have hA1 : (1:ℕ) ≤ 2^n := Nat.one_le_two_pow
  have hAZ : (((2:ℕ)^n : ℕ) : ℤ) = (2:ℤ)^n := by push_cast; rfl
  have hq2 : 2 ≤ ctx.coeff_modulus := by
    have h1 : ctx.coeff_modulus ≠ 1 := fun h => hpr.not_unit (h ▸ isUnit_one)
    omega
  have hq5 : 2 * (2:ℤ)^n + 1 ≤ ctx.coeff_modulus := by
    obtain ⟨k, hk⟩ := hq1
    push_cast at hk
    have hp2 : (0:ℤ) < 2 * 2^n := by positivity
    have hk1 : 1 ≤ k := by nlinarith
    nlinarith
  have hqn : (ctx.coeff_modulus.toNat : ℤ) = ctx.coeff_modulus :=
    Int.toNat_of_nonneg (by omega)
  have hprime_nat : Nat.Prime ctx.coeff_modulus.toNat := by
    rw [Nat.prime_iff_prime_int, hqn]
    exact hpr
  haveI : Fact (Nat.Prime ctx.coeff_modulus.toNat) := ⟨hprime_nat⟩
  have hqn5 : 2 * 2^n + 1 ≤ ctx.coeff_modulus.toNat := by
    have h1 : (2:ℤ) * ((2^n : ℕ) : ℤ) + 1 ≤ (ctx.coeff_modulus.toNat : ℤ) := by
      rw [hqn, hAZ]
      exact hq5
    exact_mod_cast h1
  have hne : ((-1 : ZMod ctx.coeff_modulus.toNat)) ≠ 1 := by
    intro h
    have hh : ((2 : ℤ) : ZMod ctx.coeff_modulus.toNat) = 0 := by
      have h1 : (1 : ZMod ctx.coeff_modulus.toNat) + 1 = 0 := by linear_combination -h
      calc ((2 : ℤ) : ZMod ctx.coeff_modulus.toNat) =
          (1 : ZMod ctx.coeff_modulus.toNat) + 1 := by push_cast; ring
      _ = 0 := h1
    rw [ZMod.intCast_zmod_eq_zero_iff_dvd] at hh
    have h2 := Int.le_of_dvd (by norm_num) hh
    omega
  have hwN : ((ctx.root_of_unity : ℤ) : ZMod ctx.coeff_modulus.toNat)^(2^n) = -1 := by
    have h0 : ((ctx.root_of_unity ^ (2^n) + 1 : ℤ) : ZMod ctx.coeff_modulus.toNat) = 0 := by
      rw [ZMod.intCast_zmod_eq_zero_iff_dvd, hqn]
      exact hw
    push_cast at h0
    linear_combination h0
  have hwz0 : ((ctx.root_of_unity : ℤ) : ZMod ctx.coeff_modulus.toNat) ≠ 0 := by
    intro h
    rw [h, zero_pow (by positivity)] at hwN
    have h1 : (1 : ZMod ctx.coeff_modulus.toNat) = 0 := by linear_combination hwN
    exact hne (by linear_combination (-2 : ZMod ctx.coeff_modulus.toNat) * h1)
  have hζ : ((((ctx.root_of_unity : ℤ) : ZMod ctx.coeff_modulus.toNat))^2)^(2^(n-1)) = -1 := by
    rw [← pow_mul, show 2 * 2^(n-1) = 2^n from by
      rw [← pow_succ']
      congr 1
      omega]
    exact hwN
  have hζi : (((((ctx.root_of_unity : ℤ) : ZMod ctx.coeff_modulus.toNat))⁻¹)^2)^(2^(n-1))
      = -1 := by
    rw [inv_pow, inv_pow, hζ, inv_neg, inv_one]
  have hTf : ctx.roots_of_unity.map (fun x : ℤ => (x : ZMod ctx.coeff_modulus.toNat)) =
      (List.range (2^n)).map
        (fun j => ((ctx.root_of_unity : ℤ) : ZMod ctx.coeff_modulus.toNat)^j) := by
    show ((List.range ctx.degree).map
      (powModIter ctx.root_of_unity ctx.coeff_modulus)).map
        (fun x : ℤ => (x : ZMod ctx.coeff_modulus.toNat)) = _
    rw [hdeg]
    exact roots_table_cast ctx.coeff_modulus ctx.coeff_modulus.toNat hqn
      ctx.root_of_unity (2^n)
  have hTi : ctx.roots_of_unity_inv.map (fun x : ℤ => (x : ZMod ctx.coeff_modulus.toNat)) =
      (List.range (2^n)).map
        (fun j => ((((ctx.root_of_unity : ℤ) : ZMod ctx.coeff_modulus.toNat))⁻¹)^j) := by
    show ((List.range ctx.degree).map
      (powModIter (mod_inv ctx.root_of_unity ctx.coeff_modulus) ctx.coeff_modulus)).map
        (fun x : ℤ => (x : ZMod ctx.coeff_modulus.toNat)) = _
    rw [hdeg, roots_table_cast ctx.coeff_modulus ctx.coeff_modulus.toNat hqn _ (2^n)]
    apply List.map_congr_left
    intro j _
    rw [mod_inv_cast ctx.coeff_modulus ctx.coeff_modulus.toNat hqn hprime_nat _ hwz0]
  have htwf : ∀ logm i, 1 ≤ logm → logm ≤ n → i < 2^(logm-1) →
      (ctx.roots_of_unity.map (fun x : ℤ => (x : ZMod ctx.coeff_modulus.toNat))).getD
          (i <<< (1 + n - logm)) 0 =
        ((((ctx.root_of_unity : ℤ) : ZMod ctx.coeff_modulus.toNat))^2)^(i * 2^(n-logm)) := by
    intro logm i h1 h2 hi
    rw [hTf]
    exact power_table_htw _ n logm i h1 h2 hi
  have htwi : ∀ logm i, 1 ≤ logm → logm ≤ n → i < 2^(logm-1) →
      (ctx.roots_of_unity_inv.map (fun x : ℤ => (x : ZMod ctx.coeff_modulus.toNat))).getD
          (i <<< (1 + n - logm)) 0 =
        (((((ctx.root_of_unity : ℤ) : ZMod ctx.coeff_modulus.toNat))⁻¹)^2)^(i * 2^(n-logm)) := by
    intro logm i h1 h2 hi
    rw [hTi]
    exact power_table_htw _ n logm i h1 h2 hi
  have hIcast : ∀ (c : List ℤ), c.length = 2^n → ∀ i, i < 2^n →
      ((((List.range c.length).map
        (fun i => (c.getD i 0 * ctx.roots_of_unity.getD i 0) % ctx.coeff_modulus)).getD i 0 : ℤ)
          : ZMod ctx.coeff_modulus.toNat) =
        ((c.getD i 0 : ℤ) : ZMod ctx.coeff_modulus.toNat) *
          ((ctx.root_of_unity : ℤ) : ZMod ctx.coeff_modulus.toNat)^i := by
    intro c hc i hi
    rw [hc, getD_map_range _ _ _ 0 hi]
    beta_reduce
    rw [intCast_emod_eq ctx.coeff_modulus.toNat _ _ (dvd_of_eq hqn)]
    push_cast
    have htab : ((ctx.roots_of_unity.getD i 0 : ℤ) : ZMod ctx.coeff_modulus.toNat) =
        ((ctx.root_of_unity : ℤ) : ZMod ctx.coeff_modulus.toNat)^i := by
      rw [← map_intCast_getD ctx.coeff_modulus.toNat ctx.roots_of_unity i, hTf,
        getD_map_range _ _ _ 0 hi]
    rw [htab]
  have hFwd : ∀ (c : List ℤ), c.length = 2^n → ∀ k, k < 2^n →
      (((ctx.ftt_fwd c).getD k 0 : ℤ) : ZMod ctx.coeff_modulus.toNat) =
        ∑ l ∈ Finset.range (2^n),
          (((c.getD l 0 : ℤ) : ZMod ctx.coeff_modulus.toNat) *
            ((ctx.root_of_unity : ℤ) : ZMod ctx.coeff_modulus.toNat)^l) *
            ((((ctx.root_of_unity : ℤ) : ZMod ctx.coeff_modulus.toNat))^2)^(k * l) := by
    intro c hc k hk
    rw [← map_intCast_getD ctx.coeff_modulus.toNat _ k]
    show ((ctx.ntt ((List.range c.length).map
        (fun i => (c.getD i 0 * ctx.roots_of_unity.getD i 0) % ctx.coeff_modulus))
      ctx.roots_of_unity).map (fun x : ℤ => (x : ZMod ctx.coeff_modulus.toNat))).getD k 0 = _
    rw [ntt_cast_dft ctx ctx.coeff_modulus.toNat hqn ctx.roots_of_unity _ n
      (by rw [List.length_map, List.length_range, hc]) _ htwf hζ]
    rw [dftStage_final _ n _ k hk]
    apply Finset.sum_congr rfl
    intro l hl
    rw [map_intCast_getD, hIcast c hc l (Finset.mem_range.mp hl)]
  have hablen : ((List.range (2^n)).map (fun i =>
      (ctx.ftt_fwd p1.coeffs).getD i 0 * (ctx.ftt_fwd p2.coeffs).getD i 0)).length
        = 2^n := by
    rw [List.length_map, List.length_range]
  have hTsd : ∀ j, j < 2^n →
      (((ctx.ntt ((List.range (2^n)).map (fun i =>
          (ctx.ftt_fwd p1.coeffs).getD i 0 * (ctx.ftt_fwd p2.coeffs).getD i 0))
        ctx.roots_of_unity_inv).getD j 0 : ℤ) : ZMod ctx.coeff_modulus.toNat) =
        ((ncCoeff p1.coeffs p2.coeffs (2^n) j : ℤ) : ZMod ctx.coeff_modulus.toNat) *
          ((ctx.root_of_unity : ℤ) : ZMod ctx.coeff_modulus.toNat)^j *
          ((2^n : ℕ) : ZMod ctx.coeff_modulus.toNat) := by
    intro j hj
    rw [← map_intCast_getD ctx.coeff_modulus.toNat _ j]
    rw [ntt_cast_dft ctx ctx.coeff_modulus.toNat hqn ctx.roots_of_unity_inv _ n hablen _
      htwi hζi]
    rw [dftStage_final _ n _ j hj]
    have hstep : ∀ k ∈ Finset.range (2^n),
        (((List.range (2^n)).map (fun i =>
          (ctx.ftt_fwd p1.coeffs).getD i 0 * (ctx.ftt_fwd p2.coeffs).getD i 0)).map
            (fun x : ℤ => (x : ZMod ctx.coeff_modulus.toNat))).getD k 0 *
          (((((ctx.root_of_unity : ℤ) : ZMod ctx.coeff_modulus.toNat))⁻¹)^2)^(j * k) =
        (∑ l ∈ Finset.range (2^n),
          (((p1.coeffs.getD l 0 : ℤ) : ZMod ctx.coeff_modulus.toNat) *
            ((ctx.root_of_unity : ℤ) : ZMod ctx.coeff_modulus.toNat)^l) *
            ((((ctx.root_of_unity : ℤ) : ZMod ctx.coeff_modulus.toNat))^2)^(k*l)) *
        (∑ t ∈ Finset.range (2^n),
          (((p2.coeffs.getD t 0 : ℤ) : ZMod ctx.coeff_modulus.toNat) *
            ((ctx.root_of_unity : ℤ) : ZMod ctx.coeff_modulus.toNat)^t) *
            ((((ctx.root_of_unity : ℤ) : ZMod ctx.coeff_modulus.toNat))^2)^(k*t)) *
          (((((ctx.root_of_unity : ℤ) : ZMod ctx.coeff_modulus.toNat))^2)⁻¹)^(k*j) := by
      intro k hk
      have hk' := Finset.mem_range.mp hk
      rw [map_intCast_getD]
      rw [getD_map_range _ _ _ 0 hk']
      beta_reduce
      push_cast
      rw [hFwd p1.coeffs hl1 k hk', hFwd p2.coeffs hl2 k hk']
      rw [inv_pow, mul_comm j k]
    rw [Finset.sum_congr rfl hstep]
    rw [dft_convolution ((((ctx.root_of_unity : ℤ) : ZMod ctx.coeff_modulus.toNat))^2) n hn
      hζ hne (fun l => ((p1.coeffs.getD l 0 : ℤ) : ZMod ctx.coeff_modulus.toNat) *
        ((ctx.root_of_unity : ℤ) : ZMod ctx.coeff_modulus.toNat)^l)
      (fun t => ((p2.coeffs.getD t 0 : ℤ) : ZMod ctx.coeff_modulus.toNat) *
        ((ctx.root_of_unity : ℤ) : ZMod ctx.coeff_modulus.toNat)^t) j hj]
    rw [nc_from_cyclic ((ctx.root_of_unity : ℤ) : ZMod ctx.coeff_modulus.toNat) n hwN
      (fun l => ((p1.coeffs.getD l 0 : ℤ) : ZMod ctx.coeff_modulus.toNat))
      (fun t => ((p2.coeffs.getD t 0 : ℤ) : ZMod ctx.coeff_modulus.toNat)) j hj]
    rw [← convCoeff_double_cast, ← convCoeff_double_cast]
    unfold ncCoeff
    push_cast
    ring
  have hTiD : ∀ j, j < 2^n →
      ((ctx.roots_of_unity_inv.getD j 0 : ℤ) : ZMod ctx.coeff_modulus.toNat) =
        ((((ctx.root_of_unity : ℤ) : ZMod ctx.coeff_modulus.toNat))⁻¹)^j := by
    intro j hj
    rw [← map_intCast_getD ctx.coeff_modulus.toNat _ j, hTi, getD_map_range _ _ _ 0 hj]
  have hNF0 : (((2^n : ℕ) : ℤ) : ZMod ctx.coeff_modulus.toNat) ≠ 0 := by
    intro h
    rw [ZMod.intCast_zmod_eq_zero_iff_dvd] at h
    have h2 := Int.le_of_dvd (by positivity) h
    rw [hAZ] at h2
    have h4 : (0:ℤ) ≤ 2^n := by positivity
    have h3 : (2:ℤ) * 2^n + 1 ≤ (ctx.coeff_modulus.toNat : ℤ) := by
      rw [hqn]
      exact hq5
    linarith
  have hNF0nat : (((2^n : ℕ)) : ZMod ctx.coeff_modulus.toNat) ≠ 0 := by
    intro h
    apply hNF0
    rw [Int.cast_natCast]
    exact h
  have hNinv : ((mod_inv (ctx.degree : ℤ) ctx.coeff_modulus : ℤ) : ZMod ctx.coeff_modulus.toNat)
      = ((((2^n : ℕ)) : ZMod ctx.coeff_modulus.toNat))⁻¹ := by
    rw [hdeg, mod_inv_cast ctx.coeff_modulus ctx.coeff_modulus.toNat hqn hprime_nat _ hNF0]
    rw [Int.cast_natCast]
  intro j hj
  show ((List.range ((List.range p1.ring_degree).map (fun i =>
      (ctx.ftt_fwd p1.coeffs).getD i 0 * (ctx.ftt_fwd p2.coeffs).getD i 0)).length).map
    (fun i => ((ctx.ntt ((List.range p1.ring_degree).map (fun i =>
        (ctx.ftt_fwd p1.coeffs).getD i 0 * (ctx.ftt_fwd p2.coeffs).getD i 0))
      ctx.roots_of_unity_inv).getD i 0 *
        ctx.roots_of_unity_inv.getD i 0 *
        mod_inv (ctx.degree : ℤ) ctx.coeff_modulus) % ctx.coeff_modulus)).getD j 0 =
    ncCoeff p1.coeffs p2.coeffs (2^n) j % ctx.coeff_modulus
  rw [hd1, hablen, getD_map_range _ _ _ 0 hj]
  beta_reduce
  apply int_eq_of_cast_eq ctx.coeff_modulus ctx.coeff_modulus.toNat hqn _ _
    (Int.emod_nonneg _ (by omega)) (Int.emod_lt_of_pos _ (by omega))
    (Int.emod_nonneg _ (by omega)) (Int.emod_lt_of_pos _ (by omega))
  rw [intCast_emod_eq ctx.coeff_modulus.toNat _ _ (dvd_of_eq hqn),
    intCast_emod_eq ctx.coeff_modulus.toNat _ _ (dvd_of_eq hqn)]
  push_cast
  rw [hTsd j hj, hTiD j hj, hNinv]
  exact round_trip_scalar _ _ _ j hwz0 hNF0nat

set_option maxHeartbeats 2000000 in
theorem multiply_crt_eq_ncList (p1 p2 : Polynomial) (n : ℕ) (hn : 1 ≤ n)
    (crt : CRTContext) (hcd : crt.poly_degree = 2^n)
    (hpr : ∀ p ∈ crt.primes, Prime p) (hpos : ∀ p ∈ crt.primes, 0 < p)
    (hdist : crt.primes.Pairwise (· ≠ ·))
    (hq1 : ∀ i, i < crt.primes.length → ((2 * 2^n : ℕ) : ℤ) ∣ crt.primes.getD i 0 - 1)
    (hroot : ∀ i, i < crt.primes.length →
      crt.primes.getD i 0 ∣ crt.roots.getD i 0 ^ (2^n) + 1)
    (hd1 : p1.ring_degree = 2^n)
    (hl1 : p1.coeffs.length = 2^n) (hl2 : p2.coeffs.length = 2^n)
    (hsmall : ∀ j, j < 2^n → 2 * |ncCoeff p1.coeffs p2.coeffs (2^n) j| < crt.modulus) :
    p1.multiply_crt p2 crt = (⟨2^n, ncList (2^n) p1.coeffs p2.coeffs⟩ : Polynomial) := by
  have hQprod : crt.modulus = ∏ i ∈ Finset.range crt.primes.length, crt.primes.getD i 0 := by
    show crt.primes.foldl (· * ·) 1 = _
    rw [foldl_mul_eq_prod, one_mul]
  have hQpos : 0 < crt.modulus := by
    rw [hQprod]
    exact Finset.prod_pos
      (fun i hi => hpos _ (getD_mem_of_lt _ i (Finset.mem_range.mp hi)))
  have hntts : ∀ i, i < crt.primes.length → crt.ntts.getD i ⟨0, 0, 0⟩ =
      (⟨crt.poly_degree, crt.primes.getD i 0, crt.roots.getD i 0⟩ : NTTContext) := by
    intro i hi
    show ((List.range crt.primes.length).map _).getD i _ = _
    rw [getD_map_range _ _ _ _ hi]
  have hmods : ∀ i, i < crt.primes.length → ∀ j, j < 2^n →
      (p1.multiply_ntt p2 (crt.ntts.getD i ⟨0,0,0⟩)).coeffs.getD j 0 =
        ncCoeff p1.coeffs p2.coeffs (2^n) j % crt.primes.getD i 0 := by
    intro i hi j hj
    rw [hntts i hi]
    exact multiply_ntt_mod p1 p2 n hn ⟨crt.poly_degree, crt.primes.getD i 0,
        crt.roots.getD i 0⟩ hcd
      (hpr _ (getD_mem_of_lt _ i hi)) (hpos _ (getD_mem_of_lt _ i hi))
      (hq1 i hi) (hroot i hi) hd1 hl1 hl2 j hj
  have hvals : ∀ j, j < 2^n →
      ((List.range crt.primes.length).map (fun i =>
        p1.multiply_ntt p2 (crt.ntts.getD i ⟨0,0,0⟩))).map
          (fun pp => pp.coeffs.getD j 0) =
        crt.crt (ncCoeff p1.coeffs p2.coeffs (2^n) j) := by
    intro j hj
    rw [List.map_map]
    apply List.ext_getElem
    · rw [List.length_map, List.length_range]
      show _ = (crt.primes.map _).length
      rw [List.length_map]
    · intro i hi1 hi2
      have hiK : i < crt.primes.length := by
        rw [List.length_map, List.length_range] at hi1
        exact hi1
      rw [← List.getD_eq_getElem _ 0 hi1, ← List.getD_eq_getElem _ 0 hi2]
      rw [getD_map_range _ _ _ 0 hiK]
      show (p1.multiply_ntt p2 (crt.ntts.getD i ⟨0,0,0⟩)).coeffs.getD j 0 =
        (crt.primes.map (fun p => ncCoeff p1.coeffs p2.coeffs (2^n) j % p)).getD i 0
      rw [getD_map_lt _ _ i 0 0 hiK]
      exact hmods i hiK j hj
  have hloop : p1.multiply_crt p2 crt = (⟨p1.ring_degree,
      ((((List.range p1.ring_degree).map (fun j => crt.reconstruct
        (((List.range crt.primes.length).map (fun i =>
          p1.multiply_ntt p2 (crt.ntts.getD i ⟨0,0,0⟩))).map
            (fun pp => pp.coeffs.getD j 0)))).map (· % crt.modulus)).map
        (fun c => if crt.modulus.fdiv 2 < c then c - crt.modulus else c))⟩ : Polynomial) := by
    unfold Polynomial.multiply_crt Polynomial.mod_small
    rfl
  rw [hloop, hd1]
  apply poly_eq_of_parts
  · rfl
  · apply List.ext_getElem
    · rw [List.length_map, List.length_map, List.length_map, List.length_range, ncList_length]
    · intro j hj1 hj2
      have hjN : j < 2^n := by
        rw [List.length_map, List.length_map, List.length_map, List.length_range] at hj1
        exact hj1
      rw [← List.getD_eq_getElem _ 0 hj1, ← List.getD_eq_getElem _ 0 hj2]
      rw [getD_map_lt _ _ j 0 0
        (by rw [List.length_map, List.length_map, List.length_range]; exact hjN)]
      rw [getD_map_lt _ _ j 0 0
        (by rw [List.length_map, List.length_range]; exact hjN)]
      rw [getD_map_range _ _ _ 0 hjN]
      beta_reduce
      rw [hvals j hjN]
      rw [(crt_reconstruct_core crt hpr hpos hdist
        (ncCoeff p1.coeffs p2.coeffs (2^n) j)).1]
      rw [Int.emod_emod_of_dvd _ dvd_rfl]
      rw [mod_small_centered _ _ hQpos (hsmall j hjN)]
      rw [ncList_getD _ _ _ j hjN]

theorem nc_poly_mod_eq_naive (p1 p2 : Polynomial) (n : ℕ) (q : ℤ) (hq : q ≠ 0)
    (hd1 : p1.ring_degree = 2^n) :
    (⟨2^n, ncList (2^n) p1.coeffs p2.coeffs⟩ : Polynomial).mod q =
      p1.multiply_naive p2 (some q) := by
  apply poly_eq_of_parts
  · exact hd1.symm
  · show (ncList (2^n) p1.coeffs p2.coeffs).map (· % q) =
      (p1.multiply_naive p2 (some q)).coeffs
    apply List.ext_getElem
    · rw [List.length_map, ncList_length, multiply_naive_coeffs_length, hd1]
    · intro j hj1 hj2
      have hjN : j < 2^n := by
        rw [List.length_map, ncList_length] at hj1
        exact hj1
      rw [← List.getD_eq_getElem _ 0 hj1, ← List.getD_eq_getElem _ 0 hj2]
      rw [getD_map_lt _ _ j 0 0 (by rw [ncList_length]; exact hjN)]
      rw [ncList_getD _ _ _ j hjN]
      rw [multiply_naive_getD p1 p2 (some q) j (by rw [hd1]; exact hjN)]
      show ncCoeff p1.coeffs p2.coeffs (2^n) j % q =
        applyRed (some q) (ncCoeff p1.coeffs p2.coeffs p1.ring_degree j)
      rw [hd1]
      simp only [applyRed]
      rw [if_neg hq]

/-- C4: for polynomials of power-of-two ring degree 2^n (n >= 1), the three
multiplication algorithms agree in R_q: with exact arithmetic on the FFT
path (floats modelled as exact reals), multiply_fft computes exactly the
negacyclic convolution, and so does multiply_crt whenever the CRT primes
are distinct positive primes = 1 mod 2^(n+1) with negacyclic roots (what
generation guarantees) and the convolution coefficients are small enough
that the mod_small(Q) representative is exact (2|coeff| < Q); reducing
either mod q gives multiply_naive with modulus q.  The witness instantiates
N=4, q=73 with [0,1,4,5]*[1,2,4,3] = [44,42,64,17]. -/
theorem multiply_algorithms_agree (p1 p2 : Polynomial) (n : ℕ) (hn : 1 ≤ n)
    (q : ℤ) (hq : q ≠ 0)
    (crt : CRTContext) (hcd : crt.poly_degree = 2^n)
    (hpr : ∀ p ∈ crt.primes, Prime p) (hpos : ∀ p ∈ crt.primes, 0 < p)
    (hdist : crt.primes.Pairwise (· ≠ ·))
    (hq1 : ∀ i, i < crt.primes.length → ((2 * 2^n : ℕ) : ℤ) ∣ crt.primes.getD i 0 - 1)
    (hroot : ∀ i, i < crt.primes.length →
      crt.primes.getD i 0 ∣ crt.roots.getD i 0 ^ (2^n) + 1)
    (hd1 : p1.ring_degree = 2^n)
    (hl1 : p1.coeffs.length = 2^n) (hl2 : p2.coeffs.length = 2^n)
    (hsmall : ∀ j, j < 2^n → 2 * |ncCoeff p1.coeffs p2.coeffs (2^n) j| < crt.modulus) :
    (p1.multiply_fft p2).mod q = p1.multiply_naive p2 (some q) ∧
    (p1.multiply_crt p2 crt).mod q = p1.multiply_naive p2 (some q) ∧
    p1.multiply_fft p2 = (⟨2^n, ncList (2^n) p1.coeffs p2.coeffs⟩ : Polynomial) ∧
    p1.multiply_crt p2 crt = (⟨2^n, ncList (2^n) p1.coeffs p2.coeffs⟩ : Polynomial) := by
  have hfft := multiply_fft_eq_ncList p1 p2 n hd1 hl1 hl2
  have hcrt := multiply_crt_eq_ncList p1 p2 n hn crt hcd hpr hpos hdist hq1 hroot
    hd1 hl1 hl2 hsmall
  have hnaive := nc_poly_mod_eq_naive p1 p2 n q hq hd1
  exact ⟨by rw [hfft, hnaive], by rw [hcrt, hnaive], hfft, hcrt⟩

/-- C4 witness: degree 4, modulus 73, CRT context with the single prime 73
and root 10; the claim theorem gives the CRT/naive agreement and the
negacyclic product, and the naive product evaluates to [44, 42, 64, 17]. -/
theorem multiply_algorithms_agree_witness :
    ((Polynomial.multiply_crt ⟨4, [0,1,4,5]⟩ ⟨4, [1,2,4,3]⟩ ⟨4, [73], [10]⟩).mod 73 =
      Polynomial.multiply_naive ⟨4, [0,1,4,5]⟩ ⟨4, [1,2,4,3]⟩ (some 73)) ∧
    Polynomial.multiply_crt ⟨4, [0,1,4,5]⟩ ⟨4, [1,2,4,3]⟩ ⟨4, [73], [10]⟩ =
      (⟨4, ncList 4 [0,1,4,5] [1,2,4,3]⟩ : Polynomial) ∧
    Polynomial.multiply_naive ⟨4, [0,1,4,5]⟩ ⟨4, [1,2,4,3]⟩ (some 73) =
      (⟨4, [44, 42, 64, 17]⟩ : Polynomial) :=
  have h := multiply_algorithms_agree ⟨4, [0,1,4,5]⟩ ⟨4, [1,2,4,3]⟩ 2 (by norm_num)
    73 (by norm_num) ⟨4, [73], [10]⟩ rfl
    (by intro p hp; fin_cases hp <;> norm_num)
    (by intro p hp; fin_cases hp <;> norm_num)
    (by decide) (by decide) (by decide)
    rfl rfl rfl
    (by decide)
  ⟨h.2.1, h.2.2.2, by decide⟩

end PyFhe